import Mathlib

/-!
Verification of the `Graph_Theory` repository (directed graphs with Kosaraju
SCC, an adjacency-matrix undirected graph with BFS, and a flow network with
Edmonds-Karp max-flow).

The Python sources are shallowly embedded:

* Python `dict`s (insertion-ordered, unique keys) become association lists
  (`alookup` / `ainsert` / `aupdate` below reproduce dict lookup, `d[k] = v`
  assignment, and in-place value mutation, all preserving entry order).
* Python `set`s of vertices become duplicate-free lists; `set.add` is
  `setAdd`.  A Python builtin set has no specified iteration order (it is
  hash-order); the list order in the embedding is the stand-in for whatever
  order the interpreter produces.
* Numeric values (`float` capacities, flows and weights) become `ℚ`.
* In-place mutation becomes explicit state passing; a raised `KeyError`
  becomes an error constructor carrying the state at the moment of the
  raise.
* Unbounded `while` loops and recursion become fuel-indexed recursion; the
  fuel chosen internally for the BFS/DFS loops is proved (or argued in a
  comment) adequate, and exhaustion is a separate `noFuel` outcome that the
  theorems rule out.
-/

/- The Batteries rational-number operations are `@[irreducible]`, which keeps
`decide` from evaluating concrete networks; restore semireducibility for this
development (proof terms are unaffected). -/
attribute [local semireducible] Rat.add Rat.sub Rat.mul Rat.inv

/-! ## Association-list and set helpers (Python dict / set semantics) -/

def alookup {α β : Type} [DecidableEq α] : List (α × β) → α → Option β
  | [], _ => none
  | (k, b) :: rest, a => if k = a then some b else alookup rest a

/-- Python dict assignment `d[k] = v`: replaces the value in place (keeping
the entry's position) when the key is present, otherwise appends. -/
def ainsert {α β : Type} [DecidableEq α] (a : α) (b : β) : List (α × β) → List (α × β)
  | [] => [(a, b)]
  | (k, c) :: rest => if k = a then (a, b) :: rest else (k, c) :: ainsert a b rest

/-- In-place mutation of the value stored under a key (first occurrence). -/
def aupdate {α β : Type} [DecidableEq α] (f : β → β) (a : α) : List (α × β) → List (α × β)
  | [] => []
  | (k, b) :: rest => if k = a then (k, f b) :: rest else (k, b) :: aupdate f a rest

/-- Python `set.add`. -/
def setAdd {α : Type} [DecidableEq α] (x : α) (l : List α) : List α :=
  if x ∈ l then l else l ++ [x]

/-! ## Flow networks (`graph_theory/flow.py`)

`FlowNode` extends `Node` with `inflow`/`outflow`; only the fields the flow
algorithms read are embedded (`visited`/`_scc_rep` are never touched by
`flow.py`).  Python `Node._in`/`_out` are sets of node objects; since a graph
built through the API holds exactly one node object per id, they are embedded
as duplicate-free lists of ids. -/

namespace Flow

structure Arc where
  start : String
  end_ : String
  capacity : ℚ
  flow : ℚ
deriving DecidableEq

/-- `Arc.residual_fwd`: remaining capacity to push more flow forward. -/
def Arc.residual_fwd (a : Arc) : ℚ := a.capacity - a.flow

/-- `Arc.residual_back`: residual capacity on the reverse edge. -/
def Arc.residual_back (a : Arc) : ℚ := a.flow

structure FlowNode where
  id : String
  _in : List String
  _out : List String
  inflow : ℚ
  outflow : ℚ
deriving DecidableEq

/-- `FlowNode(name)`. -/
def FlowNode.mkNew (name : String) : FlowNode := ⟨name, [], [], 0, 0⟩

structure Network where
  nodes : List (String × FlowNode)          -- `self._nodes` (dict, insertion order)
  arcs : List ((String × String) × Arc)     -- `self.arcs` (dict, insertion order)
deriving DecidableEq

def getNode (net : Network) (k : String) : Option FlowNode := alookup net.nodes k

def lookupArc (net : Network) (k : String × String) : Option Arc := alookup net.arcs k

def nodeIds (net : Network) : List String := net.nodes.map Prod.fst

def arcKeys (net : Network) : List (String × String) := net.arcs.map Prod.fst

/-- `DiGraph.add_vertex` as inherited by `Network` (skips an existing id). -/
def add_vertex (net : Network) (v : FlowNode) : Network :=
  if v.id ∈ nodeIds net then net
  else { net with nodes := net.nodes ++ [(v.id, v)] }

def add_vertices (net : Network) (vs : List FlowNode) : Network :=
  vs.foldl add_vertex net

/-- `Network.add_arc`: on success mutates adjacency and registers the `Arc`;
on unknown endpoints raises `KeyError` leaving the network untouched.  The
pair result models in-place mutation together with the possible exception. -/
def add_arc (net : Network) (arc : String × String × ℚ) : Except Unit Unit × Network :=
  let u := arc.1
  let v := arc.2.1
  let cap := arc.2.2
  if u ∈ nodeIds net ∧ v ∈ nodeIds net then
    let nodes1 := aupdate (fun n => { n with _out := setAdd v n._out }) u net.nodes
    let nodes2 := aupdate (fun n => { n with _in := setAdd u n._in }) v nodes1
    (Except.ok (), { nodes := nodes2, arcs := ainsert (u, v) ⟨u, v, cap, 0⟩ net.arcs })
  else
    (Except.error (), net)

def add_arcs (net : Network) (arcs : List (String × String × ℚ)) : Network :=
  arcs.foldl (fun n a => (add_arc n a).2) net

/-- `Network(vertices, arcs)`. -/
def mkNetwork (vs : List String) (arcs : List (String × String × ℚ)) : Network :=
  add_arcs (add_vertices ⟨[], []⟩ (vs.map FlowNode.mkNew)) arcs

/-! ### `_bfs_augmenting_path` -/

/-- One entry of the `parent` map / reconstructed path: the tuple
`(u, v, arc, dir)` of the source, with the arc kept as its dict key (arcs are
not mutated during the BFS, so reading the arc through the key at
reconstruction time equals reading the stored object reference). -/
structure PathStep where
  u : String
  x : String
  key : String × String
  dir : Int
deriving DecidableEq

structure BFSState where
  queue : List String
  parent : List (String × PathStep)
  visited : List String            -- Python set; kept in discovery order
deriving DecidableEq

/-- Forward scan `for v in self[u].out_neighbors: ...` with the early `break`
when the sink is reached. -/
def forwardScan (net : Network) (t u : String) : List String → BFSState → BFSState
  | [], st => st
  | v :: rest, st =>
    match lookupArc net (u, v) with
    | none => forwardScan net t u rest st
    | some a =>
      if 0 < a.residual_fwd ∧ v ∉ st.visited then
        if v = t then
          ⟨st.queue, st.parent ++ [(v, ⟨u, v, (u, v), 1⟩)], st.visited ++ [v]⟩
        else
          forwardScan net t u rest
            ⟨st.queue ++ [v], st.parent ++ [(v, ⟨u, v, (u, v), 1⟩)], st.visited ++ [v]⟩
      else forwardScan net t u rest st

/-- Backward scan `for p in self[u].in_neighbors: ...`. -/
def backwardScan (net : Network) (t u : String) : List String → BFSState → BFSState
  | [], st => st
  | p :: rest, st =>
    match lookupArc net (p, u) with
    | none => backwardScan net t u rest st
    | some a =>
      if 0 < a.residual_back ∧ p ∉ st.visited then
        if p = t then
          ⟨st.queue, st.parent ++ [(p, ⟨u, p, (p, u), -1⟩)], st.visited ++ [p]⟩
        else
          backwardScan net t u rest
            ⟨st.queue ++ [p], st.parent ++ [(p, ⟨u, p, (p, u), -1⟩)], st.visited ++ [p]⟩
      else backwardScan net t u rest st

inductive BfsLoopRes where
  | finished (st : BFSState)
  | keyError
  | noFuel
deriving DecidableEq

/-- The `while queue:` loop.  Fuel counts dequeue steps; each enqueue is of a
freshly visited vertex, so `net.nodes.length + 1` steps always suffice for a
graph built through the API (proved below as `bfsLoop_adequate`). -/
def bfsLoop (net : Network) (t : String) : ℕ → BFSState → BfsLoopRes
  | fuel, st =>
    match st.queue with
    | [] => .finished st
    | u :: rest =>
      match fuel with
      | 0 => .noFuel
      | f + 1 =>
        match getNode net u with
        | none => .keyError                     -- `self[u]` raises KeyError
        | some nd =>
          let st1 := forwardScan net t u nd._out { st with queue := rest }
          let st2 := backwardScan net t u nd._in st1
          if t ∈ st2.visited then .finished st2 else bfsLoop net t f st2

/-- Path reconstruction `while v != s: ...` walking the parent map; produces
the list in append order (sink side first), which the caller reverses.  The
`none` results (missing parent entry / fuel) are unreachable for states the
BFS produces. -/
def walkPath (parent : List (String × PathStep)) (s : String) :
    ℕ → String → Option (List PathStep)
  | 0, _ => none
  | f + 1, v =>
    if v = s then some []
    else
      match alookup parent v with
      | none => none
      | some e => (walkPath parent s f e.u).map (fun l => e :: l)

/-- Residual capacity of a path step, `arc.residual_fwd` or
`arc.residual_back` according to the stored direction. -/
def residOf (net : Network) (e : PathStep) : ℚ :=
  match lookupArc net e.key with
  | some a => if e.dir = 1 then a.residual_fwd else a.residual_back
  | none => 0          -- unreachable: every parent entry holds a live arc key

/-- `bottleneck = min(inf, r1, ..., rk)`; the path is never empty when this
is computed (the sink differs from the source), so the `float("inf")` seed
reduces to the plain minimum of the residuals. -/
def bottleneck (net : Network) (p : List PathStep) : ℚ :=
  match p.map (residOf net) with
  | [] => 0
  | r :: rs => rs.foldl min r

inductive BfsOut where
  | found (b : ℚ) (path : List PathStep)
  | nopath
  | keyError
  | noFuel
deriving DecidableEq

/-- `Network._bfs_augmenting_path`. -/
def bfs_augmenting_path (net : Network) (s t : String) : BfsOut :=
  let st0 : BFSState := ⟨[s], [], [s]⟩
  match bfsLoop net t (net.nodes.length + 1) st0 with
  | .keyError => .keyError
  | .noFuel => .noFuel
  | .finished st =>
    if t ∈ st.visited then
      match walkPath st.parent s (st.parent.length + 1) t with
      | none => .noFuel
      | some rev => .found (bottleneck net rev) rev.reverse
    else .nopath

/-! ### `max_flow` -/

/-- One step of the augmentation loop body:
`arc.flow += path_flow` / `arc.flow -= path_flow`. -/
def augmentArc (b : ℚ) (arcs : List ((String × String) × Arc)) (e : PathStep) :
    List ((String × String) × Arc) :=
  if e.dir = 1 then aupdate (fun a => { a with flow := a.flow + b }) e.key arcs
  else aupdate (fun a => { a with flow := a.flow - b }) e.key arcs

def augment (net : Network) (b : ℚ) (path : List PathStep) : Network :=
  { net with arcs := path.foldl (augmentArc b) net.arcs }

/-- Reset of all arc flows and node statistics at the top of `max_flow`. -/
def resetFlows (net : Network) : Network :=
  { nodes := net.nodes.map (fun p => (p.1, { p.2 with inflow := 0, outflow := 0 })),
    arcs := net.arcs.map (fun p => (p.1, { p.2 with flow := 0 })) }

/-- Post-loop update of every node's inflow/outflow from the arc flows.
Python would raise on an unregistered endpoint; `add_arc` guarantees both
endpoints are registered, so the missing-key case cannot arise and `aupdate`'s
no-op there is harmless. -/
def updateStats (net : Network) : Network :=
  { net with
    nodes := net.arcs.foldl
      (fun ns p =>
        aupdate (fun n => { n with inflow := n.inflow + p.2.flow }) p.1.2
          (aupdate (fun n => { n with outflow := n.outflow + p.2.flow }) p.1.1 ns))
      net.nodes }

inductive MFRes where
  | ok (v : ℚ)
  | keyError
  | noFuel
deriving DecidableEq

/-- The `while True:` augmentation loop, fuel-indexed. -/
def mfLoop (s t : String) : ℕ → ℚ → Network → MFRes × Network
  | 0, _, net => (.noFuel, net)
  | f + 1, acc, net =>
    match bfs_augmenting_path net s t with
    | .keyError => (.keyError, net)
    | .noFuel => (.noFuel, net)
    | .nopath => (.ok acc, net)
    | .found b path => mfLoop s t f (acc + b) (augment net b path)

/-- `Network.max_flow`. -/
def max_flow (net : Network) (source sink : String) (fuel : ℕ) : MFRes × Network :=
  if source = sink then (.ok 0, net)
  else
    match mfLoop source sink fuel 0 (resetFlows net) with
    | (.ok v, net2) => (.ok v, updateStats net2)
    | other => other

end Flow

/-! ## Directed graphs (`graph_theory/directed.py`)

`Node.access_to` / `accessible_from` (populated only by the explicit
`expand` pass) are never read by the SCC computation and are omitted.
`_scc_rep` holds a node object in Python; since a graph built through the
API has exactly one node object per id it is embedded as the node's id. -/

namespace Directed

structure Node where
  id : String
  _in : List String
  _out : List String
  visited : Bool
  _scc_rep : Option String
deriving DecidableEq

def Node.mkNew (name : String) : Node := ⟨name, [], [], false, none⟩

structure DiGraph where
  nodes : List (String × Node)        -- `self._nodes` (dict, insertion order)
deriving DecidableEq

def getNode (g : DiGraph) (k : String) : Option Node := alookup g.nodes k

def nodeIds (g : DiGraph) : List String := g.nodes.map Prod.fst

def add_vertex (g : DiGraph) (v : Node) : DiGraph :=
  if v.id ∈ nodeIds g then g else ⟨g.nodes ++ [(v.id, v)]⟩

def add_vertices (g : DiGraph) (vs : List Node) : DiGraph :=
  vs.foldl add_vertex g

/-- `DiGraph.add_edge`: both endpoints are checked before any mutation;
unknown endpoints raise `KeyError` with the graph untouched. -/
def add_edge (g : DiGraph) (e : String × String) : Except Unit Unit × DiGraph :=
  if e.1 ∈ nodeIds g ∧ e.2 ∈ nodeIds g then
    let n1 := aupdate (fun n => { n with _out := setAdd e.2 n._out }) e.1 g.nodes
    let n2 := aupdate (fun n => { n with _in := setAdd e.1 n._in }) e.2 n1
    (Except.ok (), ⟨n2⟩)
  else
    (Except.error (), g)

def add_edges (g : DiGraph) (es : List (String × String)) : DiGraph :=
  es.foldl (fun g1 e => (add_edge g1 e).2) g

def mkDiGraph (vs : List String) (es : List (String × String)) : DiGraph :=
  add_edges (add_vertices ⟨[]⟩ (vs.map Node.mkNew)) es

/-- `Node.reset()` (with `clear=False`) applied to every node. -/
def resetAll (g : DiGraph) : DiGraph :=
  ⟨g.nodes.map (fun p => (p.1, { p.2 with visited := false, _scc_rep := none }))⟩

def setVisited (g : DiGraph) (v : String) : DiGraph :=
  ⟨aupdate (fun n => { n with visited := true }) v g.nodes⟩

def setRep (g : DiGraph) (v root : String) : DiGraph :=
  ⟨aupdate (fun n => { n with _scc_rep := some root }) v g.nodes⟩

/-- `DiGraph._dfs_visit` with its `for nxt in v.out_neighbors` loop fused
into one recursion: `dfsStep fuel g (v :: vs) ord` runs `_dfs_visit(v)` (skip
if visited, else mark, recurse into `v._out`, then `ordering.appendleft(v)`)
and continues with the remaining neighbours `vs`.  Fuel is spent once per
step; an adequate amount is proved to exist below.  The missing-node case
cannot arise through the API (Python recurses on live node objects). -/
def dfsStep : ℕ → DiGraph → List String → List String → Option (DiGraph × List String)
  | 0, _, _, _ => none
  | _ + 1, g, [], ord => some (g, ord)
  | f + 1, g, v :: vs, ord =>
    match getNode g v with
    | none => dfsStep f g vs ord
    | some nd =>
      if nd.visited then dfsStep f g vs ord
      else
        match dfsStep f (setVisited g v) nd._out ord with
        | none => none
        | some (g2, ord2) => dfsStep f g2 vs (v :: ord2)   -- `ordering.appendleft(v)`

/-- Fuel bound for a whole first pass: vertex count + total out-degree + 2. -/
def dfsFuel (g : DiGraph) : ℕ :=
  g.nodes.length + g.nodes.foldl (fun acc p => acc + p.2._out.length) 0 + 2

/-- First Kosaraju pass: `for v in self._nodes.values(): self._dfs_visit(v, ordering)`. -/
def pass1 (g : DiGraph) : Option (DiGraph × List String) :=
  (nodeIds g).foldl
    (fun acc v =>
      match acc with
      | none => none
      | some (g1, ord) => dfsStep (dfsFuel g1) g1 [v] ord)
    (some (g, []))

/-- `DiGraph._assign` with its `for nxt in v.in_neighbors` loop fused, in the
same style as `dfsStep`: skip if a representative is already set, else set it
and recurse into `v._in`. -/
def assignStep : ℕ → DiGraph → List String → String → Option DiGraph
  | 0, _, _, _ => none
  | _ + 1, g, [], _ => some g
  | f + 1, g, v :: vs, root =>
    match getNode g v with
    | none => assignStep f g vs root
    | some nd =>
      match nd._scc_rep with
      | some _ => assignStep f g vs root                 -- `if v.scc_rep: return`
      | none =>
        match assignStep f (setRep g v root) nd._in root with
        | none => none
        | some g1 => assignStep f g1 vs root

def assignFuel (g : DiGraph) : ℕ :=
  g.nodes.length + g.nodes.foldl (fun acc p => acc + p.2._in.length) 0 + 2

/-- Second Kosaraju pass: `for v in ordering: self._assign(v, v)`. -/
def pass2 (g : DiGraph) (ordering : List String) : Option DiGraph :=
  ordering.foldl
    (fun acc v =>
      match acc with
      | none => none
      | some g1 => assignStep (assignFuel g1) g1 [v] v)
    (some g)

/-- `groups[v.scc_rep].append(v)` on a `defaultdict(list)`. -/
def bucketAdd (gs : List (Option String × List String)) (k : Option String)
    (v : String) : List (Option String × List String) :=
  match alookup gs k with
  | some _ => aupdate (fun l => l ++ [v]) k gs
  | none => gs ++ [(k, [v])]

def groupsOf (g : DiGraph) : List (Option String × List String) :=
  g.nodes.foldl (fun gs p => bucketAdd gs p.2._scc_rep p.1) []

/-- `DiGraph.kosaraju_scc`.  `none` is fuel exhaustion, proved impossible. -/
def kosaraju_scc (g : DiGraph) : Option (List (Option String × List String)) :=
  match pass1 (resetAll g) with
  | none => none
  | some (g1, ordering) =>
    match pass2 g1 ordering with
    | none => none
    | some g2 => some (groupsOf g2)

end Directed

/-! ## Undirected matrix graphs (`graph_theory/undirected.py`) -/

namespace Undirected

structure Vertex where
  id : String
deriving DecidableEq

structure Edge where
  start : String
  end_ : String
  weight : ℚ
deriving DecidableEq

structure UndiGraph where
  _key : List (String × ℕ)       -- label -> matrix index (dict, insertion order)
  _size : ℕ
  _matrix : List (List ℚ)
deriving DecidableEq

/-- `{v.id: i for i, v in enumerate(vertices)}`. -/
def buildKey (vs : List Vertex) : List (String × ℕ) :=
  vs.enum.foldl (fun k p => ainsert p.2.id p.1 k) []

/-- `UndiGraph._idx` on a label (`KeyError` becomes `none`). -/
def idxOfLabel (g : UndiGraph) (lab : String) : Option ℕ := alookup g._key lab

def matSet (m : List (List ℚ)) (i j : ℕ) (w : ℚ) : List (List ℚ) :=
  m.set i ((m.getD i []).set j w)

/-- `UndiGraph.add_edge`; an unknown label raises `KeyError` (`none`). -/
def add_edge (g : UndiGraph) (e : Edge) : Option UndiGraph :=
  match idxOfLabel g e.start, idxOfLabel g e.end_ with
  | some i, some j =>
    some { g with _matrix := matSet (matSet g._matrix i j e.weight) j i e.weight }
  | _, _ => none

/-- `UndiGraph(vertices, edges)`. -/
def mkUndiGraph (vs : List Vertex) (es : List Edge) : Option UndiGraph :=
  let key := buildKey vs
  let g0 : UndiGraph :=
    ⟨key, key.length, List.replicate key.length (List.replicate key.length 0)⟩
  es.foldl (fun acc e => acc.bind (fun g => add_edge g e)) (some g0)

/-- `UndiGraph._label`: first key mapped to the given index. -/
def labelOf : List (String × ℕ) → ℕ → Option String
  | [], _ => none
  | (lab, i) :: rest, idx => if i = idx then some lab else labelOf rest idx

structure UBfsState where
  q : List ℕ
  visited : List Bool
  order : List String
deriving DecidableEq

def visGet (vis : List Bool) (i : ℕ) : Bool := vis.getD i false

/-- `for i, w in enumerate(self._matrix[cur]): ...` (increasing index order). -/
def uScan : List (ℕ × ℚ) → List Bool → List ℕ → List Bool × List ℕ
  | [], vis, q => (vis, q)
  | (i, w) :: rest, vis, q =>
    if w ≠ 0 ∧ visGet vis i = false then uScan rest (vis.set i true) (q ++ [i])
    else uScan rest vis q

/-- The `while q:` loop of `UndiGraph.bfs`.  `none` is fuel exhaustion
(impossible: every enqueue marks a fresh index) or a failed `_label` reverse
lookup (impossible: dequeued indices come from the key map). -/
def uLoop (g : UndiGraph) (record : Bool) : ℕ → UBfsState → Option UBfsState
  | fuel, st =>
    match st.q with
    | [] => some st
    | cur :: rest =>
      match fuel with
      | 0 => none
      | f + 1 =>
        let ord? := if record then (labelOf g._key cur).map (st.order ++ [·])
                    else some st.order
        match ord? with
        | none => none
        | some ord1 =>
          let p := uScan (g._matrix.getD cur []).enum st.visited rest
          uLoop g record f ⟨p.2, p.1, ord1⟩

/-- `UndiGraph.bfs`.  Outer `none` = `KeyError` on the source label or an
internal failure; `some none` = `record=False` (Python returns `None`);
`some (some order)` = the recorded visitation order. -/
def bfs (g : UndiGraph) (source : String) (record : Bool) :
    Option (Option (List String)) :=
  match idxOfLabel g source with
  | none => none
  | some root =>
    let vis0 := (List.replicate g._size false).set root true
    match uLoop g record (g._size + 1) ⟨[root], vis0, []⟩ with
    | none => none
    | some st => some (if record then some st.order else none)

end Undirected

/-! ## Concrete instances used by the claims -/

namespace Flow

/-- The quick-start network  s→a(10), s→b(5), a→b(15), a→t(10), b→t(10). -/
def exNetwork : Network :=
  mkNetwork ["s", "a", "b", "t"]
    [("s", "a", 10), ("s", "b", 5), ("a", "b", 15), ("a", "t", 10), ("b", "t", 10)]

/-- A two-vertex network whose only arc has capacity −1 (the code accepts
negative capacities, see `add_arc`). -/
def negNetwork : Network := mkNetwork ["s", "t"] [("s", "t", -1)]

/-- A two-vertex network with no arcs, used to exercise `add_arc` directly. -/
def emptyNetwork : Network := mkNetwork ["s", "t"] []

end Flow

namespace Directed

/-- Cycle A→B→C→A. -/
def cycleG : DiGraph := mkDiGraph ["A", "B", "C"] [("A", "B"), ("B", "C"), ("C", "A")]

/-- Disjoint edges A→B and C→D. -/
def disjG : DiGraph := mkDiGraph ["A", "B", "C", "D"] [("A", "B"), ("C", "D")]

/-- Vertices A,B,C with edges A→B, A→C, B→C, C→B, with `A._out` modelled in
the order `[B, C]`.  `Node._out` is a Python builtin `set`, which fixes no
iteration order, so both this and `hashG2` embed the same Python graph. -/
def hashG1 : DiGraph := mkDiGraph ["A", "B", "C"] [("A", "B"), ("A", "C"), ("B", "C"), ("C", "B")]

/-- The same abstract graph as `hashG1` but with `A._out` iterating as
`[C, B]` — the other possible hash order of the two-element set. -/
def hashG2 : DiGraph :=
  ⟨[("A", ⟨"A", [], ["C", "B"], false, none⟩),
    ("B", ⟨"B", ["A", "C"], ["C"], false, none⟩),
    ("C", ⟨"C", ["A", "B"], ["B"], false, none⟩)]⟩

end Directed

namespace Undirected

/-- Chain A–B–C with unit weights. -/
def chainG : Option UndiGraph :=
  mkUndiGraph [⟨"A"⟩, ⟨"B"⟩, ⟨"C"⟩] [⟨"A", "B", 1⟩, ⟨"B", "C", 1⟩]

end Undirected

/-! ## Flow: structural skeleton

`max_flow` only ever changes `Arc.flow` and the node statistics
`inflow`/`outflow`; everything else (the vertex dict with its adjacency, the
arc dict keys, arc endpoints and capacities) is the *skeleton* of the
network.  Several claims reduce to the preservation of this skeleton. -/

namespace Flow

/-- `(id, _in, _out)` of a node. -/
def nodeSkel (n : FlowNode) : String × List String × List String := (n.id, n._in, n._out)

/-- `(start, end, capacity)` of an arc. -/
def arcSkel (a : Arc) : String × String × ℚ := (a.start, a.end_, a.capacity)

def skelNodes (net : Network) : List (String × (String × List String × List String)) :=
  net.nodes.map (fun p => (p.1, nodeSkel p.2))

def skelArcs (net : Network) : List ((String × String) × (String × String × ℚ)) :=
  net.arcs.map (fun p => (p.1, arcSkel p.2))

def optHolds {β : Type} (p : β → Bool) : Option β → Bool
  | none => false
  | some b => p b

/-- Well-formedness of a network, phrased on the skeleton: unique node and
arc keys; node ids match their dict keys; adjacency lists only mention
registered vertices; each arc's stored endpoints match its key and are
recorded in the adjacency of both endpoint nodes.  Every network built
through `add_vertex`/`add_arc` satisfies this (witnessed concretely below by
`decide`). -/
def WF (net : Network) : Prop :=
  (nodeIds net).Nodup ∧ (arcKeys net).Nodup ∧
  (∀ p ∈ net.nodes, p.2.id = p.1 ∧
    (∀ x ∈ p.2._out, x ∈ nodeIds net) ∧ (∀ x ∈ p.2._in, x ∈ nodeIds net)) ∧
  (∀ q ∈ net.arcs, q.2.start = q.1.1 ∧ q.2.end_ = q.1.2 ∧
    optHolds (fun nd => decide (q.1.2 ∈ nd._out)) (getNode net q.1.1) = true ∧
    optHolds (fun nd => decide (q.1.1 ∈ nd._in)) (getNode net q.1.2) = true)

instance (net : Network) : Decidable (WF net) := by
  unfold WF
  infer_instance

end Flow


/-! ## Verification-side predicates

These definitions state the properties the claims talk about; they are not
part of the embedded program. -/

namespace Flow

/-- The per-arc flow adjustment an augmentation step applies. -/
def flowAdj (b : ℚ) (e : PathStep) (a : Arc) : Arc :=
  if e.dir = 1 then { a with flow := a.flow + b } else { a with flow := a.flow - b }

/-- `residOf` expressed on a raw arc list. -/
def residL (arcs : List ((String × String) × Arc)) (e : PathStep) : ℚ :=
  match alookup arcs e.key with
  | some a => if e.dir = 1 then a.residual_fwd else a.residual_back
  | none => 0

/-- A well-formed reconstructed augmenting path (in the pre-`reverse` order
produced by `walkPath`, sink side first), read as a chain from `v` down to
the source `s`: each step's child is the current vertex, its key and
direction are consistent, the arc is live, and the step's residual is
positive. -/
def GoodRev (net : Network) (s : String) : List PathStep → String → Prop
  | [], v => v = s
  | e :: l, v => e.x = v ∧ v ≠ s ∧
      ((e.dir = 1 ∧ e.key = (e.u, v)) ∨ (e.dir = -1 ∧ e.key = (v, e.u))) ∧
      (∃ a, lookupArc net e.key = some a) ∧ 0 < residOf net e ∧ GoodRev net s l e.u

/-- The chain of vertices visited by a reconstructed path, from the sink end
down to the source. -/
def revVerts : List PathStep → String → List String
  | [], v => [v]
  | e :: l, v => v :: revVerts l e.u

/-- Sum of the flow entering vertex `w` over an arc list (by dict key). -/
def inA (arcs : List ((String × String) × Arc)) (w : String) : ℚ :=
  (arcs.map (fun q => if q.1.2 = w then q.2.flow else 0)).sum

/-- Sum of the flow leaving vertex `w` over an arc list (by dict key). -/
def outA (arcs : List ((String × String) × Arc)) (w : String) : ℚ :=
  (arcs.map (fun q => if q.1.1 = w then q.2.flow else 0)).sum

/-- Every arc carries a feasible flow: `0 ≤ flow ≤ capacity`. -/
def ArcsOk (arcs : List ((String × String) × Arc)) : Prop :=
  ∀ q ∈ arcs, 0 ≤ q.2.flow ∧ q.2.flow ≤ q.2.capacity

def ind (x w : String) : ℚ := if x = w then 1 else 0

/-- Global flow-conservation shape with value `V` from `s` to `t`:
every vertex is balanced except `s` (net outflow `V`) and `t` (net
inflow `V`). -/
def Conserve (arcs : List ((String × String) × Arc)) (s t : String) (V : ℚ) : Prop :=
  ∀ w, inA arcs w - outA arcs w = V * (ind t w - ind s w)

/-- Capacity of the cut `(S, V ∖ S)`: total capacity of the arcs leaving `S`. -/
def cutCap (arcs : List ((String × String) × Arc)) (S : Finset String) : ℚ :=
  (arcs.map (fun q => if q.1.1 ∈ S ∧ q.1.2 ∉ S then q.2.capacity else 0)).sum

/-- Net flow across the cut `(S, V ∖ S)`. -/
def netAcross (arcs : List ((String × String) × Arc)) (S : Finset String) : ℚ :=
  (arcs.map (fun q =>
    q.2.flow * ((if q.1.1 ∈ S then (1 : ℚ) else 0) - (if q.1.2 ∈ S then (1 : ℚ) else 0)))).sum

/-- Vertex `u` has been fully scanned with respect to the visited set `V`:
every positive-residual edge out of it (forward or backward) leads into `V`. -/
def scanClosed (net : Network) (V : List String) (u : String) : Prop :=
  ∀ nd, getNode net u = some nd →
    (∀ v ∈ nd._out, ∀ a, lookupArc net (u, v) = some a → 0 < a.residual_fwd → v ∈ V) ∧
    (∀ p ∈ nd._in, ∀ a, lookupArc net (p, u) = some a → 0 < a.residual_back → p ∈ V)

/-- Invariant of the BFS loop state relative to the (unmutated) network: the
queue is visited, the visited list is duplicate-free and consists of `s`
followed by exactly the parent-map keys in discovery order, and every parent
entry records a live positive-residual step from an earlier-discovered
vertex. -/
structure BInv (net : Network) (s : String) (st : BFSState) : Prop where
  qsub : ∀ x ∈ st.queue, x ∈ st.visited
  vnodup : st.visited.Nodup
  vparent : st.visited = s :: st.parent.map Prod.fst
  pstep : ∀ ce ∈ st.parent,
    ce.2.x = ce.1 ∧
    ((ce.2.dir = 1 ∧ ce.2.key = (ce.2.u, ce.1)) ∨
      (ce.2.dir = -1 ∧ ce.2.key = (ce.1, ce.2.u))) ∧
    (∃ a, lookupArc net ce.2.key = some a) ∧ 0 < residOf net ce.2 ∧
    ce.2.u ∈ st.visited ∧ st.visited.indexOf ce.2.u < st.visited.indexOf ce.1

end Flow

namespace Directed

/-- The representative currently stored at a vertex. -/
def rep (g : DiGraph) (v : String) : Option String :=
  match getNode g v with
  | some nd => nd._scc_rep
  | none => none

/-- One directed edge of the embedded graph. -/
def edgeStep (g : DiGraph) (u v : String) : Prop :=
  ∃ nd, getNode g u = some nd ∧ v ∈ nd._out

/-- Reachability along directed edges. -/
def Reach (g : DiGraph) : String → String → Prop :=
  Relation.ReflTransGen (edgeStep g)

/-- `u` and `v` lie on a common directed cycle (mutual reachability). -/
def MutualReach (g : DiGraph) (u v : String) : Prop :=
  Reach g u v ∧ Reach g v u

/-- A step of a path constrained to vertices satisfying `U`. -/
def UStep (g : DiGraph) (U : String → Prop) (a b : String) : Prop :=
  edgeStep g a b ∧ U b

/-- A path from `y` to `w` all of whose vertices satisfy `U`. -/
def UPath (g : DiGraph) (U : String → Prop) (y w : String) : Prop :=
  U y ∧ Relation.ReflTransGen (UStep g U) y w

/-- Membership of a vertex in some group of a grouping. -/
def inGroup (gs : List (Option String × List String)) (x : String) : Prop :=
  ∃ p ∈ gs, x ∈ p.2

/-- `u` and `v` appear together in some group. -/
def sameGroup (gs : List (Option String × List String)) (u v : String) : Prop :=
  ∃ p ∈ gs, u ∈ p.2 ∧ v ∈ p.2

/-- Well-formedness of a directed graph: unique keys, ids matching keys, and
adjacency lists that mention only registered vertices and are mirrored
(u lists v as out-neighbour iff v lists u as in-neighbour). -/
def DiWF (g : DiGraph) : Prop :=
  (nodeIds g).Nodup ∧
  (∀ p ∈ g.nodes, p.2.id = p.1 ∧
    (∀ x ∈ p.2._out, x ∈ nodeIds g) ∧ (∀ x ∈ p.2._in, x ∈ nodeIds g)) ∧
  (∀ p ∈ g.nodes, ∀ q ∈ g.nodes, (q.1 ∈ p.2._out ↔ p.1 ∈ q.2._in))

instance (g : DiGraph) : Decidable (DiWF g) := by
  unfold DiWF
  infer_instance

/-- The part of a node the SCC passes never change. -/
def nodeAdj (n : Node) : String × List String × List String := (n.id, n._in, n._out)

/-- The adjacency skeleton of a directed graph: everything except the
`visited` / `_scc_rep` working fields. -/
def DiSkel (g : DiGraph) : List (String × (String × List String × List String)) :=
  g.nodes.map (fun p => (p.1, nodeAdj p.2))

/-- The `visited` flag currently stored at a vertex. -/
def visOf (g : DiGraph) (x : String) : Bool :=
  match getNode g x with
  | some nd => nd.visited
  | none => false

end Directed

namespace Undirected

/-- Adjacency between matrix indices: a non-zero cell within the row. -/
def adjStep (g : UndiGraph) (i j : ℕ) : Prop :=
  j < (g._matrix.getD i []).length ∧ (g._matrix.getD i []).getD j 0 ≠ 0

/-- Reachability through non-zero-weight edges. -/
def reachIdx (g : UndiGraph) : ℕ → ℕ → Prop :=
  Relation.ReflTransGen (adjStep g)

/-- Well-formedness of a matrix graph: unique labels, unique indices, the
indices exactly fill `0..size-1`, and the matrix is `size × size`.  Every
graph built from distinct vertex labels satisfies this. -/
def UWF (g : UndiGraph) : Prop :=
  (g._key.map Prod.fst).Nodup ∧ (g._key.map Prod.snd).Nodup ∧
  (∀ p ∈ g._key, p.2 < g._size) ∧
  (∀ i < g._size, ∃ p ∈ g._key, p.2 = i) ∧
  g._matrix.length = g._size ∧
  (∀ row ∈ g._matrix, row.length = g._size)

instance (g : UndiGraph) : Decidable (UWF g) := by
  unfold UWF
  infer_instance

end Undirected

/-! ## Association-list lemmas -/

theorem alookup_isSome_iff_mem {α β : Type} [DecidableEq α]
    (l : List (α × β)) (a : α) : (alookup l a).isSome ↔ a ∈ l.map Prod.fst := by
  induction l with
  | nil => simp [alookup]
  | cons p rest ih =>
    obtain ⟨k, b⟩ := p
    by_cases h : k = a
    · simp [alookup, h]
    · simp only [alookup, h, if_false, List.map_cons, List.mem_cons, ih]
      constructor
      · exact fun hm => Or.inr hm
      · rintro (he | hm)
        · exact absurd he.symm h
        · exact hm

theorem alookup_eq_none_iff {α β : Type} [DecidableEq α]
    (l : List (α × β)) (a : α) : alookup l a = none ↔ a ∉ l.map Prod.fst := by
  rw [← alookup_isSome_iff_mem]
  cases alookup l a <;> simp

theorem alookup_mem {α β : Type} [DecidableEq α]
    {l : List (α × β)} {a : α} {b : β} (h : alookup l a = some b) : (a, b) ∈ l := by
  induction l with
  | nil => simp [alookup] at h
  | cons p rest ih =>
    obtain ⟨k, c⟩ := p
    by_cases hk : k = a
    · subst hk
      simp [alookup] at h
      simp [h]
    · simp [alookup, hk] at h
      simp [ih h]

theorem alookup_of_mem_nodup {α β : Type} [DecidableEq α]
    {l : List (α × β)} {a : α} {b : β} (hnd : (l.map Prod.fst).Nodup)
    (h : (a, b) ∈ l) : alookup l a = some b := by
  induction l with
  | nil => simp at h
  | cons p rest ih =>
    obtain ⟨k, c⟩ := p
    simp only [List.map_cons, List.nodup_cons] at hnd
    rcases List.mem_cons.mp h with he | hm
    · cases he
      simp [alookup]
    · have hka : k ≠ a := by
        intro he
        subst he
        exact hnd.1 (by simpa using List.mem_map_of_mem Prod.fst hm)
      simp [alookup, hka, ih hnd.2 hm]

theorem aupdate_keys {α β : Type} [DecidableEq α] (f : β → β) (a : α)
    (l : List (α × β)) : (aupdate f a l).map Prod.fst = l.map Prod.fst := by
  induction l with
  | nil => rfl
  | cons p rest ih =>
    obtain ⟨k, b⟩ := p
    by_cases h : k = a <;> simp [aupdate, h, ih]

theorem alookup_aupdate_self {α β : Type} [DecidableEq α] (f : β → β) {a : α}
    {l : List (α × β)} {b : β} (h : alookup l a = some b) :
    alookup (aupdate f a l) a = some (f b) := by
  induction l with
  | nil => simp [alookup] at h
  | cons p rest ih =>
    obtain ⟨k, c⟩ := p
    by_cases hk : k = a
    · subst hk
      simp [alookup] at h
      simp [aupdate, alookup, h]
    · simp [alookup, hk] at h
      simp [aupdate, alookup, hk, ih h]

theorem alookup_aupdate_other {α β : Type} [DecidableEq α] (f : β → β) {a a' : α}
    (hne : a' ≠ a) (l : List (α × β)) :
    alookup (aupdate f a l) a' = alookup l a' := by
  induction l with
  | nil => rfl
  | cons p rest ih =>
    obtain ⟨k, c⟩ := p
    by_cases hk : k = a
    · subst hk
      have : k ≠ a' := fun he => hne he.symm
      simp [aupdate, alookup, this]
    · by_cases hk' : k = a' <;> simp [aupdate, alookup, hk, hk', hne, ih]


theorem ainsert_keys_subset {α β : Type} [DecidableEq α] (a : α) (b : β)
    (l : List (α × β)) :
    ((ainsert a b l).map Prod.fst) = if a ∈ l.map Prod.fst then l.map Prod.fst
      else l.map Prod.fst ++ [a] := by
  induction l with
  | nil => simp [ainsert]
  | cons p rest ih =>
    obtain ⟨k, c⟩ := p
    by_cases h : k = a
    · subst h
      simp [ainsert]
    · have : a ≠ k := fun he => h he.symm
      simp only [ainsert, h, if_false, List.map_cons, List.mem_cons, ih, this,
        false_or]
      by_cases hm : a ∈ rest.map Prod.fst <;> simp [hm]

theorem alookup_ainsert_self {α β : Type} [DecidableEq α] (a : α) (b : β)
    (l : List (α × β)) : alookup (ainsert a b l) a = some b := by
  induction l with
  | nil => simp [ainsert, alookup]
  | cons p rest ih =>
    obtain ⟨k, c⟩ := p
    by_cases h : k = a
    · subst h
      simp [ainsert, alookup]
    · simp [ainsert, alookup, h, ih]

theorem alookup_ainsert_other {α β : Type} [DecidableEq α] {a a' : α} (b : β)
    (hne : a' ≠ a) (l : List (α × β)) :
    alookup (ainsert a b l) a' = alookup l a' := by
  induction l with
  | nil => simp [ainsert, alookup, Ne.symm hne]
  | cons p rest ih =>
    obtain ⟨k, c⟩ := p
    by_cases h : k = a
    · subst h
      have h1 : k ≠ a' := fun he => hne he.symm
      simp [ainsert, alookup, h1, hne]
    · by_cases h2 : k = a' <;> simp [ainsert, alookup, h, h2, hne, Ne.symm hne, ih]

theorem ainsert_keys_nodup {α β : Type} [DecidableEq α] (a : α) (b : β)
    {l : List (α × β)} (h : (l.map Prod.fst).Nodup) :
    ((ainsert a b l).map Prod.fst).Nodup := by
  rw [ainsert_keys_subset]
  by_cases hm : a ∈ l.map Prod.fst
  · simpa [hm]
  · simp only [hm, if_false]
    refine List.Nodup.append h (List.nodup_singleton a) ?_
    intro x hx ha
    rw [List.mem_singleton] at ha
    subst ha
    exact hm hx

theorem alookup_append_left {α β : Type} [DecidableEq α] {l : List (α × β)}
    (l' : List (α × β)) {a : α} {b : β} (h : alookup l a = some b) :
    alookup (l ++ l') a = some b := by
  induction l with
  | nil => simp [alookup] at h
  | cons p rest ih =>
    obtain ⟨k, c⟩ := p
    by_cases hk : k = a
    · subst hk
      simp [alookup] at h
      simp [alookup, h]
    · simp [alookup, hk] at h ⊢
      exact ih h

theorem alookup_append_right {α β : Type} [DecidableEq α] {l : List (α × β)}
    (l' : List (α × β)) {a : α} (h : alookup l a = none) :
    alookup (l ++ l') a = alookup l' a := by
  induction l with
  | nil => simp
  | cons p rest ih =>
    obtain ⟨k, c⟩ := p
    by_cases hk : k = a
    · subst hk
      simp [alookup] at h
    · simp [alookup, hk] at h ⊢
      exact ih h

theorem setAdd_mem {α : Type} [DecidableEq α] (x y : α) (l : List α) :
    y ∈ setAdd x l ↔ y ∈ l ∨ y = x := by
  unfold setAdd
  by_cases h : x ∈ l
  · simp only [h, if_true]
    constructor
    · exact fun hy => Or.inl hy
    · rintro (hy | rfl) <;> assumption
  · simp [h, or_comm]

/-! ## Error handling of `add_edge` / `add_arc` (claims C10, C2) -/

/-- Claim C10: `add_edge` and `add_arc` are atomic on failure — when an
endpoint is unknown the call raises `KeyError` and returns with the graph
(vertices, adjacency, arc map) exactly as it was: both endpoints are checked
before any mutation happens. -/
theorem add_edge_add_arc_atomic_on_failure :
    (∀ (g : Directed.DiGraph) (e : String × String),
      e.1 ∉ Directed.nodeIds g ∨ e.2 ∉ Directed.nodeIds g →
      Directed.add_edge g e = (Except.error (), g)) ∧
    (∀ (net : Flow.Network) (a : String × String × ℚ),
      a.1 ∉ Flow.nodeIds net ∨ a.2.1 ∉ Flow.nodeIds net →
      Flow.add_arc net a = (Except.error (), net)) := by
  constructor
  · intro g e h
    have hc : ¬(e.1 ∈ Directed.nodeIds g ∧ e.2 ∈ Directed.nodeIds g) := by tauto
    simp [Directed.add_edge, hc]
  · intro net a h
    have hc : ¬(a.1 ∈ Flow.nodeIds net ∧ a.2.1 ∈ Flow.nodeIds net) := by tauto
    simp [Flow.add_arc, hc]

/-- Concrete instantiation of `add_edge_add_arc_atomic_on_failure`: adding
the edge A→Z to a graph without Z, and the arc s→z to a network without z,
raise and leave the structures unchanged. -/
theorem add_edge_add_arc_atomic_on_failure_witness :
    (("A" : String) ∉ Directed.nodeIds (Directed.mkDiGraph ["A"] []) ∨
      ("Z" : String) ∉ Directed.nodeIds (Directed.mkDiGraph ["A"] [])) ∧
    Directed.add_edge (Directed.mkDiGraph ["A"] []) ("A", "Z") =
      (Except.error (), Directed.mkDiGraph ["A"] []) ∧
    (("s" : String) ∉ Flow.nodeIds Flow.emptyNetwork ∨
      ("z" : String) ∉ Flow.nodeIds Flow.emptyNetwork) ∧
    Flow.add_arc Flow.emptyNetwork ("s", "z", 3) = (Except.error (), Flow.emptyNetwork) :=
  ⟨Or.inr (by decide),
   add_edge_add_arc_atomic_on_failure.1 _ ("A", "Z") (Or.inr (by decide)),
   Or.inr (by decide),
   add_edge_add_arc_atomic_on_failure.2 _ ("s", "z", 3) (Or.inr (by decide))⟩

/-- Claim C2 (code evaluation): `Network.add_arc` performs no capacity
validation — the arc s→t with capacity −5 is accepted (no error is raised)
and registered in the arc map.  This contradicts the specified
`InvalidCapacity` rejection. -/
theorem add_arc_accepts_negative_capacity :
    (Flow.add_arc Flow.emptyNetwork ("s", "t", -5)).1 = Except.ok () ∧
    Flow.lookupArc (Flow.add_arc Flow.emptyNetwork ("s", "t", -5)).2 ("s", "t") =
      some ⟨"s", "t", -5, 0⟩ :=
  ⟨rfl, by decide⟩

/-- Claim C3 (code evaluation): the SCC representative depends on the
iteration order of the neighbour `set`s.  `hashG1` and `hashG2` embed the
same Python graph — same vertices in the same insertion order, and for every
node the same in/out neighbour *sets* (only the modelled set-iteration order
differs) — yet `kosaraju_scc` picks representative B for the component
{B, C} in one and C in the other.  Insertion order of the edges therefore
does not determine the output; the hash order does. -/
theorem scc_rep_depends_on_set_iteration_order :
    Directed.nodeIds Directed.hashG1 = Directed.nodeIds Directed.hashG2 ∧
    (∀ p ∈ Directed.hashG1.nodes, ∃ q ∈ Directed.hashG2.nodes,
      q.1 = p.1 ∧ q.2.id = p.2.id ∧ q.2._out.Perm p.2._out ∧ q.2._in.Perm p.2._in ∧
      q.2.visited = p.2.visited ∧ q.2._scc_rep = p.2._scc_rep) ∧
    Directed.kosaraju_scc Directed.hashG1 =
      some [(some "A", ["A"]), (some "B", ["B", "C"])] ∧
    Directed.kosaraju_scc Directed.hashG2 =
      some [(some "A", ["A"]), (some "C", ["B", "C"])] ∧
    Directed.kosaraju_scc Directed.hashG1 ≠ Directed.kosaraju_scc Directed.hashG2 := by
  refine ⟨by decide, by decide, by decide, by decide, by decide⟩



namespace Flow

theorem optHolds_iff {β : Type} (p : β → Bool) (o : Option β) :
    optHolds p o = true ↔ ∃ b, o = some b ∧ p b = true := by
  cases o <;> simp [optHolds]

theorem skelNodes_keys (net : Network) :
    (skelNodes net).map Prod.fst = nodeIds net := by
  simp [skelNodes, nodeIds]

theorem skelArcs_keys (net : Network) :
    (skelArcs net).map Prod.fst = arcKeys net := by
  simp [skelArcs, arcKeys]

theorem alookup_skelNodes (net : Network) (u : String) :
    alookup (skelNodes net) u = (getNode net u).map nodeSkel := by
  unfold getNode skelNodes
  induction net.nodes with
  | nil => simp [alookup]
  | cons p rest ih =>
    by_cases h : p.1 = u <;> simp [alookup, h, ih]

theorem alookup_skelArcs (net : Network) (k : String × String) :
    alookup (skelArcs net) k = (lookupArc net k).map arcSkel := by
  unfold lookupArc skelArcs
  induction net.arcs with
  | nil => simp [alookup]
  | cons p rest ih =>
    by_cases h : p.1 = k <;> simp [alookup, h, ih]

/-- Everything `WF` says is determined by the skeleton. -/
theorem WF_of_skel {net1 net2 : Network} (hn : skelNodes net1 = skelNodes net2)
    (ha : skelArcs net1 = skelArcs net2) (h : WF net1) : WF net2 := by
  have hids : nodeIds net1 = nodeIds net2 := by
    rw [← skelNodes_keys, ← skelNodes_keys, hn]
  have hkeys : arcKeys net1 = arcKeys net2 := by
    rw [← skelArcs_keys, ← skelArcs_keys, ha]
  have hget : ∀ u, (getNode net1 u).map nodeSkel = (getNode net2 u).map nodeSkel := by
    intro u
    rw [← alookup_skelNodes, ← alookup_skelNodes, hn]
  obtain ⟨h1, h2, h3, h4⟩ := h
  refine ⟨hids ▸ h1, hkeys ▸ h2, ?_, ?_⟩
  · intro p hp
    have hmem : (p.1, nodeSkel p.2) ∈ skelNodes net1 := by
      rw [hn]
      exact List.mem_map_of_mem _ hp
    rw [skelNodes] at hmem
    obtain ⟨p', hp', he⟩ := List.mem_map.mp hmem
    obtain ⟨he1, he2⟩ := Prod.mk.injEq .. ▸ he
    have h3' := h3 p' hp'
    unfold nodeSkel at he2
    have hid : p'.2.id = p.2.id := congrArg Prod.fst he2
    have hin : p'.2._in = p.2._in := congrArg (fun t => t.2.1) he2
    have hout : p'.2._out = p.2._out := congrArg (fun t => t.2.2) he2
    refine ⟨by rw [← hid, ← he1]; exact h3'.1, ?_, ?_⟩
    · intro x hx
      rw [← hids]
      exact h3'.2.1 x (hout ▸ hx)
    · intro x hx
      rw [← hids]
      exact h3'.2.2 x (hin ▸ hx)
  · intro q hq
    have hmem : (q.1, arcSkel q.2) ∈ skelArcs net1 := by
      rw [ha]
      exact List.mem_map_of_mem _ hq
    rw [skelArcs] at hmem
    obtain ⟨q', hq', he⟩ := List.mem_map.mp hmem
    obtain ⟨he1, he2⟩ := Prod.mk.injEq .. ▸ he
    have h4' := h4 q' hq'
    unfold arcSkel at he2
    have hst : q'.2.start = q.2.start := congrArg Prod.fst he2
    have hen : q'.2.end_ = q.2.end_ := congrArg (fun t => t.2.1) he2
    have hA := h4'.2.2.1
    have hB := h4'.2.2.2
    rw [optHolds_iff] at hA hB
    rw [he1] at hA hB
    have ho1 : optHolds (fun nd => decide (q.1.2 ∈ nd._out)) (getNode net2 q.1.1) = true := by
      rw [optHolds_iff]
      obtain ⟨nd, hnd, hx⟩ := hA
      have hg := hget q.1.1
      rw [hnd] at hg
      cases hg2 : getNode net2 q.1.1 with
      | none => rw [hg2] at hg; simp at hg
      | some nd2 =>
        rw [hg2] at hg
        simp only [Option.map] at hg
        have hsk : nodeSkel nd = nodeSkel nd2 := Option.some.injEq .. ▸ hg
        refine ⟨nd2, rfl, ?_⟩
        have hout : nd._out = nd2._out := congrArg (fun t => t.2.2) hsk
        rw [← hout]
        exact hx
    have ho2 : optHolds (fun nd => decide (q.1.1 ∈ nd._in)) (getNode net2 q.1.2) = true := by
      rw [optHolds_iff]
      obtain ⟨nd, hnd, hx⟩ := hB
      have hg := hget q.1.2
      rw [hnd] at hg
      cases hg2 : getNode net2 q.1.2 with
      | none => rw [hg2] at hg; simp at hg
      | some nd2 =>
        rw [hg2] at hg
        simp only [Option.map] at hg
        have hsk : nodeSkel nd = nodeSkel nd2 := Option.some.injEq .. ▸ hg
        refine ⟨nd2, rfl, ?_⟩
        have hin : nd._in = nd2._in := congrArg (fun t => t.2.1) hsk
        rw [← hin]
        exact hx
    exact ⟨by rw [← hst, ← he1]; exact h4'.1, by rw [← hen, ← he1]; exact h4'.2.1, ho1, ho2⟩

end Flow

theorem map_proj_aupdate {α β γ : Type} [DecidableEq α] (f : β → β) (proj : β → γ)
    (h : ∀ b, proj (f b) = proj b) (a : α) (l : List (α × β)) :
    (aupdate f a l).map (fun p => (p.1, proj p.2)) = l.map (fun p => (p.1, proj p.2)) := by
  induction l with
  | nil => rfl
  | cons p rest ih =>
    obtain ⟨k, b⟩ := p
    by_cases hk : k = a <;> simp [aupdate, hk, h, ih]

namespace Flow

theorem skelArcs_foldl_augmentArc (b : ℚ) (path : List PathStep)
    (arcs : List ((String × String) × Arc)) :
    (path.foldl (augmentArc b) arcs).map (fun p => (p.1, arcSkel p.2)) =
      arcs.map (fun p => (p.1, arcSkel p.2)) := by
  induction path generalizing arcs with
  | nil => rfl
  | cons e rest ih =>
    rw [List.foldl_cons, ih]
    unfold augmentArc
    by_cases hd : e.dir = 1
    · rw [if_pos hd]
      exact map_proj_aupdate (fun a => { a with flow := a.flow + b }) arcSkel
        (fun a => rfl) e.key arcs
    · rw [if_neg hd]
      exact map_proj_aupdate (fun a => { a with flow := a.flow - b }) arcSkel
        (fun a => rfl) e.key arcs

theorem skelArcs_augment (net : Network) (b : ℚ) (path : List PathStep) :
    skelArcs (augment net b path) = skelArcs net :=
  skelArcs_foldl_augmentArc b path net.arcs

theorem augment_nodes (net : Network) (b : ℚ) (path : List PathStep) :
    (augment net b path).nodes = net.nodes := rfl

theorem skelNodes_augment (net : Network) (b : ℚ) (path : List PathStep) :
    skelNodes (augment net b path) = skelNodes net := rfl

theorem skelNodes_resetFlows (net : Network) : skelNodes (resetFlows net) = skelNodes net := by
  unfold skelNodes resetFlows
  simp only [List.map_map]
  rfl

theorem skelArcs_resetFlows (net : Network) : skelArcs (resetFlows net) = skelArcs net := by
  unfold skelArcs resetFlows
  simp only [List.map_map]
  rfl

theorem updateStats_arcs (net : Network) : (updateStats net).arcs = net.arcs := rfl

theorem skelNodes_updateStats (net : Network) : skelNodes (updateStats net) = skelNodes net := by
  unfold updateStats skelNodes
  simp only
  generalize net.nodes = ns
  induction net.arcs generalizing ns with
  | nil => rfl
  | cons q rest ih =>
    rw [List.foldl_cons, ih]
    rw [map_proj_aupdate (fun n => { n with inflow := n.inflow + q.2.flow }) nodeSkel
        (fun n => rfl),
      map_proj_aupdate (fun n => { n with outflow := n.outflow + q.2.flow }) nodeSkel
        (fun n => rfl)]

theorem mfLoop_nodes (s t : String) (fuel : ℕ) (acc : ℚ) (net : Network) :
    (mfLoop s t fuel acc net).2.nodes = net.nodes := by
  induction fuel generalizing acc net with
  | zero => rfl
  | succ f ih =>
    unfold mfLoop
    cases bfs_augmenting_path net s t with
    | found b path => rw [ih]; rfl
    | nopath => rfl
    | keyError => rfl
    | noFuel => rfl

theorem mfLoop_skelArcs (s t : String) (fuel : ℕ) (acc : ℚ) (net : Network) :
    skelArcs (mfLoop s t fuel acc net).2 = skelArcs net := by
  induction fuel generalizing acc net with
  | zero => rfl
  | succ f ih =>
    unfold mfLoop
    cases bfs_augmenting_path net s t with
    | found b path => rw [ih, skelArcs_augment]
    | nopath => rfl
    | keyError => rfl
    | noFuel => rfl

theorem mfLoop_skelNodes (s t : String) (fuel : ℕ) (acc : ℚ) (net : Network) :
    skelNodes (mfLoop s t fuel acc net).2 = skelNodes net := by
  unfold skelNodes
  rw [mfLoop_nodes]

theorem max_flow_skelNodes (net : Network) (s t : String) (fuel : ℕ) :
    skelNodes (max_flow net s t fuel).2 = skelNodes net := by
  unfold max_flow
  by_cases hst : s = t
  · simp [hst]
  · simp only [hst, if_false]
    rcases hm : mfLoop s t fuel 0 (resetFlows net) with ⟨res, n2⟩
    have h2 : skelNodes n2 = skelNodes net := by
      have h := mfLoop_skelNodes s t fuel 0 (resetFlows net)
      rw [hm] at h
      rw [h, skelNodes_resetFlows]
    cases res with
    | ok v => simpa [skelNodes_updateStats] using h2
    | keyError => simpa using h2
    | noFuel => simpa using h2

theorem max_flow_skelArcs (net : Network) (s t : String) (fuel : ℕ) :
    skelArcs (max_flow net s t fuel).2 = skelArcs net := by
  unfold max_flow
  by_cases hst : s = t
  · simp [hst]
  · simp only [hst, if_false]
    rcases hm : mfLoop s t fuel 0 (resetFlows net) with ⟨res, n2⟩
    have h2 : skelArcs n2 = skelArcs net := by
      have h := mfLoop_skelArcs s t fuel 0 (resetFlows net)
      rw [hm] at h
      rw [h, skelArcs_resetFlows]
    cases res with
    | ok v =>
      have hu : skelArcs (updateStats n2) = skelArcs n2 := by
        unfold skelArcs
        rw [updateStats_arcs]
      simpa [hu] using h2
    | keyError => simpa using h2
    | noFuel => simpa using h2

/-- `resetFlows` is determined by the skeleton. -/
theorem resetFlows_eq_of_skel {net1 net2 : Network}
    (hn : skelNodes net1 = skelNodes net2) (ha : skelArcs net1 = skelArcs net2) :
    resetFlows net1 = resetFlows net2 := by
  have repr : ∀ net : Network, resetFlows net =
      ⟨(skelNodes net).map (fun q => (q.1, ⟨q.2.1, q.2.2.1, q.2.2.2, 0, 0⟩)),
       (skelArcs net).map (fun q => (q.1, ⟨q.2.1, q.2.2.1, q.2.2.2, 0⟩))⟩ := by
    intro net
    unfold resetFlows skelNodes skelArcs
    rw [List.map_map, List.map_map]
    rfl
  rw [repr, repr, hn, ha]

/-- Claim C7: `max_flow` is idempotent — a second call on the (mutated)
network returned by a first call gives the same flow value and the same
per-arc flows and per-vertex inflow/outflow (indeed the identical network),
because all flow state is reset at the start of each invocation and the run
never changes the structure that survives the reset. -/
theorem max_flow_idempotent (net : Network) (s t : String) (fuel : ℕ) :
    max_flow (max_flow net s t fuel).2 s t fuel = max_flow net s t fuel := by
  by_cases hst : s = t
  · subst hst
    simp [max_flow]
  · have hreset : resetFlows (max_flow net s t fuel).2 = resetFlows net :=
      resetFlows_eq_of_skel (max_flow_skelNodes net s t fuel) (max_flow_skelArcs net s t fuel)
    conv_lhs => rw [max_flow]
    rw [if_neg hst, hreset]
    conv_rhs => rw [max_flow]
    rw [if_neg hst]

end Flow

namespace Flow

/-- Everything the forward scan appends: freshly visited vertices (from the
scanned neighbour list), one parent entry per fresh vertex (forward step
shape, live arc, positive forward residual at insertion time), and a queue
extension of the non-sink fresh vertices. -/
theorem forwardScan_shape (net : Network) (t u : String) :
    ∀ (L : List String) (st : BFSState),
    ∃ ext pext qext,
      forwardScan net t u L st =
        ⟨st.queue ++ qext, st.parent ++ pext, st.visited ++ ext⟩ ∧
      ext.Nodup ∧
      (∀ x ∈ ext, x ∈ L ∧ x ∉ st.visited) ∧
      (∀ x ∈ qext, x ∈ ext) ∧
      qext.length ≤ ext.length ∧
      pext.map Prod.fst = ext ∧
      (∀ ce ∈ pext, ce.2.u = u ∧ ce.2.x = ce.1 ∧ ce.2.dir = 1 ∧ ce.2.key = (u, ce.1) ∧
        ∃ a, lookupArc net (u, ce.1) = some a ∧ 0 < a.residual_fwd) ∧
      (∀ x ∈ ext, x ∈ qext ∨ x = t) := by
  intro L
  induction L with
  | nil =>
    intro st
    exact ⟨[], [], [], by simp [forwardScan], by simp, by simp, by simp, by simp, by simp,
      by simp, by simp⟩
  | cons v rest ih =>
    intro st
    cases hl : lookupArc net (u, v) with
    | none =>
      rw [forwardScan, hl]
      obtain ⟨ext, pext, qext, h1, h2, h3, h4, h5, h6, h7, h8⟩ := ih st
      exact ⟨ext, pext, qext, h1, h2,
        fun x hx => ⟨List.mem_cons_of_mem v (h3 x hx).1, (h3 x hx).2⟩, h4, h5, h6, h7, h8⟩
    | some a =>
      rw [forwardScan, hl]
      simp only
      by_cases hc : 0 < a.residual_fwd ∧ v ∉ st.visited
      · rw [if_pos hc]
        by_cases hv : v = t
        · rw [if_pos hv]
          refine ⟨[v], [(v, ⟨u, v, (u, v), 1⟩)], [], by simp, by simp, ?_, by simp, by simp,
            by simp, ?_, ?_⟩
          · intro x hx
            rw [List.mem_singleton] at hx
            subst hx
            exact ⟨List.mem_cons_self _ _, hc.2⟩
          · intro ce hce
            rw [List.mem_singleton] at hce
            subst hce
            exact ⟨rfl, rfl, rfl, rfl, a, hl, hc.1⟩
          · intro x hx
            rw [List.mem_singleton] at hx
            exact Or.inr (hx.trans hv)
        · rw [if_neg hv]
          obtain ⟨ext, pext, qext, h1, h2, h3, h4, h5, h6, h7, h8⟩ :=
            ih ⟨st.queue ++ [v], st.parent ++ [(v, ⟨u, v, (u, v), 1⟩)], st.visited ++ [v]⟩
          refine ⟨v :: ext, (v, ⟨u, v, (u, v), 1⟩) :: pext, v :: qext, ?_, ?_, ?_, ?_, ?_,
            ?_, ?_, ?_⟩
          · rw [h1]
            simp
          · rw [List.nodup_cons]
            refine ⟨fun hv' => ?_, h2⟩
            exact (h3 v hv').2 (by simp)
          · intro x hx
            rcases List.mem_cons.mp hx with hx | hx
            · subst hx
              exact ⟨List.mem_cons_self _ _, hc.2⟩
            · have := h3 x hx
              refine ⟨List.mem_cons_of_mem v this.1, fun hm => this.2 ?_⟩
              simp [hm]
          · intro x hx
            rcases List.mem_cons.mp hx with hx | hx
            · simp [hx]
            · exact List.mem_cons_of_mem v (h4 x hx)
          · simpa using Nat.succ_le_succ h5
          · simpa using h6
          · intro ce hce
            rcases List.mem_cons.mp hce with hce | hce
            · subst hce
              exact ⟨rfl, rfl, rfl, rfl, a, hl, hc.1⟩
            · exact h7 ce hce
          · intro x hx
            rcases List.mem_cons.mp hx with hx | hx
            · exact Or.inl (by simp [hx])
            · rcases h8 x hx with hx8 | hx8
              · exact Or.inl (List.mem_cons_of_mem _ hx8)
              · exact Or.inr hx8
      · rw [if_neg hc]
        obtain ⟨ext, pext, qext, h1, h2, h3, h4, h5, h6, h7, h8⟩ := ih st
        exact ⟨ext, pext, qext, h1, h2,
          fun x hx => ⟨List.mem_cons_of_mem v (h3 x hx).1, (h3 x hx).2⟩, h4, h5, h6, h7, h8⟩

/-- `forwardScan_shape` for the backward scan. -/
theorem backwardScan_shape (net : Network) (t u : String) :
    ∀ (L : List String) (st : BFSState),
    ∃ ext pext qext,
      backwardScan net t u L st =
        ⟨st.queue ++ qext, st.parent ++ pext, st.visited ++ ext⟩ ∧
      ext.Nodup ∧
      (∀ x ∈ ext, x ∈ L ∧ x ∉ st.visited) ∧
      (∀ x ∈ qext, x ∈ ext) ∧
      qext.length ≤ ext.length ∧
      pext.map Prod.fst = ext ∧
      (∀ ce ∈ pext, ce.2.u = u ∧ ce.2.x = ce.1 ∧ ce.2.dir = -1 ∧ ce.2.key = (ce.1, u) ∧
        ∃ a, lookupArc net (ce.1, u) = some a ∧ 0 < a.residual_back) ∧
      (∀ x ∈ ext, x ∈ qext ∨ x = t) := by
  intro L
  induction L with
  | nil =>
    intro st
    exact ⟨[], [], [], by simp [backwardScan], by simp, by simp, by simp, by simp, by simp,
      by simp, by simp⟩
  | cons p rest ih =>
    intro st
    cases hl : lookupArc net (p, u) with
    | none =>
      rw [backwardScan, hl]
      obtain ⟨ext, pext, qext, h1, h2, h3, h4, h5, h6, h7, h8⟩ := ih st
      exact ⟨ext, pext, qext, h1, h2,
        fun x hx => ⟨List.mem_cons_of_mem p (h3 x hx).1, (h3 x hx).2⟩, h4, h5, h6, h7, h8⟩
    | some a =>
      rw [backwardScan, hl]
      simp only
      by_cases hc : 0 < a.residual_back ∧ p ∉ st.visited
      · rw [if_pos hc]
        by_cases hv : p = t
        · rw [if_pos hv]
          refine ⟨[p], [(p, ⟨u, p, (p, u), -1⟩)], [], by simp, by simp, ?_, by simp, by simp,
            by simp, ?_, ?_⟩
          · intro x hx
            rw [List.mem_singleton] at hx
            subst hx
            exact ⟨List.mem_cons_self _ _, hc.2⟩
          · intro ce hce
            rw [List.mem_singleton] at hce
            subst hce
            exact ⟨rfl, rfl, rfl, rfl, a, hl, hc.1⟩
          · intro x hx
            rw [List.mem_singleton] at hx
            exact Or.inr (hx.trans hv)
        · rw [if_neg hv]
          obtain ⟨ext, pext, qext, h1, h2, h3, h4, h5, h6, h7, h8⟩ :=
            ih ⟨st.queue ++ [p], st.parent ++ [(p, ⟨u, p, (p, u), -1⟩)], st.visited ++ [p]⟩
          refine ⟨p :: ext, (p, ⟨u, p, (p, u), -1⟩) :: pext, p :: qext, ?_, ?_, ?_, ?_, ?_,
            ?_, ?_, ?_⟩
          · rw [h1]
            simp
          · rw [List.nodup_cons]
            refine ⟨fun hp' => ?_, h2⟩
            exact (h3 p hp').2 (by simp)
          · intro x hx
            rcases List.mem_cons.mp hx with hx | hx
            · subst hx
              exact ⟨List.mem_cons_self _ _, hc.2⟩
            · have := h3 x hx
              refine ⟨List.mem_cons_of_mem p this.1, fun hm => this.2 ?_⟩
              simp [hm]
          · intro x hx
            rcases List.mem_cons.mp hx with hx | hx
            · simp [hx]
            · exact List.mem_cons_of_mem p (h4 x hx)
          · simpa using Nat.succ_le_succ h5
          · simpa using h6
          · intro ce hce
            rcases List.mem_cons.mp hce with hce | hce
            · subst hce
              exact ⟨rfl, rfl, rfl, rfl, a, hl, hc.1⟩
            · exact h7 ce hce
          · intro x hx
            rcases List.mem_cons.mp hx with hx | hx
            · exact Or.inl (by simp [hx])
            · rcases h8 x hx with hx8 | hx8
              · exact Or.inl (List.mem_cons_of_mem _ hx8)
              · exact Or.inr hx8
      · rw [if_neg hc]
        obtain ⟨ext, pext, qext, h1, h2, h3, h4, h5, h6, h7, h8⟩ := ih st
        exact ⟨ext, pext, qext, h1, h2,
          fun x hx => ⟨List.mem_cons_of_mem p (h3 x hx).1, (h3 x hx).2⟩, h4, h5, h6, h7, h8⟩

end Flow

namespace Flow

theorem residOf_eq_some {net : Network} {e : PathStep} {a : Arc}
    (h : lookupArc net e.key = some a) :
    residOf net e = if e.dir = 1 then a.residual_fwd else a.residual_back := by
  unfold residOf
  rw [h]

theorem BInv_forwardScan {net : Network} {s : String} (t u : String)
    (L : List String) {st : BFSState} (hinv : BInv net s st) (hu : u ∈ st.visited) :
    BInv net s (forwardScan net t u L st) ∧
    (∀ x ∈ st.visited, x ∈ (forwardScan net t u L st).visited) ∧
    (∀ x ∈ (forwardScan net t u L st).queue, x ∈ st.queue ∨ x ∉ st.visited) := by
  obtain ⟨ext, pext, qext, h1, h2, h3, h4, h5, h6, h7, h8⟩ := forwardScan_shape net t u L st
  rw [h1]
  obtain ⟨hq, hnd, hvp, hps⟩ := hinv
  have hdisj : ∀ x ∈ ext, x ∉ st.visited := fun x hx => (h3 x hx).2
  refine ⟨⟨?_, ?_, ?_, ?_⟩, ?_, ?_⟩
  · intro x hx
    rcases List.mem_append.mp hx with hx | hx
    · exact List.mem_append_left _ (hq x hx)
    · exact List.mem_append_right _ (h4 x hx)
  · exact List.Nodup.append hnd h2 (fun x hx1 hx2 => hdisj x hx2 hx1)
  · rw [hvp]
    simp [h6]
  · intro ce hce
    rcases List.mem_append.mp hce with hce | hce
    · obtain ⟨e1, e2, e3, e4, e5, e6⟩ := hps ce hce
      have hc1 : ce.1 ∈ st.visited := by
        rw [hvp]
        exact List.mem_cons_of_mem s (List.mem_map_of_mem Prod.fst hce)
      refine ⟨e1, e2, e3, e4, List.mem_append_left _ e5, ?_⟩
      rw [List.indexOf_append_of_mem e5, List.indexOf_append_of_mem hc1]
      exact e6
    · obtain ⟨f1, f2, f3, f4, f5⟩ := h7 ce hce
      have hmem : ce.1 ∈ ext := by
        rw [← h6]
        exact List.mem_map_of_mem Prod.fst hce
      obtain ⟨a, ha, hra⟩ := f5
      have hres : 0 < residOf net ce.2 := by
        rw [residOf_eq_some (show lookupArc net ce.2.key = some a by rw [f4]; exact ha),
          if_pos f3]
        exact hra
      refine ⟨f2, Or.inl ⟨f3, by rw [f4, f1]⟩, ⟨a, by rw [f4]; exact ha⟩, hres,
        by rw [f1]; exact List.mem_append_left _ hu, ?_⟩
      rw [f1, List.indexOf_append_of_mem hu,
        List.indexOf_append_of_not_mem (hdisj ce.1 hmem)]
      calc st.visited.indexOf u < st.visited.length := List.indexOf_lt_length.mpr hu
        _ ≤ st.visited.length + (List.indexOf ce.1 ext) := Nat.le_add_right _ _
  · intro x hx
    exact List.mem_append_left _ hx
  · intro x hx
    rcases List.mem_append.mp hx with hx | hx
    · exact Or.inl hx
    · refine Or.inr ?_
      have := h4 x hx
      exact hdisj x this

theorem BInv_backwardScan {net : Network} {s : String} (t u : String)
    (L : List String) {st : BFSState} (hinv : BInv net s st) (hu : u ∈ st.visited) :
    BInv net s (backwardScan net t u L st) ∧
    (∀ x ∈ st.visited, x ∈ (backwardScan net t u L st).visited) ∧
    (∀ x ∈ (backwardScan net t u L st).queue, x ∈ st.queue ∨ x ∉ st.visited) := by
  obtain ⟨ext, pext, qext, h1, h2, h3, h4, h5, h6, h7, h8⟩ := backwardScan_shape net t u L st
  rw [h1]
  obtain ⟨hq, hnd, hvp, hps⟩ := hinv
  have hdisj : ∀ x ∈ ext, x ∉ st.visited := fun x hx => (h3 x hx).2
  refine ⟨⟨?_, ?_, ?_, ?_⟩, ?_, ?_⟩
  · intro x hx
    rcases List.mem_append.mp hx with hx | hx
    · exact List.mem_append_left _ (hq x hx)
    · exact List.mem_append_right _ (h4 x hx)
  · exact List.Nodup.append hnd h2 (fun x hx1 hx2 => hdisj x hx2 hx1)
  · rw [hvp]
    simp [h6]
  · intro ce hce
    rcases List.mem_append.mp hce with hce | hce
    · obtain ⟨e1, e2, e3, e4, e5, e6⟩ := hps ce hce
      have hc1 : ce.1 ∈ st.visited := by
        rw [hvp]
        exact List.mem_cons_of_mem s (List.mem_map_of_mem Prod.fst hce)
      refine ⟨e1, e2, e3, e4, List.mem_append_left _ e5, ?_⟩
      rw [List.indexOf_append_of_mem e5, List.indexOf_append_of_mem hc1]
      exact e6
    · obtain ⟨f1, f2, f3, f4, f5⟩ := h7 ce hce
      have hmem : ce.1 ∈ ext := by
        rw [← h6]
        exact List.mem_map_of_mem Prod.fst hce
      obtain ⟨a, ha, hra⟩ := f5
      have hdirne : ce.2.dir ≠ 1 := by
        rw [f3]
        decide
      have hres : 0 < residOf net ce.2 := by
        rw [residOf_eq_some (show lookupArc net ce.2.key = some a by rw [f4]; exact ha),
          if_neg hdirne]
        exact hra
      refine ⟨f2, Or.inr ⟨f3, by rw [f4, f1]⟩, ⟨a, by rw [f4]; exact ha⟩, hres,
        by rw [f1]; exact List.mem_append_left _ hu, ?_⟩
      rw [f1, List.indexOf_append_of_mem hu,
        List.indexOf_append_of_not_mem (hdisj ce.1 hmem)]
      calc st.visited.indexOf u < st.visited.length := List.indexOf_lt_length.mpr hu
        _ ≤ st.visited.length + (List.indexOf ce.1 ext) := Nat.le_add_right _ _
  · intro x hx
    exact List.mem_append_left _ hx
  · intro x hx
    rcases List.mem_append.mp hx with hx | hx
    · exact Or.inl hx
    · refine Or.inr ?_
      have := h4 x hx
      exact hdisj x this

theorem bfsLoop_BInv (net : Network) (s t : String) :
    ∀ (fuel : ℕ) (st stf : BFSState), BInv net s st →
    bfsLoop net t fuel st = .finished stf →
    BInv net s stf ∧ (stf.queue = [] ∨ t ∈ stf.visited) := by
  intro fuel
  induction fuel with
  | zero =>
    intro st stf hinv h
    rw [bfsLoop] at h
    cases hq : st.queue with
    | nil =>
      rw [hq] at h
      simp only [] at h
      cases h
      exact ⟨hinv, Or.inl hq⟩
    | cons u rest =>
      rw [hq] at h
      simp only [] at h
      simp at h
  | succ f ih =>
    intro st stf hinv h
    rw [bfsLoop] at h
    cases hq : st.queue with
    | nil =>
      rw [hq] at h
      simp only [] at h
      cases h
      exact ⟨hinv, Or.inl hq⟩
    | cons u rest =>
      rw [hq] at h
      simp only [] at h
      cases hg : getNode net u with
      | none =>
        rw [hg] at h
        simp only [] at h
        simp at h
      | some nd =>
        rw [hg] at h
        simp only [] at h
        have hu : u ∈ st.visited := hinv.qsub u (by rw [hq]; exact List.mem_cons_self _ _)
        have hpop : BInv net s ⟨rest, st.parent, st.visited⟩ := by
          obtain ⟨hq1, h2, h3, h4⟩ := hinv
          exact ⟨fun x hx => hq1 x (by rw [hq]; exact List.mem_cons_of_mem u hx), h2, h3, h4⟩
        obtain ⟨hinv1, hm1, _⟩ := BInv_forwardScan t u nd._out hpop hu
        obtain ⟨hinv2, hm2, _⟩ := BInv_backwardScan t u nd._in hinv1 (hm1 u hu)
        by_cases ht : t ∈ (backwardScan net t u nd._in
            (forwardScan net t u nd._out ⟨rest, st.parent, st.visited⟩)).visited
        · rw [if_pos ht] at h
          cases h
          exact ⟨hinv2, Or.inr ht⟩
        · rw [if_neg ht] at h
          exact ih _ _ hinv2 h

theorem walk_ok {net : Network} {s : String} {st : BFSState} (hinv : BInv net s st) :
    ∀ (f : ℕ) (v : String), v ∈ st.visited → st.visited.indexOf v < f →
    ∃ rev, walkPath st.parent s f v = some rev ∧ GoodRev net s rev v ∧
      (revVerts rev v).Nodup ∧
      (∀ x ∈ revVerts rev v, x ∈ st.visited ∧
        st.visited.indexOf x ≤ st.visited.indexOf v) := by
  intro f
  induction f with
  | zero =>
    intro v hv hlt
    omega
  | succ f ih =>
    intro v hv hlt
    by_cases hvs : v = s
    · subst hvs
      refine ⟨[], by rw [walkPath, if_pos rfl], rfl, by simp [revVerts], ?_⟩
      intro x hx
      rw [revVerts, List.mem_singleton] at hx
      subst hx
      exact ⟨hv, le_refl _⟩
    · have hvkeys : v ∈ st.parent.map Prod.fst := by
        have := hinv.vparent ▸ hv
        rcases List.mem_cons.mp this with h | h
        · exact absurd h hvs
        · exact h
      have hsome : (alookup st.parent v).isSome := (alookup_isSome_iff_mem _ _).mpr hvkeys
      obtain ⟨e, he⟩ := Option.isSome_iff_exists.mp hsome
      have hmem := alookup_mem he
      obtain ⟨p1, p2, p3, p4, p5, p6⟩ := hinv.pstep (v, e) hmem
      have p1' : e.x = v := p1
      have p2' : (e.dir = 1 ∧ e.key = (e.u, v)) ∨ (e.dir = -1 ∧ e.key = (v, e.u)) := p2
      have p3' : ∃ a, lookupArc net e.key = some a := p3
      have p4' : 0 < residOf net e := p4
      have p5' : e.u ∈ st.visited := p5
      have p6' : st.visited.indexOf e.u < st.visited.indexOf v := p6
      have hult : st.visited.indexOf e.u < f := lt_of_lt_of_le p6' (Nat.lt_succ_iff.mp hlt)
      obtain ⟨rev', hw', hg', hn', hb'⟩ := ih e.u p5' hult
      refine ⟨e :: rev', ?_, ?_, ?_, ?_⟩
      · rw [walkPath, if_neg hvs, he]
        simp only []
        rw [hw']
        rfl
      · exact ⟨p1', hvs, p2', p3', p4', hg'⟩
      · rw [revVerts, List.nodup_cons]
        refine ⟨fun hvm => ?_, hn'⟩
        have := (hb' v hvm).2
        omega
      · intro x hx
        rw [revVerts] at hx
        rcases List.mem_cons.mp hx with hx | hx
        · subst hx
          exact ⟨hv, le_refl _⟩
        · have := hb' x hx
          exact ⟨this.1, le_trans this.2 (le_of_lt p6')⟩

end Flow

namespace Flow

/-- What a successful `_bfs_augmenting_path` returns: the reverse of a
well-formed sink-to-source chain with duplicate-free vertices, together with
its bottleneck. -/
theorem bfs_found_spec (net : Network) {s t : String} {b : ℚ} {path : List PathStep}
    (hst : s ≠ t) (h : bfs_augmenting_path net s t = .found b path) :
    ∃ rev, path = rev.reverse ∧ b = bottleneck net rev ∧ GoodRev net s rev t ∧
      (revVerts rev t).Nodup ∧ rev ≠ [] := by
  unfold bfs_augmenting_path at h
  simp only [] at h
  cases hL : bfsLoop net t (net.nodes.length + 1) ⟨[s], [], [s]⟩ with
  | keyError =>
    rw [hL] at h
    simp at h
  | noFuel =>
    rw [hL] at h
    simp at h
  | finished st =>
    rw [hL] at h
    simp only [] at h
    have hinv0 : BInv net s ⟨[s], [], [s]⟩ :=
      ⟨by simp, by simp, by simp, by simp⟩
    obtain ⟨hinv, _⟩ := bfsLoop_BInv net s t _ _ _ hinv0 hL
    by_cases ht : t ∈ st.visited
    · rw [if_pos ht] at h
      have hlen : st.visited.length = st.parent.length + 1 := by
        rw [hinv.vparent]
        simp
      have hidx : st.visited.indexOf t < st.parent.length + 1 := by
        rw [← hlen]
        exact List.indexOf_lt_length.mpr ht
      obtain ⟨rev, hw, hg, hn, _⟩ := walk_ok hinv (st.parent.length + 1) t ht hidx
      rw [hw] at h
      simp only [] at h
      cases h
      refine ⟨rev, rfl, rfl, hg, hn, ?_⟩
      intro hrev
      subst hrev
      exact hst (hg.symm)
    · rw [if_neg ht] at h
      simp at h

theorem revVerts_self_mem (rev : List PathStep) (v : String) : v ∈ revVerts rev v := by
  cases rev <;> simp [revVerts]

theorem goodRev_verts_mem {net : Network} {s : String} :
    ∀ {rev : List PathStep} {v : String}, GoodRev net s rev v →
    ∀ e ∈ rev, e.key.1 ∈ revVerts rev v ∧ e.key.2 ∈ revVerts rev v := by
  intro rev
  induction rev with
  | nil =>
    intro v _ e he
    simp at he
  | cons e0 l ih =>
    intro v hg e he
    obtain ⟨h1, h2, h3, h4, h5, h6⟩ := hg
    rcases List.mem_cons.mp he with he | he
    · subst he
      rcases h3 with ⟨_, hk⟩ | ⟨_, hk⟩
      · rw [hk]
        exact ⟨by
          rw [revVerts]
          exact List.mem_cons_of_mem v (revVerts_self_mem l e.u),
          by rw [revVerts]; exact List.mem_cons_self _ _⟩
      · rw [hk]
        exact ⟨by rw [revVerts]; exact List.mem_cons_self _ _,
          by
          rw [revVerts]
          exact List.mem_cons_of_mem v (revVerts_self_mem l e.u)⟩
    · have := ih h6 e he
      rw [revVerts]
      exact ⟨List.mem_cons_of_mem v this.1, List.mem_cons_of_mem v this.2⟩

theorem goodRev_keys_nodup {net : Network} {s : String} :
    ∀ {rev : List PathStep} {v : String}, GoodRev net s rev v →
    (revVerts rev v).Nodup → (rev.map (fun e => e.key)).Nodup := by
  intro rev
  induction rev with
  | nil =>
    intro v _ _
    simp
  | cons e0 l ih =>
    intro v hg hnd
    obtain ⟨h1, h2, h3, h4, h5, h6⟩ := hg
    rw [revVerts, List.nodup_cons] at hnd
    rw [List.map_cons, List.nodup_cons]
    refine ⟨fun hk => ?_, ih h6 hnd.2⟩
    obtain ⟨e1, he1, hke⟩ := List.mem_map.mp hk
    have hv1 : v = e0.key.1 ∨ v = e0.key.2 := by
      rcases h3 with ⟨_, hk0⟩ | ⟨_, hk0⟩
      · exact Or.inr (by rw [hk0])
      · exact Or.inl (by rw [hk0])
    have hverts := goodRev_verts_mem h6 e1 he1
    rw [hke] at hverts
    rcases hv1 with hv1 | hv1
    · exact hnd.1 (hv1 ▸ hverts.1)
    · exact hnd.1 (hv1 ▸ hverts.2)

theorem goodRev_resid_pos {net : Network} {s : String} :
    ∀ {rev : List PathStep} {v : String}, GoodRev net s rev v →
    ∀ e ∈ rev, (∃ a, lookupArc net e.key = some a) ∧ 0 < residOf net e := by
  intro rev
  induction rev with
  | nil =>
    intro v _ e he
    simp at he
  | cons e0 l ih =>
    intro v hg e he
    obtain ⟨h1, h2, h3, h4, h5, h6⟩ := hg
    rcases List.mem_cons.mp he with he | he
    · subst he
      exact ⟨h4, h5⟩
    · exact ih h6 e he

theorem foldl_min_le_init (rs : List ℚ) : ∀ r : ℚ, rs.foldl min r ≤ r := by
  induction rs with
  | nil => intro r; exact le_refl r
  | cons a l ih =>
    intro r
    exact le_trans (ih (min r a)) (min_le_left r a)

theorem foldl_min_le_mem (rs : List ℚ) :
    ∀ (r : ℚ) (x : ℚ), x ∈ rs → rs.foldl min r ≤ x := by
  induction rs with
  | nil =>
    intro r x hx
    simp at hx
  | cons a l ih =>
    intro r x hx
    rcases List.mem_cons.mp hx with hx | hx
    · subst hx
      exact le_trans (foldl_min_le_init l (min r x)) (min_le_right r x)
    · exact ih (min r a) x hx

theorem lt_foldl_min (rs : List ℚ) :
    ∀ r : ℚ, 0 < r → (∀ x ∈ rs, 0 < x) → 0 < rs.foldl min r := by
  induction rs with
  | nil =>
    intro r hr _
    exact hr
  | cons a l ih =>
    intro r hr hall
    exact ih (min r a) (lt_min hr (hall a (List.mem_cons_self _ _)))
      (fun x hx => hall x (List.mem_cons_of_mem a hx))

theorem bottleneck_le {net : Network} {rev : List PathStep} :
    ∀ e ∈ rev, bottleneck net rev ≤ residOf net e := by
  intro e he
  cases rev with
  | nil => simp at he
  | cons e0 l =>
    rw [bottleneck]
    simp only [List.map_cons]
    rcases List.mem_cons.mp he with he | he
    · subst he
      exact foldl_min_le_init _ _
    · exact foldl_min_le_mem _ _ _ (List.mem_map_of_mem _ he)

theorem bottleneck_pos {net : Network} {s v : String} {rev : List PathStep}
    (hg : GoodRev net s rev v) (hne : rev ≠ []) : 0 < bottleneck net rev := by
  cases rev with
  | nil => exact absurd rfl hne
  | cons e0 l =>
    rw [bottleneck]
    simp only [List.map_cons]
    have hall := goodRev_resid_pos hg
    exact lt_foldl_min _ _ (hall e0 (List.mem_cons_self _ _)).2
      (fun x hx => by
        obtain ⟨e, he, hex⟩ := List.mem_map.mp hx
        exact hex ▸ (hall e (List.mem_cons_of_mem e0 he)).2)

end Flow

theorem mem_aupdate {α β : Type} [DecidableEq α] (f : β → β) (k : α) :
    ∀ (l : List (α × β)), ∀ q ∈ aupdate f k l,
      q ∈ l ∨ ∃ b, alookup l k = some b ∧ q = (k, f b) := by
  intro l
  induction l with
  | nil =>
    intro q hq
    simp [aupdate] at hq
  | cons p rest ih =>
    obtain ⟨k0, b0⟩ := p
    intro q hq
    by_cases hk : k0 = k
    · subst hk
      rw [aupdate, if_pos rfl] at hq
      rcases List.mem_cons.mp hq with hq | hq
      · exact Or.inr ⟨b0, by simp [alookup], hq⟩
      · exact Or.inl (List.mem_cons_of_mem _ hq)
    · rw [aupdate, if_neg hk] at hq
      rcases List.mem_cons.mp hq with hq | hq
      · exact Or.inl (by simp [hq])
      · rcases ih q hq with h | ⟨b, hb, he⟩
        · exact Or.inl (List.mem_cons_of_mem _ h)
        · exact Or.inr ⟨b, by rw [alookup, if_neg hk]; exact hb, he⟩

namespace Flow

theorem residOf_eq_residL (net : Network) (e : PathStep) :
    residOf net e = residL net.arcs e := rfl

theorem residL_congr {arcs1 arcs2 : List ((String × String) × Arc)} {e : PathStep}
    (h : alookup arcs1 e.key = alookup arcs2 e.key) : residL arcs1 e = residL arcs2 e := by
  unfold residL
  rw [h]

theorem augmentArc_eq (b : ℚ) (arcs : List ((String × String) × Arc)) (e : PathStep) :
    augmentArc b arcs e = aupdate (flowAdj b e) e.key arcs := by
  unfold augmentArc flowAdj
  by_cases hd : e.dir = 1
  · rw [if_pos hd]
    congr 1
    funext a
    rw [if_pos hd]
  · rw [if_neg hd]
    congr 1
    funext a
    rw [if_neg hd]

theorem alookup_augmentArc_other (b : ℚ) (arcs : List ((String × String) × Arc))
    (e : PathStep) {k : String × String} (hk : k ≠ e.key) :
    alookup (augmentArc b arcs e) k = alookup arcs k := by
  rw [augmentArc_eq]
  exact alookup_aupdate_other _ hk _

theorem alookup_foldl_augment_of_not_mem (b : ℚ) :
    ∀ (path : List PathStep) (arcs : List ((String × String) × Arc)) (k : String × String),
    k ∉ path.map (fun e => e.key) →
    alookup (path.foldl (augmentArc b) arcs) k = alookup arcs k := by
  intro path
  induction path with
  | nil =>
    intro arcs k _
    rfl
  | cons e rest ih =>
    intro arcs k hk
    rw [List.map_cons] at hk
    rw [List.foldl_cons, ih _ _ (fun hm => hk (List.mem_cons_of_mem _ hm)),
      alookup_augmentArc_other _ _ _ (fun he => hk (by simp [he]))]

theorem alookup_foldl_augment_self (b : ℚ) :
    ∀ (path : List PathStep) (arcs : List ((String × String) × Arc)),
    (path.map (fun e => e.key)).Nodup →
    ∀ e ∈ path, ∀ a, alookup arcs e.key = some a →
    alookup (path.foldl (augmentArc b) arcs) e.key = some (flowAdj b e a) := by
  intro path
  induction path with
  | nil =>
    intro arcs _ e he
    simp at he
  | cons e0 rest ih =>
    intro arcs hnd e he a ha
    rw [List.map_cons, List.nodup_cons] at hnd
    rcases List.mem_cons.mp he with he | he
    · subst he
      rw [List.foldl_cons,
        alookup_foldl_augment_of_not_mem b rest _ e.key hnd.1, augmentArc_eq]
      exact alookup_aupdate_self _ ha
    · rw [List.foldl_cons]
      refine ih _ hnd.2 e he a ?_
      rw [alookup_augmentArc_other]
      · exact ha
      · intro hk
        exact hnd.1 (hk ▸ List.mem_map_of_mem (fun e => e.key) he)

theorem arcsOk_foldl_augment {b : ℚ} (hb : 0 ≤ b) :
    ∀ (path : List PathStep) (arcs : List ((String × String) × Arc)),
    (path.map (fun e => e.key)).Nodup →
    (∀ e ∈ path, ∃ a, alookup arcs e.key = some a ∧ b ≤ residL arcs e) →
    ArcsOk arcs → ArcsOk (path.foldl (augmentArc b) arcs) := by
  intro path
  induction path with
  | nil =>
    intro arcs _ _ hok
    exact hok
  | cons e0 rest ih =>
    intro arcs hnd hpres hok
    rw [List.map_cons, List.nodup_cons] at hnd
    rw [List.foldl_cons]
    have hok1 : ArcsOk (augmentArc b arcs e0) := by
      intro q hq
      rw [augmentArc_eq] at hq
      rcases mem_aupdate _ _ _ q hq with hq | ⟨a0, ha0, he⟩
      · exact hok q hq
      · obtain ⟨a1, ha1, hble⟩ := hpres e0 (List.mem_cons_self _ _)
        rw [ha0] at ha1
        cases ha1
        have hres : residL arcs e0 =
            if e0.dir = 1 then a0.residual_fwd else a0.residual_back := by
          unfold residL
          rw [ha0]
        have hq0 := hok (e0.key, a0) (alookup_mem ha0)
        subst he
        unfold flowAdj
        by_cases hd : e0.dir = 1
        · rw [if_pos hd]
          rw [hres, if_pos hd] at hble
          unfold Arc.residual_fwd at hble
          constructor
          · simp only
            linarith [hq0.1]
          · simp only
            linarith
        · rw [if_neg hd]
          rw [hres, if_neg hd] at hble
          unfold Arc.residual_back at hble
          constructor
          · simp only
            linarith
          · simp only
            linarith [hq0.2]
    refine ih _ hnd.2 ?_ hok1
    intro e he
    obtain ⟨a, ha, hble⟩ := hpres e (List.mem_cons_of_mem _ he)
    have hne : e.key ≠ e0.key := by
      intro hk
      exact hnd.1 (hk ▸ List.mem_map_of_mem (fun e => e.key) he)
    have hl : alookup (augmentArc b arcs e0) e.key = alookup arcs e.key :=
      alookup_augmentArc_other _ _ _ hne
    exact ⟨a, by rw [hl]; exact ha, by rw [residL_congr hl]; exact hble⟩

end Flow

namespace Flow

theorem inA_augmentArc (b : ℚ) (e : PathStep) (w : String) :
    ∀ (arcs : List ((String × String) × Arc)),
    (∃ a, alookup arcs e.key = some a) →
    inA (augmentArc b arcs e) w =
      inA arcs w + (if e.key.2 = w then (if e.dir = 1 then b else -b) else 0) := by
  intro arcs
  rw [augmentArc_eq]
  induction arcs with
  | nil =>
    rintro ⟨a, ha⟩
    simp [alookup] at ha
  | cons p rest ih =>
    obtain ⟨k0, a0⟩ := p
    rintro ⟨a, ha⟩
    by_cases hk : k0 = e.key
    · subst hk
      rw [aupdate, if_pos rfl]
      unfold inA
      simp only [List.map_cons, List.sum_cons]
      have hf : (flowAdj b e a0).flow =
          a0.flow + (if e.dir = 1 then b else -b) := by
        unfold flowAdj
        by_cases hd : e.dir = 1
        · rw [if_pos hd, if_pos hd]
        · rw [if_neg hd, if_neg hd]
          ring_nf
      by_cases hw : e.key.2 = w
      · simp only [if_pos hw, hf]
        ring
      · simp only [if_neg hw]
        ring
    · rw [aupdate, if_neg hk]
      unfold inA
      simp only [List.map_cons, List.sum_cons]
      rw [alookup, if_neg hk] at ha
      have := ih ⟨a, ha⟩
      unfold inA at this
      rw [this]
      ring

theorem outA_augmentArc (b : ℚ) (e : PathStep) (w : String) :
    ∀ (arcs : List ((String × String) × Arc)),
    (∃ a, alookup arcs e.key = some a) →
    outA (augmentArc b arcs e) w =
      outA arcs w + (if e.key.1 = w then (if e.dir = 1 then b else -b) else 0) := by
  intro arcs
  rw [augmentArc_eq]
  induction arcs with
  | nil =>
    rintro ⟨a, ha⟩
    simp [alookup] at ha
  | cons p rest ih =>
    obtain ⟨k0, a0⟩ := p
    rintro ⟨a, ha⟩
    by_cases hk : k0 = e.key
    · subst hk
      rw [aupdate, if_pos rfl]
      unfold outA
      simp only [List.map_cons, List.sum_cons]
      have hf : (flowAdj b e a0).flow =
          a0.flow + (if e.dir = 1 then b else -b) := by
        unfold flowAdj
        by_cases hd : e.dir = 1
        · rw [if_pos hd, if_pos hd]
        · rw [if_neg hd, if_neg hd]
          ring_nf
      by_cases hw : e.key.1 = w
      · simp only [if_pos hw, hf]
        ring
      · simp only [if_neg hw]
        ring
    · rw [aupdate, if_neg hk]
      unfold outA
      simp only [List.map_cons, List.sum_cons]
      rw [alookup, if_neg hk] at ha
      have := ih ⟨a, ha⟩
      unfold outA at this
      rw [this]
      ring

theorem augmentArc_key_present (b : ℚ) (e : PathStep)
    {arcs : List ((String × String) × Arc)} {k : String × String}
    (h : ∃ a, alookup arcs k = some a) :
    ∃ a, alookup (augmentArc b arcs e) k = some a := by
  obtain ⟨a, ha⟩ := h
  by_cases hk : k = e.key
  · subst hk
    rw [augmentArc_eq]
    exact ⟨flowAdj b e a, alookup_aupdate_self _ ha⟩
  · rw [alookup_augmentArc_other _ _ _ hk]
    exact ⟨a, ha⟩

theorem inA_sub_outA_foldl (b : ℚ) (w : String) :
    ∀ (path : List PathStep) (arcs : List ((String × String) × Arc)),
    (∀ e ∈ path, ∃ a, alookup arcs e.key = some a) →
    inA (path.foldl (augmentArc b) arcs) w - outA (path.foldl (augmentArc b) arcs) w =
      inA arcs w - outA arcs w +
      (path.map (fun e => (if e.key.2 = w then (if e.dir = 1 then b else -b) else 0)
        - (if e.key.1 = w then (if e.dir = 1 then b else -b) else 0))).sum := by
  intro path
  induction path with
  | nil =>
    intro arcs _
    simp
  | cons e0 rest ih =>
    intro arcs hpres
    rw [List.foldl_cons, List.map_cons, List.sum_cons]
    rw [ih (augmentArc b arcs e0)
      (fun e he => augmentArc_key_present b e0 (hpres e (List.mem_cons_of_mem _ he)))]
    rw [inA_augmentArc b e0 w arcs (hpres e0 (List.mem_cons_self _ _)),
      outA_augmentArc b e0 w arcs (hpres e0 (List.mem_cons_self _ _))]
    ring

theorem goodRev_delta_sum {net : Network} {s : String} (b : ℚ) (w : String) :
    ∀ {rev : List PathStep} {v : String}, GoodRev net s rev v →
    (rev.map (fun e => (if e.key.2 = w then (if e.dir = 1 then b else -b) else 0)
      - (if e.key.1 = w then (if e.dir = 1 then b else -b) else 0))).sum =
      b * (ind v w - ind s w) := by
  intro rev
  induction rev with
  | nil =>
    intro v hg
    have : v = s := hg
    subst this
    simp
  | cons e l ih =>
    intro v hg
    obtain ⟨h1, h2, h3, h4, h5, h6⟩ := hg
    rw [List.map_cons, List.sum_cons, ih h6]
    have hhead : (if e.key.2 = w then (if e.dir = 1 then b else -b) else 0)
        - (if e.key.1 = w then (if e.dir = 1 then b else -b) else 0) =
        b * (ind v w - ind e.u w) := by
      unfold ind
      rcases h3 with ⟨hd, hk⟩ | ⟨hd, hk⟩
      · rw [hk, hd]
        simp only
        by_cases hvw : v = w <;> by_cases huw : e.u = w <;>
          simp [hvw, huw] <;> ring
      · rw [hk, hd]
        have : ((-1 : Int) = 1) = False := by simp
        simp only [this, if_false]
        by_cases hvw : v = w <;> by_cases huw : e.u = w <;>
          simp [hvw, huw] <;> ring
    rw [hhead]
    ring

/-- Augmenting along a reconstructed path shifts the conservation profile by
the bottleneck: the flow value grows by `b`. -/
theorem conserve_augment {net : Network} {s t : String} {b V : ℚ}
    {rev : List PathStep} (hg : GoodRev net s rev t)
    (hcons : Conserve net.arcs s t V) :
    Conserve (augment net b rev.reverse).arcs s t (V + b) := by
  intro w
  have hpres : ∀ e ∈ rev.reverse, ∃ a, alookup net.arcs e.key = some a := by
    intro e he
    exact (goodRev_resid_pos hg e (List.mem_reverse.mp he)).1
  have hfold := inA_sub_outA_foldl b w rev.reverse net.arcs hpres
  have hsum : (rev.reverse.map
      (fun e => (if e.key.2 = w then (if e.dir = 1 then b else -b) else 0)
        - (if e.key.1 = w then (if e.dir = 1 then b else -b) else 0))).sum =
      b * (ind t w - ind s w) := by
    rw [List.map_reverse, List.sum_reverse]
    exact goodRev_delta_sum b w hg
  show inA (rev.reverse.foldl (augmentArc b) net.arcs) w -
    outA (rev.reverse.foldl (augmentArc b) net.arcs) w = (V + b) * (ind t w - ind s w)
  rw [hfold, hsum, hcons w]
  ring

end Flow

namespace Flow

theorem WF_augment {net : Network} (b : ℚ) (path : List PathStep) (h : WF net) :
    WF (augment net b path) :=
  WF_of_skel (skelNodes_augment net b path).symm (skelArcs_augment net b path).symm h

theorem WF_resetFlows {net : Network} (h : WF net) : WF (resetFlows net) :=
  WF_of_skel (skelNodes_resetFlows net).symm (skelArcs_resetFlows net).symm h

/-- Invariants carried through the Edmonds-Karp loop: when it returns
normally, the arc flows are feasible, they form a flow of value `V` from
`s` to `t`, and no augmenting path remains. -/
theorem mfLoop_ok_spec (s t : String) (hst : s ≠ t) :
    ∀ (fuel : ℕ) (acc : ℚ) (net : Network) (V : ℚ) (netF : Network),
    WF net → ArcsOk net.arcs → Conserve net.arcs s t acc →
    mfLoop s t fuel acc net = (.ok V, netF) →
    WF netF ∧ ArcsOk netF.arcs ∧ Conserve netF.arcs s t V ∧
      bfs_augmenting_path netF s t = .nopath := by
  intro fuel
  induction fuel with
  | zero =>
    intro acc net V netF _ _ _ h
    rw [mfLoop] at h
    simp at h
  | succ f ih =>
    intro acc net V netF hwf hok hcons h
    rw [mfLoop] at h
    cases hb : bfs_augmenting_path net s t with
    | keyError =>
      rw [hb] at h
      simp at h
    | noFuel =>
      rw [hb] at h
      simp at h
    | nopath =>
      rw [hb] at h
      simp only [Prod.mk.injEq] at h
      obtain ⟨hV, hN⟩ := h
      cases MFRes.ok.inj hV
      subst hN
      exact ⟨hwf, hok, hcons, hb⟩
    | found b path =>
      rw [hb] at h
      simp only [] at h
      obtain ⟨rev, hpath, hbot, hg, hnd, hne⟩ := bfs_found_spec net hst hb
      have hkeysnd : (path.map (fun e => e.key)).Nodup := by
        rw [hpath, List.map_reverse]
        exact List.nodup_reverse.mpr (goodRev_keys_nodup hg hnd)
      have hpres : ∀ e ∈ path, ∃ a, alookup net.arcs e.key = some a ∧
          b ≤ residL net.arcs e := by
        intro e he
        rw [hpath, List.mem_reverse] at he
        obtain ⟨⟨a, ha⟩, _⟩ := goodRev_resid_pos hg e he
        refine ⟨a, ha, ?_⟩
        rw [← residOf_eq_residL, hbot]
        exact bottleneck_le e he
      have hbpos : 0 < b := hbot ▸ bottleneck_pos hg hne
      have hok' : ArcsOk (augment net b path).arcs :=
        arcsOk_foldl_augment (le_of_lt hbpos) path net.arcs hkeysnd hpres hok
      have hcons' : Conserve (augment net b path).arcs s t (acc + b) := by
        rw [hpath]
        exact conserve_augment hg hcons
      exact ih (acc + b) (augment net b path) V netF (WF_augment b path hwf) hok' hcons' h

end Flow

namespace Flow

theorem updateStats_fold_stats :
    ∀ (arcs : List ((String × String) × Arc)) (ns : List (String × FlowNode)),
    (ns.map Prod.fst).Nodup →
    ∀ (id : String) (n0 : FlowNode), alookup ns id = some n0 →
    alookup (arcs.foldl (fun ns p =>
        aupdate (fun n => { n with inflow := n.inflow + p.2.flow }) p.1.2
          (aupdate (fun n => { n with outflow := n.outflow + p.2.flow }) p.1.1 ns)) ns) id =
      some { n0 with inflow := n0.inflow + inA arcs id,
                     outflow := n0.outflow + outA arcs id } := by
  intro arcs
  induction arcs with
  | nil =>
    intro ns _ id n0 h
    rw [List.foldl_nil, h]
    have : inA [] id = 0 := rfl
    have : outA [] id = 0 := rfl
    simp [inA, outA]
  | cons q rest ih =>
    intro ns hnd id n0 h
    rw [List.foldl_cons]
    have hnd1 : ((aupdate (fun n => { n with outflow := n.outflow + q.2.flow }) q.1.1
        ns).map Prod.fst).Nodup := by
      rw [aupdate_keys]
      exact hnd
    have hnd2 : ((aupdate (fun n => { n with inflow := n.inflow + q.2.flow }) q.1.2
        (aupdate (fun n => { n with outflow := n.outflow + q.2.flow }) q.1.1 ns)).map
        Prod.fst).Nodup := by
      rw [aupdate_keys]
      exact hnd1
    have h1 : alookup (aupdate (fun n => { n with outflow := n.outflow + q.2.flow }) q.1.1 ns)
        id = some { n0 with outflow := n0.outflow + (if q.1.1 = id then q.2.flow else 0) } := by
      by_cases hq : q.1.1 = id
      · subst hq
        rw [if_pos rfl]
        exact alookup_aupdate_self _ h
      · rw [if_neg hq, alookup_aupdate_other _ (fun he => hq he.symm), h]
        simp
    have h2 : alookup (aupdate (fun n => { n with inflow := n.inflow + q.2.flow }) q.1.2
        (aupdate (fun n => { n with outflow := n.outflow + q.2.flow }) q.1.1 ns)) id =
        some { n0 with inflow := n0.inflow + (if q.1.2 = id then q.2.flow else 0),
                       outflow := n0.outflow + (if q.1.1 = id then q.2.flow else 0) } := by
      by_cases hq : q.1.2 = id
      · subst hq
        rw [if_pos rfl]
        exact alookup_aupdate_self _ h1
      · rw [if_neg hq, alookup_aupdate_other _ (fun he => hq he.symm), h1]
        simp
    rw [ih _ hnd2 id _ h2]
    unfold inA outA
    simp only [List.map_cons, List.sum_cons]
    congr 1 <;> first
      | rfl
      | ring

theorem nodeIds_updateStats (net : Network) : nodeIds (updateStats net) = nodeIds net := by
  rw [← skelNodes_keys, ← skelNodes_keys, skelNodes_updateStats]

theorem updateStats_lookup {net : Network} (hnd : (nodeIds net).Nodup) {id : String}
    {n0 : FlowNode} (h : alookup net.nodes id = some n0) :
    alookup (updateStats net).nodes id =
      some { n0 with inflow := n0.inflow + inA net.arcs id,
                     outflow := n0.outflow + outA net.arcs id } :=
  updateStats_fold_stats net.arcs net.nodes hnd id n0 h

theorem resetFlows_stats (net : Network) :
    ∀ p ∈ (resetFlows net).nodes, p.2.inflow = 0 ∧ p.2.outflow = 0 := by
  intro p hp
  unfold resetFlows at hp
  simp only [List.mem_map] at hp
  obtain ⟨p0, _, he⟩ := hp
  rw [← he]
  exact ⟨rfl, rfl⟩

theorem resetFlows_arcsOk {net : Network} (hcap : ∀ q ∈ net.arcs, 0 ≤ q.2.capacity) :
    ArcsOk (resetFlows net).arcs := by
  intro q hq
  unfold resetFlows at hq
  simp only [List.mem_map] at hq
  obtain ⟨q0, hq0, he⟩ := hq
  rw [← he]
  exact ⟨le_refl 0, hcap q0 hq0⟩

theorem resetFlows_conserve (net : Network) (s t : String) :
    Conserve (resetFlows net).arcs s t 0 := by
  intro w
  have hin : inA (resetFlows net).arcs w = 0 := by
    unfold inA resetFlows
    simp only [List.map_map]
    refine List.sum_eq_zero ?_
    intro x hx
    simp only [List.mem_map, Function.comp] at hx
    obtain ⟨q0, _, he⟩ := hx
    rw [← he]
    by_cases hc : q0.1.2 = w <;> simp [hc]
  have hout : outA (resetFlows net).arcs w = 0 := by
    unfold outA resetFlows
    simp only [List.map_map]
    refine List.sum_eq_zero ?_
    intro x hx
    simp only [List.mem_map, Function.comp] at hx
    obtain ⟨q0, _, he⟩ := hx
    rw [← he]
    by_cases hc : q0.1.1 = w <;> simp [hc]
  rw [hin, hout]
  ring

theorem max_flow_ok_destruct {net : Network} {s t : String} {fuel : ℕ} {V : ℚ}
    (hst : s ≠ t) (h : (max_flow net s t fuel).1 = .ok V) :
    ∃ net2, mfLoop s t fuel 0 (resetFlows net) = (.ok V, net2) ∧
      (max_flow net s t fuel).2 = updateStats net2 := by
  unfold max_flow at h ⊢
  rw [if_neg hst] at h ⊢
  rcases hm : mfLoop s t fuel 0 (resetFlows net) with ⟨res, n2⟩
  rw [hm] at h
  cases res with
  | ok v =>
    simp only [] at h
    cases MFRes.ok.inj h
    exact ⟨n2, rfl, rfl⟩
  | keyError =>
    simp only [] at h
    simp at h
  | noFuel =>
    simp only [] at h
    simp at h

/-- Claim C5 (amended: all capacities non-negative): after a run of
`max_flow` on a network with non-negative capacities and distinct endpoints,
every arc satisfies `0 ≤ flow ≤ capacity`. -/
theorem max_flow_flows_within_capacity (net : Network) (s t : String) (fuel : ℕ)
    (V : ℚ) (hwf : WF net) (hcap : ∀ q ∈ net.arcs, 0 ≤ q.2.capacity) (hst : s ≠ t)
    (h : (max_flow net s t fuel).1 = .ok V) :
    ∀ q ∈ (max_flow net s t fuel).2.arcs, 0 ≤ q.2.flow ∧ q.2.flow ≤ q.2.capacity := by
  obtain ⟨net2, hm, he⟩ := max_flow_ok_destruct hst h
  obtain ⟨_, hok, _, _⟩ := mfLoop_ok_spec s t hst fuel 0 (resetFlows net) V net2
    (WF_resetFlows hwf) (resetFlows_arcsOk hcap) (resetFlows_conserve net s t) hm
  rw [he, updateStats_arcs]
  exact hok

/-- Concrete instantiation of `max_flow_flows_within_capacity` on the
quick-start network. -/
theorem max_flow_flows_within_capacity_witness :
    WF exNetwork ∧ (∀ q ∈ exNetwork.arcs, 0 ≤ q.2.capacity) ∧ ("s" : String) ≠ "t" ∧
    (max_flow exNetwork "s" "t" 10).1 = .ok 15 ∧
    ∀ q ∈ (max_flow exNetwork "s" "t" 10).2.arcs,
      0 ≤ q.2.flow ∧ q.2.flow ≤ q.2.capacity :=
  ⟨by decide, by decide, by decide, by decide,
    max_flow_flows_within_capacity exNetwork "s" "t" 10 15 (by decide) (by decide)
      (by decide) (by decide)⟩

/-- Claim C5 (counterexample to the original statement): the code accepts the
negative-capacity arc s→t(−1); after `max_flow` the arc carries flow 0 with
capacity −1, so `flow ≤ capacity` fails. -/
theorem max_flow_neg_capacity_violates_bounds :
    (max_flow negNetwork "s" "t" 5).1 = .ok 0 ∧
    lookupArc (max_flow negNetwork "s" "t" 5).2 ("s", "t") = some ⟨"s", "t", -1, 0⟩ ∧
    ¬ (∀ q ∈ (max_flow negNetwork "s" "t" 5).2.arcs,
        0 ≤ q.2.flow ∧ q.2.flow ≤ q.2.capacity) := by
  refine ⟨by decide, by decide, ?_⟩
  intro h
  have := h (("s", "t"), ⟨"s", "t", -1, 0⟩) (by decide)
  exact absurd this.2 (by decide)

/-- `mfLoop_ok_spec` without the feasibility component: conservation holds
for any capacities. -/
theorem mfLoop_conserve_spec (s t : String) (hst : s ≠ t) :
    ∀ (fuel : ℕ) (acc : ℚ) (net : Network) (V : ℚ) (netF : Network),
    WF net → Conserve net.arcs s t acc →
    mfLoop s t fuel acc net = (.ok V, netF) →
    WF netF ∧ Conserve netF.arcs s t V := by
  intro fuel
  induction fuel with
  | zero =>
    intro acc net V netF _ _ h
    rw [mfLoop] at h
    simp at h
  | succ f ih =>
    intro acc net V netF hwf hcons h
    rw [mfLoop] at h
    cases hb : bfs_augmenting_path net s t with
    | keyError =>
      rw [hb] at h
      simp at h
    | noFuel =>
      rw [hb] at h
      simp at h
    | nopath =>
      rw [hb] at h
      simp only [Prod.mk.injEq] at h
      obtain ⟨hV, hN⟩ := h
      cases MFRes.ok.inj hV
      subst hN
      exact ⟨hwf, hcons⟩
    | found b path =>
      rw [hb] at h
      simp only [] at h
      obtain ⟨rev, hpath, _, hg, _, _⟩ := bfs_found_spec net hst hb
      have hcons' : Conserve (augment net b path).arcs s t (acc + b) := by
        rw [hpath]
        exact conserve_augment hg hcons
      exact ih (acc + b) (augment net b path) V netF (WF_augment b path hwf) hcons' h

/-- Claim C6: after a successful `max_flow(source, sink)` run with distinct
endpoints, every vertex other than source and sink has equal inflow and
outflow (each being the sum of the flows on its incoming resp. outgoing
arcs, as recomputed by the post-loop update). -/
theorem max_flow_conservation (net : Network) (s t : String) (fuel : ℕ) (V : ℚ)
    (hwf : WF net) (hst : s ≠ t) (h : (max_flow net s t fuel).1 = .ok V) :
    ∀ p ∈ (max_flow net s t fuel).2.nodes, p.1 ≠ s → p.1 ≠ t →
      p.2.inflow = p.2.outflow := by
  obtain ⟨net2, hm, he⟩ := max_flow_ok_destruct hst h
  obtain ⟨hwf2, hcons⟩ := mfLoop_conserve_spec s t hst fuel 0 (resetFlows net) V net2
    (WF_resetFlows hwf) (resetFlows_conserve net s t) hm
  intro p hp hps hpt
  have hn2nodes : net2.nodes = (resetFlows net).nodes := by
    have hall := mfLoop_nodes s t fuel 0 (resetFlows net)
    rw [hm] at hall
    exact hall
  have hnd2 : (nodeIds net2).Nodup := hwf2.1
  have hndu : (nodeIds (updateStats net2)).Nodup := by
    rw [nodeIds_updateStats]
    exact hnd2
  rw [he] at hp
  have hlu : alookup (updateStats net2).nodes p.1 = some p.2 :=
    alookup_of_mem_nodup hndu (by exact hp)
  have hmem : p.1 ∈ nodeIds net2 := by
    have hm1 : p.1 ∈ nodeIds (updateStats net2) := List.mem_map_of_mem Prod.fst hp
    rw [nodeIds_updateStats] at hm1
    exact hm1
  obtain ⟨n0, hn0⟩ := Option.isSome_iff_exists.mp
    ((alookup_isSome_iff_mem net2.nodes p.1).mpr hmem)
  have hstats : n0.inflow = 0 ∧ n0.outflow = 0 := by
    have hm0 := alookup_mem hn0
    rw [hn2nodes] at hm0
    exact resetFlows_stats net (p.1, n0) hm0
  have hlu2 := updateStats_lookup hnd2 hn0
  rw [hlu] at hlu2
  have hp2 : p.2 = { n0 with
      inflow := n0.inflow + inA net2.arcs p.1,
      outflow := n0.outflow + outA net2.arcs p.1 } := Option.some.inj hlu2
  have hbal := hcons p.1
  have hit : ind t p.1 = 0 := by
    unfold ind
    rw [if_neg (fun he' => hpt he'.symm)]
  have his : ind s p.1 = 0 := by
    unfold ind
    rw [if_neg (fun he' => hps he'.symm)]
  rw [hit, his] at hbal
  rw [hp2]
  simp only
  rw [hstats.1, hstats.2]
  linarith

/-- Concrete instantiation of `max_flow_conservation` on the quick-start
network. -/
theorem max_flow_conservation_witness :
    WF exNetwork ∧ ("s" : String) ≠ "t" ∧ (max_flow exNetwork "s" "t" 10).1 = .ok 15 ∧
    ∀ p ∈ (max_flow exNetwork "s" "t" 10).2.nodes, p.1 ≠ "s" → p.1 ≠ "t" →
      p.2.inflow = p.2.outflow :=
  ⟨by decide, by decide, by decide,
    max_flow_conservation exNetwork "s" "t" 10 15 (by decide) (by decide) (by decide)⟩

end Flow

namespace Flow

theorem forwardScan_visited_mono (net : Network) (t u : String) (L : List String)
    (st : BFSState) : ∀ x ∈ st.visited, x ∈ (forwardScan net t u L st).visited := by
  obtain ⟨ext, pext, qext, h1, _⟩ := forwardScan_shape net t u L st
  rw [h1]
  intro x hx
  exact List.mem_append_left _ hx

theorem backwardScan_visited_mono (net : Network) (t u : String) (L : List String)
    (st : BFSState) : ∀ x ∈ st.visited, x ∈ (backwardScan net t u L st).visited := by
  obtain ⟨ext, pext, qext, h1, _⟩ := backwardScan_shape net t u L st
  rw [h1]
  intro x hx
  exact List.mem_append_left _ hx

/-- When the sink was not discovered, the forward scan visited every
positive-residual out-neighbour of the scanned list. -/
theorem forwardScan_covers (net : Network) (t u : String) :
    ∀ (L : List String) (st : BFSState),
    t ∉ (forwardScan net t u L st).visited →
    ∀ v ∈ L, ∀ a, lookupArc net (u, v) = some a → 0 < a.residual_fwd →
      v ∈ (forwardScan net t u L st).visited := by
  intro L
  induction L with
  | nil =>
    intro st _ v hv
    simp at hv
  | cons v0 rest ih =>
    intro st ht v hv a ha hres
    rcases List.mem_cons.mp hv with hv | hv
    · subst hv
      rw [forwardScan, ha] at ht ⊢
      simp only [] at ht ⊢
      by_cases hc : 0 < a.residual_fwd ∧ v ∉ st.visited
      · rw [if_pos hc] at ht ⊢
        by_cases hvt : v = t
        · rw [if_pos hvt] at ht
          exact absurd (by simp [hvt]) ht
        · rw [if_neg hvt] at ht ⊢
          exact forwardScan_visited_mono net t u rest _ v (by simp)
      · rw [if_neg hc] at ht ⊢
        have hvin : v ∈ st.visited := by
          by_contra hvn
          exact hc ⟨hres, hvn⟩
        exact forwardScan_visited_mono net t u rest st v hvin
    · rw [forwardScan] at ht ⊢
      cases hl : lookupArc net (u, v0) with
      | none =>
        rw [hl] at ht
        simp only [] at ht ⊢
        exact ih st ht v hv a ha hres
      | some a0 =>
        rw [hl] at ht
        simp only [] at ht ⊢
        by_cases hc : 0 < a0.residual_fwd ∧ v0 ∉ st.visited
        · rw [if_pos hc] at ht ⊢
          by_cases hvt : v0 = t
          · rw [if_pos hvt] at ht
            exact absurd (by simp [hvt]) ht
          · rw [if_neg hvt] at ht ⊢
            exact ih _ ht v hv a ha hres
        · rw [if_neg hc] at ht ⊢
          exact ih st ht v hv a ha hres

/-- When the sink was not discovered, the backward scan visited every
positive-residual in-neighbour of the scanned list. -/
theorem backwardScan_covers (net : Network) (t u : String) :
    ∀ (L : List String) (st : BFSState),
    t ∉ (backwardScan net t u L st).visited →
    ∀ p ∈ L, ∀ a, lookupArc net (p, u) = some a → 0 < a.residual_back →
      p ∈ (backwardScan net t u L st).visited := by
  intro L
  induction L with
  | nil =>
    intro st _ p hp
    simp at hp
  | cons p0 rest ih =>
    intro st ht p hp a ha hres
    rcases List.mem_cons.mp hp with hp | hp
    · subst hp
      rw [backwardScan, ha] at ht ⊢
      simp only [] at ht ⊢
      by_cases hc : 0 < a.residual_back ∧ p ∉ st.visited
      · rw [if_pos hc] at ht ⊢
        by_cases hpt : p = t
        · rw [if_pos hpt] at ht
          exact absurd (by simp [hpt]) ht
        · rw [if_neg hpt] at ht ⊢
          exact backwardScan_visited_mono net t u rest _ p (by simp)
      · rw [if_neg hc] at ht ⊢
        have hpin : p ∈ st.visited := by
          by_contra hpn
          exact hc ⟨hres, hpn⟩
        exact backwardScan_visited_mono net t u rest st p hpin
    · rw [backwardScan] at ht ⊢
      cases hl : lookupArc net (p0, u) with
      | none =>
        rw [hl] at ht
        simp only [] at ht ⊢
        exact ih st ht p hp a ha hres
      | some a0 =>
        rw [hl] at ht
        simp only [] at ht ⊢
        by_cases hc : 0 < a0.residual_back ∧ p0 ∉ st.visited
        · rw [if_pos hc] at ht ⊢
          by_cases hpt : p0 = t
          · rw [if_pos hpt] at ht
            exact absurd (by simp [hpt]) ht
          · rw [if_neg hpt] at ht ⊢
            exact ih _ ht p hp a ha hres
        · rw [if_neg hc] at ht ⊢
          exact ih st ht p hp a ha hres

theorem scanClosed_mono {net : Network} {V V' : List String} {u : String}
    (hsub : ∀ x ∈ V, x ∈ V') (h : scanClosed net V u) : scanClosed net V' u := by
  intro nd hnd
  obtain ⟨hf, hb⟩ := h nd hnd
  exact ⟨fun v hv a ha hr => hsub v (hf v hv a ha hr),
    fun p hp a ha hr => hsub p (hb p hp a ha hr)⟩

end Flow

namespace Flow

/-- Through the BFS loop: every visited vertex is a registered vertex, and —
unless the sink was discovered — every visited vertex that is not still
queued has been completely scanned. -/
theorem bfsLoop_closure (net : Network) (t : String) (hwf : WF net) :
    ∀ (fuel : ℕ) (st stf : BFSState),
    (∀ x ∈ st.visited, x ∈ nodeIds net) →
    (∀ x ∈ st.queue, x ∈ st.visited) →
    (t ∉ st.visited → ∀ v ∈ st.visited, v ∉ st.queue → scanClosed net st.visited v) →
    bfsLoop net t fuel st = .finished stf →
    (∀ x ∈ stf.visited, x ∈ nodeIds net) ∧ (∀ x ∈ st.visited, x ∈ stf.visited) ∧
    (t ∉ stf.visited → ∀ v ∈ stf.visited, v ∉ stf.queue → scanClosed net stf.visited v) := by
  intro fuel
  induction fuel with
  | zero =>
    intro st stf hvid hq hclo h
    rw [bfsLoop] at h
    cases hqe : st.queue with
    | nil =>
      rw [hqe] at h
      simp only [] at h
      cases h
      refine ⟨hvid, fun x hx => hx, fun ht v hv _ => hclo ht v hv ?_⟩
      rw [hqe]
      simp
    | cons u rest =>
      rw [hqe] at h
      simp only [] at h
      simp at h
  | succ f ih =>
    intro st stf hvid hq hclo h
    rw [bfsLoop] at h
    cases hqe : st.queue with
    | nil =>
      rw [hqe] at h
      simp only [] at h
      cases h
      refine ⟨hvid, fun x hx => hx, fun ht v hv _ => hclo ht v hv ?_⟩
      rw [hqe]
      simp
    | cons u rest =>
      rw [hqe] at h
      simp only [] at h
      cases hg : getNode net u with
      | none =>
        rw [hg] at h
        simp only [] at h
        simp at h
      | some nd =>
        rw [hg] at h
        simp only [] at h
        have hund : (u, nd) ∈ net.nodes := alookup_mem hg
        have hout_sub : ∀ x ∈ nd._out, x ∈ nodeIds net := (hwf.2.2.1 (u, nd) hund).2.1
        have hin_sub : ∀ x ∈ nd._in, x ∈ nodeIds net := (hwf.2.2.1 (u, nd) hund).2.2
        have hu_vis : u ∈ st.visited := hq u (by rw [hqe]; exact List.mem_cons_self _ _)
        obtain ⟨e1, p1, q1, hs1, hnd1, hf1, hq1, hlen1, hk1, hp1, h81⟩ :=
          forwardScan_shape net t u nd._out ⟨rest, st.parent, st.visited⟩
        simp only [] at hs1 hf1
        rw [hs1] at h
        obtain ⟨e2, p2, q2, hs2, hnd2, hf2, hq2, hlen2, hk2, hp2, h82⟩ :=
          backwardScan_shape net t u nd._in ⟨rest ++ q1, st.parent ++ p1, st.visited ++ e1⟩
        simp only [] at hs2 hf2
        rw [hs2] at h
        have hvid2 : ∀ x ∈ (st.visited ++ e1) ++ e2, x ∈ nodeIds net := by
          intro x hx
          rcases List.mem_append.mp hx with hx | hx
          · rcases List.mem_append.mp hx with hx | hx
            · exact hvid x hx
            · exact hout_sub x (hf1 x hx).1
          · exact hin_sub x (hf2 x hx).1
        have hq2sub : ∀ x ∈ (rest ++ q1) ++ q2, x ∈ (st.visited ++ e1) ++ e2 := by
          intro x hx
          rcases List.mem_append.mp hx with hx | hx
          · rcases List.mem_append.mp hx with hx | hx
            · exact List.mem_append_left _ (List.mem_append_left _
                (hq x (by rw [hqe]; exact List.mem_cons_of_mem u hx)))
            · exact List.mem_append_left _ (List.mem_append_right _ (hq1 x hx))
          · exact List.mem_append_right _ (hq2 x hx)
        have hmono : ∀ x ∈ st.visited, x ∈ (st.visited ++ e1) ++ e2 := by
          intro x hx
          exact List.mem_append_left _ (List.mem_append_left _ hx)
        have hclo2 : t ∉ (st.visited ++ e1) ++ e2 →
            ∀ v ∈ (st.visited ++ e1) ++ e2, v ∉ (rest ++ q1) ++ q2 →
            scanClosed net ((st.visited ++ e1) ++ e2) v := by
          intro ht v hv hvq
          have htold : t ∉ st.visited := fun hx => ht (hmono t hx)
          rcases List.mem_append.mp hv with hv | hv
          · rcases List.mem_append.mp hv with hv | hv
            · by_cases hvu : v = u
              · subst hvu
                intro nd' hnd'
                rw [hg] at hnd'
                cases Option.some.inj hnd'
                have ht1 : t ∉ st.visited ++ e1 := fun hx =>
                  ht (List.mem_append_left _ hx)
                constructor
                · intro w hw a ha hr
                  have hcov := forwardScan_covers net t v nd._out
                    ⟨rest, st.parent, st.visited⟩ (by rw [hs1]; exact ht1) w hw a ha hr
                  rw [hs1] at hcov
                  exact List.mem_append_left _ hcov
                · intro p hp a ha hr
                  have hcov := backwardScan_covers net t v nd._in
                    ⟨rest ++ q1, st.parent ++ p1, st.visited ++ e1⟩
                    (by rw [hs2]; exact ht) p hp a ha hr
                  rw [hs2] at hcov
                  exact hcov
              · have hvrest : v ∉ rest := fun hvr =>
                  hvq (List.mem_append_left _ (List.mem_append_left _ hvr))
                have hvq0 : v ∉ st.queue := by
                  rw [hqe]
                  intro hvm
                  rcases List.mem_cons.mp hvm with hvm | hvm
                  · exact hvu hvm
                  · exact hvrest hvm
                exact scanClosed_mono hmono (hclo htold v hv hvq0)
            · rcases h81 v hv with hvq1 | hvt
              · exact absurd (List.mem_append_left _ (List.mem_append_right _ hvq1)) hvq
              · exact absurd (hvt ▸ List.mem_append_left _
                  (List.mem_append_right _ hv : v ∈ st.visited ++ e1)) ht
          · rcases h82 v hv with hvq2 | hvt
            · exact absurd (List.mem_append_right _ hvq2) hvq
            · exact absurd (hvt ▸ (List.mem_append_right _ hv :
                v ∈ (st.visited ++ e1) ++ e2)) ht
        by_cases htv : t ∈ (st.visited ++ e1) ++ e2
        · rw [if_pos htv] at h
          cases h
          exact ⟨hvid2, hmono, fun ht => absurd htv ht⟩
        · rw [if_neg htv] at h
          obtain ⟨c1, c2, c3⟩ := ih ⟨(rest ++ q1) ++ q2, (st.parent ++ p1) ++ p2,
            (st.visited ++ e1) ++ e2⟩ stf hvid2 hq2sub hclo2 h
          exact ⟨c1, fun x hx => c2 x (hmono x hx), c3⟩

/-! ### Saturated cut extracted from a failed BFS -/

theorem map_fst_map {α β γ : Type} (g : α × β → γ) (l : List (α × β)) :
    (l.map (fun p => (p.1, g p))).map Prod.fst = l.map Prod.fst := by
  induction l with
  | nil => rfl
  | cons p rest ih => simp [ih]

theorem nodeIds_resetFlows (net : Network) :
    nodeIds (resetFlows net) = nodeIds net := by
  unfold nodeIds resetFlows
  exact map_fst_map _ _

/-- A BFS loop run that finishes without reaching the sink has emptied its
queue (the early-exit `finished` always has the sink visited). -/
theorem bfsLoop_finished_queue (net : Network) (t : String) :
    ∀ (fuel : ℕ) (st stf : BFSState),
    bfsLoop net t fuel st = .finished stf → t ∉ stf.visited → stf.queue = [] := by
  intro fuel
  induction fuel with
  | zero =>
    intro st stf h _
    rw [bfsLoop] at h
    cases hqe : st.queue with
    | nil =>
      rw [hqe] at h
      simp only [] at h
      cases h
      exact hqe
    | cons u rest =>
      rw [hqe] at h
      simp only [] at h
      simp at h
  | succ f ih =>
    intro st stf h ht
    rw [bfsLoop] at h
    cases hqe : st.queue with
    | nil =>
      rw [hqe] at h
      simp only [] at h
      cases h
      exact hqe
    | cons u rest =>
      rw [hqe] at h
      simp only [] at h
      cases hg : getNode net u with
      | none =>
        rw [hg] at h
        simp at h
      | some nd =>
        rw [hg] at h
        simp only [] at h
        by_cases htv : t ∈ (backwardScan net t u nd._in
            (forwardScan net t u nd._out ⟨rest, st.parent, st.visited⟩)).visited
        · rw [if_pos htv] at h
          cases h
          exact absurd htv ht
        · rw [if_neg htv] at h
          exact ih _ stf h ht

/-- If the loop runs at least one step, the head of the queue is a
registered vertex (otherwise `self[u]` raises `KeyError`). -/
theorem bfsLoop_head_registered (net : Network) (t : String) (f : ℕ) (st : BFSState)
    (u : String) (rest : List String) (hq : st.queue = u :: rest) {stf : BFSState}
    (h : bfsLoop net t (f + 1) st = .finished stf) : u ∈ nodeIds net := by
  rw [bfsLoop, hq] at h
  simp only [] at h
  cases hg : getNode net u with
  | none =>
    rw [hg] at h
    simp at h
  | some nd =>
    have hs : (alookup net.nodes u).isSome := by
      have hg' : alookup net.nodes u = some nd := hg
      rw [hg']
      rfl
    exact (alookup_isSome_iff_mem net.nodes u).mp hs

/-- A `.nopath` answer of `_bfs_augmenting_path` yields a saturated visited
set: it contains the source, misses the sink, lies inside the vertex set,
and every positive-residual edge out of it stays inside it. -/
theorem bfs_nopath_closed {net : Network} {s t : String} (hwf : WF net)
    (h : bfs_augmenting_path net s t = .nopath) :
    ∃ L : List String, s ∈ L ∧ t ∉ L ∧ (∀ x ∈ L, x ∈ nodeIds net) ∧
      ∀ v ∈ L, scanClosed net L v := by
  rw [bfs_augmenting_path] at h
  cases hb : bfsLoop net t (net.nodes.length + 1) ⟨[s], [], [s]⟩ with
  | keyError =>
    rw [hb] at h
    simp at h
  | noFuel =>
    rw [hb] at h
    simp at h
  | finished st =>
    rw [hb] at h
    simp only [] at h
    by_cases ht : t ∈ st.visited
    · rw [if_pos ht] at h
      cases hw : walkPath st.parent s (st.parent.length + 1) t with
      | none =>
        rw [hw] at h
        simp at h
      | some rev =>
        rw [hw] at h
        simp at h
    · rw [if_neg ht] at h
      have hreg : s ∈ nodeIds net :=
        bfsLoop_head_registered net t net.nodes.length ⟨[s], [], [s]⟩ s [] rfl hb
      have hqe : st.queue = [] := bfsLoop_finished_queue net t _ _ _ hb ht
      obtain ⟨c1, c2, c3⟩ := bfsLoop_closure net t hwf (net.nodes.length + 1)
        ⟨[s], [], [s]⟩ st
        (by
          intro x hx
          rw [List.mem_singleton.mp hx]
          exact hreg)
        (fun x hx => hx)
        (fun _ v hv hvq => absurd hv hvq)
        hb
      refine ⟨st.visited, c2 s (List.mem_singleton.mpr rfl), ht, c1, ?_⟩
      intro v hv
      refine c3 ht v hv ?_
      rw [hqe]
      simp

/-! ### Cut algebra -/

theorem outA_cons (q : (String × String) × Arc) (l : List ((String × String) × Arc))
    (w : String) :
    outA (q :: l) w = (if q.1.1 = w then q.2.flow else 0) + outA l w := by
  simp [outA]

theorem inA_cons (q : (String × String) × Arc) (l : List ((String × String) × Arc))
    (w : String) :
    inA (q :: l) w = (if q.1.2 = w then q.2.flow else 0) + inA l w := by
  simp [inA]

theorem netAcross_cons (q : (String × String) × Arc) (l : List ((String × String) × Arc))
    (S : Finset String) :
    netAcross (q :: l) S =
      q.2.flow * ((if q.1.1 ∈ S then (1 : ℚ) else 0) - (if q.1.2 ∈ S then (1 : ℚ) else 0)) +
      netAcross l S := by
  simp [netAcross]

/-- The net flow across a cut is the total excess of the vertices inside it. -/
theorem netAcross_eq_sum (S : Finset String) :
    ∀ arcs : List ((String × String) × Arc),
    netAcross arcs S = ∑ w in S, (outA arcs w - inA arcs w) := by
  intro arcs
  induction arcs with
  | nil => simp [netAcross, outA, inA]
  | cons q l ih =>
    rw [netAcross_cons, ih]
    have hsplit : ∑ w in S, (outA (q :: l) w - inA (q :: l) w)
        = ∑ w in S, (((if q.1.1 = w then q.2.flow else 0) -
            (if q.1.2 = w then q.2.flow else 0)) + (outA l w - inA l w)) := by
      refine Finset.sum_congr rfl ?_
      intro w _
      rw [outA_cons, inA_cons]
      ring
    have hA : ∑ w in S, ((if q.1.1 = w then q.2.flow else 0) -
        (if q.1.2 = w then q.2.flow else 0))
        = (if q.1.1 ∈ S then q.2.flow else 0) - (if q.1.2 ∈ S then q.2.flow else 0) := by
      rw [Finset.sum_sub_distrib, Finset.sum_ite_eq, Finset.sum_ite_eq]
    rw [hsplit, Finset.sum_add_distrib, hA]
    by_cases h1 : q.1.1 ∈ S <;> by_cases h2 : q.1.2 ∈ S <;> simp [h1, h2] <;> ring

/-- Every cut separating `s` from `t` carries the full conserved value. -/
theorem netAcross_eq_value {arcs : List ((String × String) × Arc)} {s t : String}
    {V : ℚ} (hc : Conserve arcs s t V) {S : Finset String} (hs : s ∈ S) (ht : t ∉ S) :
    netAcross arcs S = V := by
  rw [netAcross_eq_sum]
  have hpt : ∀ w ∈ S, outA arcs w - inA arcs w = V * (ind s w - ind t w) := by
    intro w _
    have h := hc w
    have h2 : outA arcs w - inA arcs w = -(inA arcs w - outA arcs w) := by ring
    rw [h2, h]
    ring
  rw [Finset.sum_congr rfl hpt, ← Finset.mul_sum]
  have hind : ∑ w in S, (ind s w - ind t w) = 1 := by
    rw [Finset.sum_sub_distrib]
    simp only [ind, Finset.sum_ite_eq]
    rw [if_pos hs, if_neg ht]
    ring
  rw [hind, mul_one]

/-- Weak duality: with feasible flows, the net flow across any cut is at
most the cut's capacity. -/
theorem netAcross_le_cutCap {arcs : List ((String × String) × Arc)} (hok : ArcsOk arcs)
    (S : Finset String) : netAcross arcs S ≤ cutCap arcs S := by
  unfold netAcross cutCap
  refine List.sum_le_sum ?_
  intro q hq
  obtain ⟨⟨u, v⟩, a⟩ := q
  obtain ⟨hf0, hfc⟩ := hok ((u, v), a) hq
  by_cases h1 : u ∈ S <;> by_cases h2 : v ∈ S
  · rw [if_pos h1, if_pos h2, if_neg (fun hc => hc.2 h2)]
    have he : a.flow * ((1 : ℚ) - 1) = 0 := by ring
    rw [he]
  · rw [if_pos h1, if_neg h2, if_pos (And.intro h1 h2)]
    have he : a.flow * ((1 : ℚ) - 0) = a.flow := by ring
    rw [he]
    exact hfc
  · rw [if_neg h1, if_pos h2, if_neg (fun hc => h1 hc.1)]
    have he : a.flow * ((0 : ℚ) - 1) = -a.flow := by ring
    rw [he]
    linarith
  · rw [if_neg h1, if_neg h2, if_neg (fun hc => h1 hc.1)]
    have he : a.flow * ((0 : ℚ) - 0) = 0 := by ring
    rw [he]

/-- On a saturated visited set the weak-duality bound is tight: every
crossing arc is full and every arc entering the set from outside is empty. -/
theorem netAcross_eq_cutCap_of_closed {net : Network} (hwf : WF net) {L : List String}
    (hclo : ∀ v ∈ L, scanClosed net L v) (hok : ArcsOk net.arcs) :
    netAcross net.arcs L.toFinset = cutCap net.arcs L.toFinset := by
  refine le_antisymm (netAcross_le_cutCap hok L.toFinset) ?_
  unfold netAcross cutCap
  refine List.sum_le_sum ?_
  intro q hq
  obtain ⟨⟨u, v⟩, a⟩ := q
  obtain ⟨hf0, hfc⟩ := hok ((u, v), a) hq
  have hlook : lookupArc net (u, v) = some a := alookup_of_mem_nodup hwf.2.1 hq
  have hwfq := hwf.2.2.2 ((u, v), a) hq
  by_cases h1 : u ∈ L.toFinset <;> by_cases h2 : v ∈ L.toFinset
  · rw [if_neg (fun hc => hc.2 h2), if_pos h1, if_pos h2]
    have he : a.flow * ((1 : ℚ) - 1) = 0 := by ring
    rw [he]
  · obtain ⟨nd, hnd, hvout⟩ := (optHolds_iff _ _).mp hwfq.2.2.1
    have hcl := hclo u (List.mem_toFinset.mp h1) nd hnd
    have hcap : ¬ (0 < a.residual_fwd) := by
      intro hr
      exact h2 (List.mem_toFinset.mpr (hcl.1 v (of_decide_eq_true hvout) a hlook hr))
    unfold Arc.residual_fwd at hcap
    push_neg at hcap
    rw [if_pos (And.intro h1 h2), if_pos h1, if_neg h2]
    have he : a.flow * ((1 : ℚ) - 0) = a.flow := by ring
    rw [he]
    linarith
  · obtain ⟨nd, hnd, huin⟩ := (optHolds_iff _ _).mp hwfq.2.2.2
    have hcl := hclo v (List.mem_toFinset.mp h2) nd hnd
    have hfl : ¬ (0 < a.residual_back) := by
      intro hr
      exact h1 (List.mem_toFinset.mpr (hcl.2 u (of_decide_eq_true huin) a hlook hr))
    unfold Arc.residual_back at hfl
    push_neg at hfl
    rw [if_neg (fun hc => h1 hc.1), if_neg h1, if_pos h2]
    have he : a.flow * ((0 : ℚ) - 1) = -a.flow := by ring
    rw [he]
    linarith
  · rw [if_neg (fun hc => h1 hc.1), if_neg h1, if_neg h2]
    have he : a.flow * ((0 : ℚ) - 0) = 0 := by ring
    rw [he]

/-- Cut capacities only read the arc skeleton, so they agree across runs
that preserve it. -/
theorem cutCap_eq_of_skelArcs {net1 net2 : Network} (h : skelArcs net1 = skelArcs net2)
    (S : Finset String) : cutCap net1.arcs S = cutCap net2.arcs S := by
  have key : ∀ net : Network, cutCap net.arcs S =
      ((skelArcs net).map (fun r => if r.1.1 ∈ S ∧ r.1.2 ∉ S then r.2.2.2 else 0)).sum := by
    intro net
    unfold cutCap skelArcs
    rw [List.map_map]
    rfl
  rw [key net1, key net2, h]

/-- Claim C1 (amended: all capacities non-negative).  When `max_flow`
returns a value `V` on a well-formed network with non-negative capacities
and distinct endpoints, some vertex cut separating source from sink has
capacity exactly `V`, and every such cut has capacity at least `V` — so `V`
is the minimum cut capacity; moreover on the quick-start network
`max_flow("s", "t")` returns 15. -/
theorem max_flow_min_cut :
    (∀ (net : Network) (s t : String) (fuel : ℕ) (V : ℚ),
      WF net → (∀ q ∈ net.arcs, 0 ≤ q.2.capacity) → s ≠ t →
      (max_flow net s t fuel).1 = .ok V →
      ∃ S : Finset String, (∀ x ∈ S, x ∈ nodeIds net) ∧ s ∈ S ∧ t ∉ S ∧
        cutCap net.arcs S = V ∧
        ∀ S' : Finset String, s ∈ S' → t ∉ S' → V ≤ cutCap net.arcs S') ∧
    (max_flow exNetwork "s" "t" 10).1 = .ok 15 := by
  constructor
  · intro net s t fuel V hwf hcap hst h
    obtain ⟨net2, hm, _⟩ := max_flow_ok_destruct hst h
    obtain ⟨hwf2, hok2, hcons2, hnp⟩ := mfLoop_ok_spec s t hst fuel 0 (resetFlows net)
      V net2 (WF_resetFlows hwf) (resetFlows_arcsOk hcap) (resetFlows_conserve net s t) hm
    have hskel : skelArcs net2 = skelArcs net := by
      have h1 := mfLoop_skelArcs s t fuel 0 (resetFlows net)
      rw [hm] at h1
      simp only [] at h1
      rw [h1, skelArcs_resetFlows]
    have hnodes : nodeIds net2 = nodeIds net := by
      have h1 := mfLoop_nodes s t fuel 0 (resetFlows net)
      rw [hm] at h1
      simp only [] at h1
      have h2 : nodeIds net2 = nodeIds (resetFlows net) := by
        unfold nodeIds
        rw [h1]
      rw [h2, nodeIds_resetFlows]
    obtain ⟨L, hsL, htL, hvid, hclo⟩ := bfs_nopath_closed hwf2 hnp
    refine ⟨L.toFinset, ?_, List.mem_toFinset.mpr hsL,
      fun hx => htL (List.mem_toFinset.mp hx), ?_, ?_⟩
    · intro x hx
      rw [← hnodes]
      exact hvid x (List.mem_toFinset.mp hx)
    · rw [← cutCap_eq_of_skelArcs hskel]
      rw [← netAcross_eq_cutCap_of_closed hwf2 hclo hok2]
      exact netAcross_eq_value hcons2 (List.mem_toFinset.mpr hsL)
        (fun hx => htL (List.mem_toFinset.mp hx))
    · intro S2 hs2 ht2
      rw [← cutCap_eq_of_skelArcs hskel]
      calc V = netAcross net2.arcs S2 := (netAcross_eq_value hcons2 hs2 ht2).symm
        _ ≤ cutCap net2.arcs S2 := netAcross_le_cutCap hok2 S2
  · decide

/-- Concrete instantiation of `max_flow_min_cut` on the quick-start
network: the returned value 15 is the minimum cut capacity. -/
theorem max_flow_min_cut_witness :
    WF exNetwork ∧ (∀ q ∈ exNetwork.arcs, 0 ≤ q.2.capacity) ∧ ("s" : String) ≠ "t" ∧
    (max_flow exNetwork "s" "t" 10).1 = .ok 15 ∧
    ∃ S : Finset String, (∀ x ∈ S, x ∈ nodeIds exNetwork) ∧ "s" ∈ S ∧ "t" ∉ S ∧
      cutCap exNetwork.arcs S = 15 ∧
      ∀ S2 : Finset String, "s" ∈ S2 → "t" ∉ S2 → 15 ≤ cutCap exNetwork.arcs S2 :=
  ⟨by decide, by decide, by decide, by decide,
    max_flow_min_cut.1 exNetwork "s" "t" 10 15 (by decide) (by decide) (by decide)
      (by decide)⟩

/-- Claim C1 (counterexample to the original statement): on the accepted
negative-capacity network s→t(−1), `max_flow` returns 0 but no cut
separating "s" from "t" has capacity 0 (they all have capacity −1), so the
returned value is not the capacity of any (hence of a minimum) cut. -/
theorem min_cut_fails_on_negative_capacity :
    (max_flow negNetwork "s" "t" 5).1 = .ok 0 ∧
    ¬ ∃ S : Finset String, "s" ∈ S ∧ "t" ∉ S ∧ cutCap negNetwork.arcs S = 0 := by
  refine ⟨by decide, ?_⟩
  rintro ⟨S, hs, ht, hc⟩
  have harc : negNetwork.arcs = [(("s", "t"), ⟨"s", "t", -1, 0⟩)] := by decide
  rw [harc] at hc
  unfold cutCap at hc
  simp only [List.map_cons, List.map_nil, List.sum_cons, List.sum_nil] at hc
  rw [if_pos (And.intro hs ht)] at hc
  norm_num at hc

/-! ### Termination of the BFS within its fuel bound -/

/-- With well-formed adjacency and a visited queue, the BFS loop finishes
(no `KeyError`, no fuel exhaustion) whenever the fuel exceeds the number of
unvisited vertices plus the queue length. -/
theorem bfsLoop_finishes (net : Network) (t : String) (hwf : WF net) :
    ∀ (fuel : ℕ) (st : BFSState),
    (∀ x ∈ st.visited, x ∈ nodeIds net) →
    (∀ x ∈ st.queue, x ∈ st.visited) →
    ((nodeIds net).toFinset \ st.visited.toFinset).card + st.queue.length < fuel →
    ∃ stf, bfsLoop net t fuel st = .finished stf := by
  intro fuel
  induction fuel with
  | zero =>
    intro st _ _ hm
    exact absurd hm (Nat.not_lt_zero _)
  | succ f ih =>
    intro st hvid hq hm
    cases hqe : st.queue with
    | nil =>
      refine ⟨st, ?_⟩
      rw [bfsLoop, hqe]
    | cons u rest =>
      have hu_vis : u ∈ st.visited := hq u (by rw [hqe]; exact List.mem_cons_self _ _)
      have hu_reg : u ∈ nodeIds net := hvid u hu_vis
      obtain ⟨nd, hg⟩ : ∃ nd, getNode net u = some nd := by
        have hsome := (alookup_isSome_iff_mem net.nodes u).mpr hu_reg
        rw [Option.isSome_iff_exists] at hsome
        exact hsome
      have hund : (u, nd) ∈ net.nodes := alookup_mem hg
      have hout_sub : ∀ x ∈ nd._out, x ∈ nodeIds net := (hwf.2.2.1 (u, nd) hund).2.1
      have hin_sub : ∀ x ∈ nd._in, x ∈ nodeIds net := (hwf.2.2.1 (u, nd) hund).2.2
      obtain ⟨e1, p1, q1, hs1, hnd1, hf1, hq1, hlen1, hk1, hp1, h81⟩ :=
        forwardScan_shape net t u nd._out ⟨rest, st.parent, st.visited⟩
      simp only [] at hs1 hf1
      obtain ⟨e2, p2, q2, hs2, hnd2, hf2, hq2, hlen2, hk2, hp2, h82⟩ :=
        backwardScan_shape net t u nd._in ⟨rest ++ q1, st.parent ++ p1, st.visited ++ e1⟩
      simp only [] at hs2 hf2
      rw [bfsLoop, hqe]
      simp only []
      rw [hg]
      simp only []
      rw [hs1, hs2]
      by_cases htv : t ∈ (st.visited ++ e1) ++ e2
      · rw [if_pos htv]
        exact ⟨_, rfl⟩
      · rw [if_neg htv]
        refine ih ⟨(rest ++ q1) ++ q2, (st.parent ++ p1) ++ p2,
          (st.visited ++ e1) ++ e2⟩ ?_ ?_ ?_
        · intro x hx
          rcases List.mem_append.mp hx with hx | hx
          · rcases List.mem_append.mp hx with hx | hx
            · exact hvid x hx
            · exact hout_sub x (hf1 x hx).1
          · exact hin_sub x (hf2 x hx).1
        · intro x hx
          rcases List.mem_append.mp hx with hx | hx
          · rcases List.mem_append.mp hx with hx | hx
            · exact List.mem_append_left _ (List.mem_append_left _
                (hq x (by rw [hqe]; exact List.mem_cons_of_mem u hx)))
            · exact List.mem_append_left _ (List.mem_append_right _ (hq1 x hx))
          · exact List.mem_append_right _ (hq2 x hx)
        · show ((nodeIds net).toFinset \ ((st.visited ++ e1) ++ e2).toFinset).card +
            ((rest ++ q1) ++ q2).length < f
          have hnd12 : (e1 ++ e2).Nodup := by
            rw [List.nodup_append]
            exact ⟨hnd1, hnd2,
              fun x hx1 hx2 => (hf2 x hx2).2 (List.mem_append_right _ hx1)⟩
          have hsub12 : (e1 ++ e2).toFinset ⊆
              (nodeIds net).toFinset \ st.visited.toFinset := by
            intro x hx
            rw [List.mem_toFinset, List.mem_append] at hx
            rw [Finset.mem_sdiff, List.mem_toFinset, List.mem_toFinset]
            rcases hx with hx | hx
            · exact ⟨hout_sub x (hf1 x hx).1, (hf1 x hx).2⟩
            · exact ⟨hin_sub x (hf2 x hx).1,
                fun hv => (hf2 x hx).2 (List.mem_append_left _ hv)⟩
          have hcard := Finset.card_sdiff_add_card_eq_card hsub12
          have hsd : (nodeIds net).toFinset \ ((st.visited ++ e1) ++ e2).toFinset
              = ((nodeIds net).toFinset \ st.visited.toFinset) \ (e1 ++ e2).toFinset := by
            ext x
            simp only [Finset.mem_sdiff, List.mem_toFinset, List.mem_append]
            tauto
          have hlen12 : (e1 ++ e2).toFinset.card = e1.length + e2.length := by
            rw [List.toFinset_card_of_nodup hnd12, List.length_append]
          rw [hsd, List.length_append, List.length_append]
          rw [hqe] at hm
          simp only [List.length_cons] at hm
          omega

/-- Claim C9: `max_flow` does not validate its endpoints.  An unregistered
source (distinct from the sink) makes it fail with `KeyError`, but only
after every arc's flow has been reset to zero; an unregistered sink on a
well-formed network with registered source makes it return 0 normally. -/
theorem max_flow_unknown_endpoints :
    (∀ (net : Network) (s t : String) (fuel : ℕ),
      s ∉ nodeIds net → s ≠ t → 1 ≤ fuel →
      max_flow net s t fuel = (.keyError, resetFlows net) ∧
        ∀ q ∈ (resetFlows net).arcs, q.2.flow = 0) ∧
    (∀ (net : Network) (s t : String) (fuel : ℕ),
      WF net → s ∈ nodeIds net → t ∉ nodeIds net → s ≠ t → 1 ≤ fuel →
      (max_flow net s t fuel).1 = .ok 0) := by
  constructor
  · intro net s t fuel hs hst hf
    obtain ⟨f, rfl⟩ : ∃ f, fuel = f + 1 := ⟨fuel - 1, by omega⟩
    have hg : getNode (resetFlows net) s = none := by
      have hns : s ∉ nodeIds (resetFlows net) := by
        rw [nodeIds_resetFlows]
        exact hs
      exact (alookup_eq_none_iff _ _).mpr hns
    have hloop : bfsLoop (resetFlows net) t ((resetFlows net).nodes.length + 1)
        ⟨[s], [], [s]⟩ = .keyError := by
      rw [bfsLoop]
      simp only []
      rw [hg]
    have hbfs : bfs_augmenting_path (resetFlows net) s t = .keyError := by
      rw [bfs_augmenting_path, hloop]
    constructor
    · unfold max_flow
      rw [if_neg hst, mfLoop, hbfs]
    · intro q hq
      unfold resetFlows at hq
      simp only [List.mem_map] at hq
      obtain ⟨q0, _, he⟩ := hq
      rw [← he]
  · intro net s t fuel hwf hsin htout hst hf
    obtain ⟨f, rfl⟩ : ∃ f, fuel = f + 1 := ⟨fuel - 1, by omega⟩
    have hwf' : WF (resetFlows net) := WF_resetFlows hwf
    have hsin' : s ∈ nodeIds (resetFlows net) := by
      rw [nodeIds_resetFlows]
      exact hsin
    have htout' : t ∉ nodeIds (resetFlows net) := by
      rw [nodeIds_resetFlows]
      exact htout
    obtain ⟨stf, hloop⟩ := bfsLoop_finishes (resetFlows net) t hwf'
      ((resetFlows net).nodes.length + 1) ⟨[s], [], [s]⟩
      (by
        intro x hx
        rw [List.mem_singleton.mp hx]
        exact hsin')
      (fun x hx => hx)
      (by
        have h1 : (nodeIds (resetFlows net)).toFinset.card ≤
            (nodeIds (resetFlows net)).length := List.toFinset_card_le _
        have h2 : (nodeIds (resetFlows net)).toFinset \ ([s] : List String).toFinset ⊂
            (nodeIds (resetFlows net)).toFinset := by
          refine Finset.sdiff_ssubset ?_ ?_
          · intro x hx
            rw [List.mem_toFinset] at hx
            rw [List.mem_singleton.mp hx]
            exact List.mem_toFinset.mpr hsin'
          · exact ⟨s, List.mem_toFinset.mpr (List.mem_singleton.mpr rfl)⟩
        have h3 := Finset.card_lt_card h2
        have h4 : (nodeIds (resetFlows net)).length = (resetFlows net).nodes.length :=
          List.length_map _ _
        show ((nodeIds (resetFlows net)).toFinset \ ([s] : List String).toFinset).card +
          ([s] : List String).length < (resetFlows net).nodes.length + 1
        simp only [List.length_singleton]
        omega)
    obtain ⟨c1, _, _⟩ := bfsLoop_closure (resetFlows net) t hwf'
      ((resetFlows net).nodes.length + 1) ⟨[s], [], [s]⟩ stf
      (by
        intro x hx
        rw [List.mem_singleton.mp hx]
        exact hsin')
      (fun x hx => hx)
      (fun _ v hv hvq => absurd hv hvq)
      hloop
    have htf : t ∉ stf.visited := fun hx => htout' (c1 t hx)
    have hbfs : bfs_augmenting_path (resetFlows net) s t = .nopath := by
      rw [bfs_augmenting_path, hloop]
      simp only []
      rw [if_neg htf]
    unfold max_flow
    rw [if_neg hst, mfLoop, hbfs]

/-- Concrete instantiation of `max_flow_unknown_endpoints` on the
quick-start network with the unknown label "z". -/
theorem max_flow_unknown_endpoints_witness :
    ("z" ∉ nodeIds exNetwork ∧ ("z" : String) ≠ "t" ∧ (1 : ℕ) ≤ 5 ∧
      (max_flow exNetwork "z" "t" 5 = (.keyError, resetFlows exNetwork) ∧
        ∀ q ∈ (resetFlows exNetwork).arcs, q.2.flow = 0)) ∧
    (WF exNetwork ∧ "s" ∈ nodeIds exNetwork ∧ "z" ∉ nodeIds exNetwork ∧
      ("s" : String) ≠ "z" ∧ (1 : ℕ) ≤ 5 ∧ (max_flow exNetwork "s" "z" 5).1 = .ok 0) :=
  ⟨⟨by decide, by decide, by decide,
      max_flow_unknown_endpoints.1 exNetwork "z" "t" 5 (by decide) (by decide)
        (by decide)⟩,
    ⟨by decide, by decide, by decide, by decide, by decide,
      max_flow_unknown_endpoints.2 exNetwork "s" "z" 5 (by decide) (by decide)
        (by decide) (by decide) (by decide)⟩⟩

end Flow

/-! ## Undirected BFS (claim C8) -/

namespace Undirected

theorem visGet_replicate (n x : ℕ) : visGet (List.replicate n false) x = false := by
  show ((List.replicate n false).get? x).getD false = false
  rcases h : (List.replicate n false).get? x with _ | b
  · rfl
  · have hb := List.get?_mem h
    rw [List.eq_of_mem_replicate hb]
    rfl

theorem visGet_set_self {vis : List Bool} {i : ℕ} (h : i < vis.length) :
    visGet (vis.set i true) i = true := by
  show ((vis.set i true).get? i).getD false = true
  rw [List.get?_set_eq_of_lt true h]
  rfl

theorem visGet_set_other {vis : List Bool} {i j : ℕ} (h : i ≠ j) :
    visGet (vis.set i true) j = visGet vis j := by
  show ((vis.set i true).get? j).getD false = (vis.get? j).getD false
  rw [List.get?_set_ne true vis h]

theorem visGet_true_lt {vis : List Bool} {x : ℕ} (h : visGet vis x = true) :
    x < vis.length := by
  by_contra hge
  have hnone : vis.get? x = none := List.get?_eq_none.mpr (by omega)
  have : visGet vis x = false := by
    show (vis.get? x).getD false = false
    rw [hnone]
    rfl
  rw [this] at h
  exact Bool.noConfusion h

theorem visGet_set_mono {vis : List Bool} {i x : ℕ} (h : visGet vis x = true) :
    visGet (vis.set i true) x = true := by
  by_cases hxi : i = x
  · subst hxi
    exact visGet_set_self (visGet_true_lt h)
  · rw [visGet_set_other hxi]
    exact h

theorem mem_enum_getD (l : List ℚ) (p : ℕ × ℚ) (h : p ∈ l.enum) :
    l.getD p.1 0 = p.2 := by
  rw [List.mem_enum_iff_getElem?, ← List.get?_eq_getElem?] at h
  show (l.get? p.1).getD 0 = p.2
  rw [h]
  rfl

theorem enum_mem_of_lt (l : List ℚ) (j : ℕ) (h : j < l.length) :
    (j, l.getD j 0) ∈ l.enum := by
  rw [List.mem_enum_iff_getElem?]
  rcases hv : l.get? j with _ | v
  · rw [List.get?_eq_none] at hv
    omega
  · have hgd : l.getD j 0 = v := by
      show (l.get? j).getD 0 = v
      rw [hv]
      rfl
    rw [← List.get?_eq_getElem?, hv, hgd]

theorem labelOf_mem : ∀ (key : List (String × ℕ)) (i : ℕ) (lab : String),
    labelOf key i = some lab → (lab, i) ∈ key := by
  intro key
  induction key with
  | nil =>
    intro i lab h
    simp [labelOf] at h
  | cons p rest ih =>
    intro i lab h
    obtain ⟨plab, pi⟩ := p
    rw [labelOf] at h
    by_cases hpi : pi = i
    · rw [if_pos hpi] at h
      cases Option.some.inj h
      rw [hpi]
      exact List.mem_cons_self _ _
    · rw [if_neg hpi] at h
      exact List.mem_cons_of_mem _ (ih i lab h)

theorem labelOf_of_mem_nodup : ∀ (key : List (String × ℕ)) (i : ℕ) (lab : String),
    (key.map Prod.snd).Nodup → (lab, i) ∈ key → labelOf key i = some lab := by
  intro key
  induction key with
  | nil =>
    intro i lab _ h
    simp at h
  | cons p rest ih =>
    intro i lab hnd h
    obtain ⟨plab, pi⟩ := p
    rw [List.map_cons, List.nodup_cons] at hnd
    rw [labelOf]
    rcases List.mem_cons.mp h with he | hm
    · cases he
      rw [if_pos rfl]
    · by_cases hpi : pi = i
      · exfalso
        apply hnd.1
        rw [hpi]
        exact List.mem_map.mpr ⟨(lab, i), hm, rfl⟩
      · rw [if_neg hpi]
        exact ih i lab hnd.2 hm

/-- Everything one neighbour scan does: it appends a duplicate-free list of
freshly marked indices to the queue, marks exactly those, and afterwards
every non-zero-weight scanned cell is marked. -/
theorem uScan_shape : ∀ (L : List (ℕ × ℚ)) (vis : List Bool) (q : List ℕ),
    (∀ p ∈ L, p.1 < vis.length) →
    ∃ (vis2 : List Bool) (fresh : List ℕ),
      uScan L vis q = (vis2, q ++ fresh) ∧
      vis2.length = vis.length ∧
      fresh.Nodup ∧
      (∀ x ∈ fresh, visGet vis x = false ∧ ∃ w, (x, w) ∈ L ∧ w ≠ 0) ∧
      (∀ x, visGet vis2 x = true ↔ (visGet vis x = true ∨ x ∈ fresh)) ∧
      (∀ p ∈ L, p.2 ≠ 0 → visGet vis2 p.1 = true) := by
  intro L
  induction L with
  | nil =>
    intro vis q _
    refine ⟨vis, [], by simp [uScan], rfl, List.nodup_nil, by simp, by simp, by simp⟩
  | cons p rest ih =>
    intro vis q hL
    obtain ⟨i, w⟩ := p
    by_cases hc : w ≠ 0 ∧ visGet vis i = false
    · have hi : i < vis.length := hL (i, w) (List.mem_cons_self _ _)
      obtain ⟨vis2, fresh, h1, h2, h3, h4, h5, h6⟩ := ih (vis.set i true) (q ++ [i])
        (by
          intro p hp
          rw [List.length_set]
          exact hL p (List.mem_cons_of_mem _ hp))
      refine ⟨vis2, i :: fresh, ?_, ?_, ?_, ?_, ?_, ?_⟩
      · rw [uScan, if_pos hc, h1]
        simp [List.append_assoc]
      · rw [h2, List.length_set]
      · rw [List.nodup_cons]
        refine ⟨fun hif => ?_, h3⟩
        have hfi := (h4 i hif).1
        rw [visGet_set_self hi] at hfi
        exact Bool.noConfusion hfi
      · intro x hx
        rcases List.mem_cons.mp hx with hx | hx
        · subst hx
          exact ⟨hc.2, w, List.mem_cons_self _ _, hc.1⟩
        · obtain ⟨hxv, w2, hw2, hw0⟩ := h4 x hx
          by_cases hxi : x = i
          · subst hxi
            exact ⟨hc.2, w, List.mem_cons_self _ _, hc.1⟩
          · rw [visGet_set_other (fun he => hxi he.symm)] at hxv
            exact ⟨hxv, w2, List.mem_cons_of_mem _ hw2, hw0⟩
      · intro x
        rw [h5 x]
        by_cases hxi : x = i
        · subst hxi
          rw [visGet_set_self hi]
          simp [List.mem_cons]
        · rw [visGet_set_other (fun he => hxi he.symm)]
          simp only [List.mem_cons]
          constructor
          · rintro (hh | hh)
            · exact Or.inl hh
            · exact Or.inr (Or.inr hh)
          · rintro (hh | hh | hh)
            · exact Or.inl hh
            · exact absurd hh hxi
            · exact Or.inr hh
      · intro p hp hpw
        rcases List.mem_cons.mp hp with hp | hp
        · subst hp
          exact (h5 _).mpr (Or.inl (visGet_set_self hi))
        · exact h6 p hp hpw
    · obtain ⟨vis2, fresh, h1, h2, h3, h4, h5, h6⟩ := ih vis q
        (fun p hp => hL p (List.mem_cons_of_mem _ hp))
      refine ⟨vis2, fresh, ?_, h2, h3, ?_, h5, ?_⟩
      · rw [uScan, if_neg hc]
        exact h1
      · intro x hx
        obtain ⟨hxv, w2, hw2, hw0⟩ := h4 x hx
        exact ⟨hxv, w2, List.mem_cons_of_mem _ hw2, hw0⟩
      · intro p hp hpw
        rcases List.mem_cons.mp hp with hp | hp
        · subst hp
          have hvi : visGet vis i = true := by
            rcases hb : visGet vis i with _ | _
            · exact absurd ⟨hpw, hb⟩ hc
            · rfl
          exact (h5 _).mpr (Or.inl hvi)
        · exact h6 p hp hpw

/-- Run of the recorded BFS loop: starting from a state whose marked set is
exactly the dequeued-plus-queued indices (all in range, all reachable from
`root`, with the dequeued part closed under adjacency and already recorded),
the loop completes within its fuel and ends with a duplicate-free dequeued
list covering everything, still closed and recorded in order. -/
theorem uLoop_run (g : UndiGraph) (root : ℕ) (hwf : UWF g) :
    ∀ (fuel : ℕ) (st : UBfsState) (dq : List ℕ),
    st.visited.length = g._size →
    (dq ++ st.q).Nodup →
    (∀ i ∈ dq ++ st.q, i < g._size) →
    (∀ x, visGet st.visited x = true ↔ x ∈ dq ++ st.q) →
    (∀ i ∈ dq, ∀ j, adjStep g i j → j ∈ dq ++ st.q) →
    (∀ i ∈ dq ++ st.q, reachIdx g root i) →
    st.order = dq.filterMap (labelOf g._key) →
    ((Finset.range g._size).filter (fun i => visGet st.visited i = false)).card
      + st.q.length < fuel →
    ∃ (stf : UBfsState) (dqf : List ℕ),
      uLoop g true fuel st = some stf ∧
      stf.order = dqf.filterMap (labelOf g._key) ∧
      dqf.Nodup ∧
      (∀ i ∈ dqf, i < g._size) ∧
      (∀ i ∈ dqf, reachIdx g root i) ∧
      (∀ i ∈ dq, i ∈ dqf) ∧ (∀ i ∈ st.q, i ∈ dqf) ∧
      (∀ i ∈ dqf, ∀ j, adjStep g i j → j ∈ dqf) := by
  intro fuel
  induction fuel with
  | zero =>
    intro st dq _ _ _ _ _ _ _ hm
    exact absurd hm (Nat.not_lt_zero _)
  | succ f ih =>
    intro st dq h_len h_nd h_sz h_vis h_clo h_rch h_ord hm
    obtain ⟨sq, svis, sord⟩ := st
    simp only [] at h_len h_nd h_sz h_vis h_clo h_rch h_ord hm
    cases sq with
    | nil =>
      rw [List.append_nil] at h_nd h_sz h_clo h_rch
      refine ⟨⟨[], svis, sord⟩, dq, rfl, h_ord, h_nd, h_sz, h_rch,
        fun i hi => hi, fun i hi => absurd hi (List.not_mem_nil i), ?_⟩
      intro i hi j hj
      exact h_clo i hi j hj
    | cons cur rest =>
      have hcur_mem : cur ∈ dq ++ cur :: rest :=
        List.mem_append_right _ (List.mem_cons_self _ _)
      have hcur_sz : cur < g._size := h_sz cur hcur_mem
      obtain ⟨pk, hpk, hpki⟩ := hwf.2.2.2.1 cur hcur_sz
      obtain ⟨lab, hlab⟩ : ∃ lab, labelOf g._key cur = some lab := by
        refine ⟨pk.1, labelOf_of_mem_nodup g._key cur pk.1 hwf.2.1 ?_⟩
        have hpe : pk = (pk.1, cur) := by
          rw [← hpki]
        rw [← hpe]
        exact hpk
      have hmat_lt : cur < g._matrix.length := by
        rw [hwf.2.2.2.2.1]
        exact hcur_sz
      have hrow_len : (g._matrix.getD cur []).length = g._size := by
        refine hwf.2.2.2.2.2 _ ?_
        rw [List.getD_eq_getElem g._matrix [] hmat_lt]
        exact List.getElem_mem hmat_lt
      have hLbound : ∀ p ∈ (g._matrix.getD cur []).enum, p.1 < svis.length := by
        intro p hp
        rw [h_len, ← hrow_len]
        exact List.fst_lt_of_mem_enum hp
      obtain ⟨vis2, fresh, hscan, hlen2, hndf, hfresh, hvis2, hcov⟩ :=
        uScan_shape (g._matrix.getD cur []).enum svis rest hLbound
      have hstep : uLoop g true (f + 1) ⟨cur :: rest, svis, sord⟩ =
          uLoop g true f ⟨rest ++ fresh, vis2, sord ++ [lab]⟩ := by
        rw [uLoop]
        simp only []
        rw [hlab]
        simp only [Option.map]
        rw [hscan]
        rw [if_pos trivial]
      have hsub_new : ∀ x, x ∈ dq ++ cur :: rest →
          x ∈ (dq ++ [cur]) ++ (rest ++ fresh) := by
        intro x hx
        rcases List.mem_append.mp hx with hx | hx
        · exact List.mem_append_left _ (List.mem_append_left _ hx)
        · rcases List.mem_cons.mp hx with hx | hx
          · rw [hx]
            exact List.mem_append_left _
              (List.mem_append_right _ (List.mem_singleton.mpr rfl))
          · exact List.mem_append_right _ (List.mem_append_left _ hx)
      have hsub_back : ∀ x, x ∈ (dq ++ [cur]) ++ rest → x ∈ dq ++ cur :: rest := by
        intro x hx
        rw [List.append_cons]
        exact hx
      have hfresh_new : ∀ x ∈ fresh, x ∉ dq ++ cur :: rest := by
        intro x hx hmem
        have hxf := (hfresh x hx).1
        rw [(h_vis x).mpr hmem] at hxf
        exact Bool.noConfusion hxf
      have hadj_fresh : ∀ x ∈ fresh, adjStep g cur x := by
        intro x hx
        obtain ⟨_, w, hw, hw0⟩ := (hfresh x hx)
        refine ⟨List.fst_lt_of_mem_enum hw, ?_⟩
        rw [mem_enum_getD _ _ hw]
        exact hw0
      have hfresh_sz : ∀ x ∈ fresh, x < g._size := by
        intro x hx
        obtain ⟨_, w, hw, _⟩ := (hfresh x hx)
        rw [← hrow_len]
        exact List.fst_lt_of_mem_enum hw
      have len2 : vis2.length = g._size := by
        rw [hlen2, h_len]
      have nd2 : ((dq ++ [cur]) ++ (rest ++ fresh)).Nodup := by
        have hnd0 : ((dq ++ [cur]) ++ rest).Nodup := by
          rw [← List.append_cons]
          exact h_nd
        rw [List.nodup_append] at hnd0
        obtain ⟨nd_dqc, nd_rest, disj0⟩ := hnd0
        rw [List.nodup_append]
        refine ⟨nd_dqc, ?_, ?_⟩
        · rw [List.nodup_append]
          refine ⟨nd_rest, hndf, ?_⟩
          intro x hx1 hx2
          exact hfresh_new x hx2
            (List.mem_append_right _ (List.mem_cons_of_mem _ hx1))
        · intro x hx1 hx2
          rcases List.mem_append.mp hx2 with hx2 | hx2
          · exact disj0 hx1 hx2
          · exact hfresh_new x hx2 (hsub_back x (List.mem_append_left _ hx1))
      have sz2 : ∀ i ∈ (dq ++ [cur]) ++ (rest ++ fresh), i < g._size := by
        intro i hi
        rcases List.mem_append.mp hi with hi | hi
        · exact h_sz i (hsub_back i (List.mem_append_left _ hi))
        · rcases List.mem_append.mp hi with hi | hi
          · exact h_sz i (List.mem_append_right _ (List.mem_cons_of_mem _ hi))
          · exact hfresh_sz i hi
      have vis2c : ∀ x, visGet vis2 x = true ↔
          x ∈ (dq ++ [cur]) ++ (rest ++ fresh) := by
        intro x
        rw [hvis2 x, h_vis x]
        simp only [List.mem_append, List.mem_cons, List.mem_singleton,
          List.not_mem_nil, or_false]
        tauto
      have clo2 : ∀ i ∈ dq ++ [cur], ∀ j, adjStep g i j →
          j ∈ (dq ++ [cur]) ++ (rest ++ fresh) := by
        intro i hi j hadj
        rcases List.mem_append.mp hi with hi | hi
        · exact hsub_new j (h_clo i hi j hadj)
        · have hic : i = cur := List.mem_singleton.mp hi
          subst hic
          have hj := hcov (j, (g._matrix.getD i []).getD j 0)
            (enum_mem_of_lt _ _ hadj.1) hadj.2
          rw [hvis2 j] at hj
          rcases hj with hold | hfr
          · exact hsub_new j ((h_vis j).mp hold)
          · exact List.mem_append_right _ (List.mem_append_right _ hfr)
      have rch2 : ∀ i ∈ (dq ++ [cur]) ++ (rest ++ fresh), reachIdx g root i := by
        intro i hi
        rcases List.mem_append.mp hi with hi | hi
        · exact h_rch i (hsub_back i (List.mem_append_left _ hi))
        · rcases List.mem_append.mp hi with hi | hi
          · exact h_rch i (List.mem_append_right _ (List.mem_cons_of_mem _ hi))
          · exact Relation.ReflTransGen.tail (h_rch cur hcur_mem) (hadj_fresh i hi)
      have ord2 : sord ++ [lab] = (dq ++ [cur]).filterMap (labelOf g._key) := by
        rw [List.filterMap_append, ← h_ord]
        simp [List.filterMap_cons, hlab]
      have meas2 : ((Finset.range g._size).filter
            (fun i => visGet vis2 i = false)).card + (rest ++ fresh).length < f := by
        have hfr_sub : fresh.toFinset ⊆
            (Finset.range g._size).filter (fun i => visGet svis i = false) := by
          intro x hx
          rw [List.mem_toFinset] at hx
          rw [Finset.mem_filter, Finset.mem_range]
          exact ⟨hfresh_sz x hx, (hfresh x hx).1⟩
        have hcard := Finset.card_sdiff_add_card_eq_card hfr_sub
        have hflt : (Finset.range g._size).filter (fun i => visGet vis2 i = false)
            = ((Finset.range g._size).filter (fun i => visGet svis i = false))
              \ fresh.toFinset := by
          ext x
          simp only [Finset.mem_filter, Finset.mem_range, Finset.mem_sdiff,
            List.mem_toFinset]
          constructor
          · rintro ⟨hxr, hxf⟩
            have hnx : ¬ (visGet svis x = true ∨ x ∈ fresh) := by
              intro hcontra
              rw [(hvis2 x).mpr hcontra] at hxf
              exact Bool.noConfusion hxf
            have h1 : visGet svis x = false := by
              rcases hb : visGet svis x with _ | _
              · rfl
              · exact absurd (Or.inl hb) hnx
            exact ⟨⟨hxr, h1⟩, fun hf => hnx (Or.inr hf)⟩
          · rintro ⟨⟨hxr, hxf⟩, hxnf⟩
            refine ⟨hxr, ?_⟩
            have hnt : ¬ visGet vis2 x = true := by
              rw [hvis2 x]
              rintro (hh | hh)
              · rw [hxf] at hh
                exact Bool.noConfusion hh
              · exact hxnf hh
            rw [Bool.not_eq_true] at hnt
            exact hnt
        have hfrcard : fresh.toFinset.card = fresh.length :=
          List.toFinset_card_of_nodup hndf
        rw [hflt, List.length_append]
        simp only [List.length_cons] at hm
        omega
      obtain ⟨stf, dqf, hrun, ho, hn, hs, hr, hd1, hd2, hc⟩ :=
        ih ⟨rest ++ fresh, vis2, sord ++ [lab]⟩ (dq ++ [cur])
          len2 nd2 sz2 vis2c clo2 rch2 ord2 meas2
      refine ⟨stf, dqf, ?_, ho, hn, hs, hr, ?_, ?_, hc⟩
      · rw [hstep]
        exact hrun
      · intro i hi
        exact hd1 i (List.mem_append_left _ hi)
      · intro i hi
        rcases List.mem_cons.mp hi with hi | hi
        · rw [hi]
          exact hd1 cur (List.mem_append_right _ (List.mem_singleton.mpr rfl))
        · exact hd2 i (List.mem_append_left _ hi)

/-- Claim C8: on a well-formed matrix graph with an existing source label,
the recorded BFS succeeds and its visitation sequence lists the labels of
exactly the vertices reachable from the source through non-zero-weight
edges, each exactly once; on the chain A–B–C with unit weights started at A
it returns [A, B, C]. -/
theorem bfs_visits_exactly_reachable :
    (∀ (g : UndiGraph) (source : String) (root : ℕ),
      UWF g → idxOfLabel g source = some root →
      ∃ ord, bfs g source true = some (some ord) ∧ ord.Nodup ∧
        ∀ lab, lab ∈ ord ↔ ∃ i, idxOfLabel g lab = some i ∧ reachIdx g root i) ∧
    chainG.bind (fun g => bfs g "A" true) = some (some ["A", "B", "C"]) := by
  constructor
  · intro g source root hwf hroot
    have hroot_sz : root < g._size := by
      have hmem := alookup_mem hroot
      exact hwf.2.2.1 (source, root) hmem
    have hlen0 : ((List.replicate g._size false).set root true).length = g._size := by
      rw [List.length_set, List.length_replicate]
    have hvis0 : ∀ x, visGet ((List.replicate g._size false).set root true) x = true ↔
        x ∈ ([] : List ℕ) ++ [root] := by
      intro x
      constructor
      · intro hx
        by_cases hxr : x = root
        · rw [hxr]
          exact List.mem_append_right _ (List.mem_singleton.mpr rfl)
        · rw [visGet_set_other (fun he => hxr he.symm), visGet_replicate] at hx
          exact Bool.noConfusion hx
      · intro hx
        have hxr : x = root := by
          rcases List.mem_append.mp hx with hx | hx
          · exact absurd hx (List.not_mem_nil x)
          · exact List.mem_singleton.mp hx
        rw [hxr]
        refine visGet_set_self ?_
        rw [List.length_replicate]
        exact hroot_sz
    have hmeas0 : ((Finset.range g._size).filter
        (fun i => visGet ((List.replicate g._size false).set root true) i = false)).card
        + ([root] : List ℕ).length < g._size + 1 := by
      have hsub : (Finset.range g._size).filter
          (fun i => visGet ((List.replicate g._size false).set root true) i = false)
          ⊆ Finset.range g._size := Finset.filter_subset _ _
      have hroot_not : root ∉ (Finset.range g._size).filter
          (fun i => visGet ((List.replicate g._size false).set root true) i = false) := by
        rw [Finset.mem_filter]
        rintro ⟨_, hf⟩
        rw [visGet_set_self (by rw [List.length_replicate]; exact hroot_sz)] at hf
        exact Bool.noConfusion hf
      have hss : (Finset.range g._size).filter
          (fun i => visGet ((List.replicate g._size false).set root true) i = false)
          ⊂ Finset.range g._size := by
        rw [Finset.ssubset_iff_of_subset hsub]
        exact ⟨root, Finset.mem_range.mpr hroot_sz, hroot_not⟩
      have hlt := Finset.card_lt_card hss
      rw [Finset.card_range] at hlt
      simp only [List.length_singleton]
      omega
    obtain ⟨stf, dqf, hrun, ho, hn, hs, hr, hd1, hd2, hc⟩ :=
      uLoop_run g root hwf (g._size + 1)
        ⟨[root], (List.replicate g._size false).set root true, []⟩ []
        hlen0 (by simp)
        (by
          intro i hi
          simp only [List.nil_append, List.mem_singleton] at hi
          rw [hi]
          exact hroot_sz)
        hvis0
        (fun i hi => absurd hi (List.not_mem_nil i))
        (by
          intro i hi
          simp only [List.nil_append, List.mem_singleton] at hi
          rw [hi]
          exact Relation.ReflTransGen.refl)
        rfl
        hmeas0
    have hroot_dqf : root ∈ dqf := hd2 root (List.mem_singleton.mpr rfl)
    have hreach_in : ∀ i, reachIdx g root i → i ∈ dqf := by
      intro i hi
      induction hi with
      | refl => exact hroot_dqf
      | tail h1 h2 ih => exact hc _ ih _ h2
    refine ⟨stf.order, ?_, ?_, ?_⟩
    · rw [bfs, hroot]
      simp only []
      rw [hrun]
      simp only []
      rw [if_pos trivial]
    · rw [ho]
      refine List.Nodup.filterMap ?_ hn
      intro a b lab hla hlb
      rw [Option.mem_def] at hla hlb
      have ha := labelOf_mem _ _ _ hla
      have hb := labelOf_mem _ _ _ hlb
      have h1 := alookup_of_mem_nodup hwf.1 ha
      have h2 := alookup_of_mem_nodup hwf.1 hb
      rw [h1] at h2
      exact Option.some.inj h2
    · intro lab
      rw [ho, List.mem_filterMap]
      constructor
      · rintro ⟨i, hidqf, hli⟩
        refine ⟨i, ?_, hr i hidqf⟩
        exact alookup_of_mem_nodup hwf.1 (labelOf_mem _ _ _ hli)
      · rintro ⟨i, hlook, hreach⟩
        refine ⟨i, hreach_in i hreach, ?_⟩
        exact labelOf_of_mem_nodup _ _ _ hwf.2.1 (alookup_mem hlook)
  · decide

/-- Concrete instantiation of `bfs_visits_exactly_reachable` on the chain
A–B–C. -/
theorem bfs_visits_exactly_reachable_witness :
    ∃ g : UndiGraph, chainG = some g ∧ UWF g ∧ idxOfLabel g "A" = some 0 ∧
      ∃ ord, bfs g "A" true = some (some ord) ∧ ord.Nodup ∧
        ∀ lab, lab ∈ ord ↔ ∃ i, idxOfLabel g lab = some i ∧ reachIdx g 0 i :=
  ⟨⟨[("A", 0), ("B", 1), ("C", 2)], 3, [[0, 1, 0], [1, 0, 1], [0, 1, 0]]⟩,
    by decide, by decide, by decide,
    bfs_visits_exactly_reachable.1
      ⟨[("A", 0), ("B", 1), ("C", 2)], 3, [[0, 1, 0], [1, 0, 1], [0, 1, 0]]⟩
      "A" 0 (by decide) (by decide)⟩

end Undirected

/-! ## Kosaraju SCC (claim C4) -/

theorem alookup_aupdate_eq {α β : Type} [DecidableEq α] (f : β → β) (a : α)
    (l : List (α × β)) : alookup (aupdate f a l) a = (alookup l a).map f := by
  induction l with
  | nil => rfl
  | cons p rest ih =>
    obtain ⟨k, b⟩ := p
    by_cases hk : k = a
    · subst hk
      simp [aupdate, alookup]
    · simp [aupdate, alookup, hk, ih]

namespace Directed

theorem DiSkel_keys (g : DiGraph) : (DiSkel g).map Prod.fst = nodeIds g := by
  simp [DiSkel, nodeIds]

theorem alookup_DiSkel (g : DiGraph) (k : String) :
    alookup (DiSkel g) k = (getNode g k).map nodeAdj := by
  unfold getNode DiSkel
  induction g.nodes with
  | nil => simp [alookup]
  | cons p rest ih =>
    by_cases h : p.1 = k <;> simp [alookup, h, ih]

theorem skel_nodeIds {g1 g2 : DiGraph} (h : DiSkel g1 = DiSkel g2) :
    nodeIds g1 = nodeIds g2 := by
  rw [← DiSkel_keys, ← DiSkel_keys, h]

theorem skel_getNode {g1 g2 : DiGraph} (h : DiSkel g1 = DiSkel g2) (x : String) :
    (getNode g1 x).map nodeAdj = (getNode g2 x).map nodeAdj := by
  rw [← alookup_DiSkel, ← alookup_DiSkel, h]

theorem skel_getNode_some {g1 g2 : DiGraph} (h : DiSkel g1 = DiSkel g2) {x : String}
    {nd : Node} (hnd : getNode g1 x = some nd) :
    ∃ nd2, getNode g2 x = some nd2 ∧ nd2.id = nd.id ∧ nd2._in = nd._in ∧
      nd2._out = nd._out := by
  have hs := skel_getNode h x
  rw [hnd] at hs
  cases hg2 : getNode g2 x with
  | none =>
    rw [hg2] at hs
    simp only [Option.map] at hs
    exact Option.noConfusion hs
  | some nd2 =>
    rw [hg2] at hs
    simp only [Option.map] at hs
    have hadj : nodeAdj nd = nodeAdj nd2 := Option.some.inj hs
    refine ⟨nd2, rfl, ?_, ?_, ?_⟩
    · exact (congrArg (fun t => t.1) hadj).symm
    · exact (congrArg (fun t => t.2.1) hadj).symm
    · exact (congrArg (fun t => t.2.2) hadj).symm

theorem edgeStep_skel {g1 g2 : DiGraph} (h : DiSkel g1 = DiSkel g2) (u v : String) :
    edgeStep g1 u v ↔ edgeStep g2 u v := by
  constructor
  · rintro ⟨nd, hnd, hv⟩
    obtain ⟨nd2, hnd2, _, _, hout⟩ := skel_getNode_some h hnd
    exact ⟨nd2, hnd2, hout ▸ hv⟩
  · rintro ⟨nd, hnd, hv⟩
    obtain ⟨nd2, hnd2, _, _, hout⟩ := skel_getNode_some h.symm hnd
    exact ⟨nd2, hnd2, hout ▸ hv⟩

theorem reach_skel {g1 g2 : DiGraph} (h : DiSkel g1 = DiSkel g2) {u v : String}
    (hr : Reach g1 u v) : Reach g2 u v :=
  Relation.ReflTransGen.mono (fun a b hab => (edgeStep_skel h a b).mp hab) hr

theorem DiSkel_setVisited (g : DiGraph) (v : String) :
    DiSkel (setVisited g v) = DiSkel g := by
  unfold DiSkel setVisited
  exact map_proj_aupdate (fun n => { n with visited := true }) nodeAdj
    (fun _ => rfl) v g.nodes

theorem DiSkel_setRep (g : DiGraph) (v r : String) :
    DiSkel (setRep g v r) = DiSkel g := by
  unfold DiSkel setRep
  exact map_proj_aupdate (fun n => { n with _scc_rep := some r }) nodeAdj
    (fun _ => rfl) v g.nodes

theorem rep_setVisited (g : DiGraph) (v x : String) :
    rep (setVisited g v) x = rep g x := by
  unfold rep getNode setVisited
  by_cases hxv : x = v
  · subst hxv
    rw [alookup_aupdate_eq]
    cases alookup g.nodes x <;> rfl
  · rw [alookup_aupdate_other _ hxv]

theorem visOf_setRep (g : DiGraph) (v r x : String) :
    visOf (setRep g v r) x = visOf g x := by
  unfold visOf getNode setRep
  by_cases hxv : x = v
  · subst hxv
    rw [alookup_aupdate_eq]
    cases alookup g.nodes x <;> rfl
  · rw [alookup_aupdate_other _ hxv]

theorem rep_setRep_self {g : DiGraph} {v : String} (r : String) {nd : Node}
    (h : getNode g v = some nd) : rep (setRep g v r) v = some r := by
  unfold rep getNode setRep
  unfold getNode at h
  rw [alookup_aupdate_eq, h]
  rfl

theorem rep_setRep_other (g : DiGraph) (v r : String) {x : String} (hxv : x ≠ v) :
    rep (setRep g v r) x = rep g x := by
  unfold rep getNode setRep
  rw [alookup_aupdate_other _ hxv]

theorem visOf_setVisited_self {g : DiGraph} {v : String} {nd : Node}
    (h : getNode g v = some nd) : visOf (setVisited g v) v = true := by
  unfold visOf getNode setVisited
  unfold getNode at h
  rw [alookup_aupdate_eq, h]
  rfl

theorem visOf_setVisited_other (g : DiGraph) (v : String) {x : String} (hxv : x ≠ v) :
    visOf (setVisited g v) x = visOf g x := by
  unfold visOf getNode setVisited
  rw [alookup_aupdate_other _ hxv]

theorem rep_none_of_resetAll (g : DiGraph) (x : String) : rep (resetAll g) x = none := by
  unfold rep getNode resetAll
  have : alookup (g.nodes.map
      (fun p => (p.1, { p.2 with visited := false, _scc_rep := none }))) x
      = (alookup g.nodes x).map (fun n => { n with visited := false, _scc_rep := none }) := by
    induction g.nodes with
    | nil => rfl
    | cons p rest ih =>
      by_cases h : p.1 = x <;> simp [alookup, h, ih]
  rw [this]
  cases alookup g.nodes x <;> rfl

theorem DiSkel_resetAll (g : DiGraph) : DiSkel (resetAll g) = DiSkel g := by
  unfold DiSkel resetAll
  rw [List.map_map]
  rfl

theorem nodeIds_setVisited (g : DiGraph) (v : String) :
    nodeIds (setVisited g v) = nodeIds g := by
  unfold nodeIds setVisited
  exact aupdate_keys _ _ _

theorem nodeIds_setRep (g : DiGraph) (v r : String) :
    nodeIds (setRep g v r) = nodeIds g := by
  unfold nodeIds setRep
  exact aupdate_keys _ _ _

theorem visOf_true_getNode {g : DiGraph} {x : String} (h : visOf g x = true) :
    ∃ nd, getNode g x = some nd ∧ nd.visited = true := by
  unfold visOf at h
  cases hg : getNode g x with
  | none =>
    rw [hg] at h
    exact Bool.noConfusion h
  | some nd =>
    rw [hg] at h
    exact ⟨nd, rfl, h⟩

theorem visOf_setVisited_mono {g : DiGraph} {x : String} (v : String)
    (h : visOf g x = true) : visOf (setVisited g v) x = true := by
  by_cases hxv : x = v
  · subst hxv
    obtain ⟨nd, hnd, _⟩ := visOf_true_getNode h
    exact visOf_setVisited_self hnd
  · rw [visOf_setVisited_other g v hxv]
    exact h

theorem getNode_mem_nodeIds {g : DiGraph} {x : String} {nd : Node}
    (h : getNode g x = some nd) : x ∈ nodeIds g := by
  have hs : (alookup g.nodes x).isSome := by
    unfold getNode at h
    rw [h]
    rfl
  exact (alookup_isSome_iff_mem g.nodes x).mp hs

/-- What a DFS run preserves: the adjacency skeleton, every representative,
monotone visited flags, and the ordering only gains registered vertices. -/
theorem dfsStep_spec : ∀ (f : ℕ) (σ : DiGraph) (vs ord : List String)
    (g2 : DiGraph) (ord2 : List String),
    dfsStep f σ vs ord = some (g2, ord2) →
    DiSkel g2 = DiSkel σ ∧ (∀ x, rep g2 x = rep σ x) ∧
    (∀ x, visOf σ x = true → visOf g2 x = true) ∧
    (∀ x ∈ ord2, x ∈ ord ∨ x ∈ nodeIds σ) := by
  intro f
  induction f with
  | zero =>
    intro σ vs ord g2 ord2 h
    rw [dfsStep] at h
    exact Option.noConfusion h
  | succ f ih =>
    intro σ vs ord g2 ord2 h
    cases vs with
    | nil =>
      rw [dfsStep] at h
      simp only [Option.some.injEq, Prod.mk.injEq] at h
      obtain ⟨h1, h2⟩ := h
      subst h1
      subst h2
      exact ⟨rfl, fun _ => rfl, fun _ hx => hx, fun x hx => Or.inl hx⟩
    | cons v vs =>
      rw [dfsStep] at h
      cases hg : getNode σ v with
      | none =>
        rw [hg] at h
        exact ih σ vs ord g2 ord2 h
      | some nd =>
        rw [hg] at h
        simp only [] at h
        by_cases hv : nd.visited = true
        · rw [if_pos hv] at h
          exact ih σ vs ord g2 ord2 h
        · rw [if_neg hv] at h
          cases hsub : dfsStep f (setVisited σ v) nd._out ord with
          | none =>
            rw [hsub] at h
            exact Option.noConfusion h
          | some pr =>
            obtain ⟨σa, orda⟩ := pr
            rw [hsub] at h
            simp only [] at h
            obtain ⟨s1, s2, s3, s4⟩ := ih (setVisited σ v) nd._out ord σa orda hsub
            obtain ⟨t1, t2, t3, t4⟩ := ih σa vs (v :: orda) g2 ord2 h
            refine ⟨?_, ?_, ?_, ?_⟩
            · rw [t1, s1, DiSkel_setVisited]
            · intro x
              rw [t2 x, s2 x, rep_setVisited]
            · intro x hx
              exact t3 x (s3 x (visOf_setVisited_mono v hx))
            · intro x hx
              rcases t4 x hx with hx2 | hx2
              · rcases List.mem_cons.mp hx2 with hx3 | hx3
                · rw [hx3]
                  exact Or.inr (getNode_mem_nodeIds hg)
                · rcases s4 x hx3 with hx4 | hx4
                  · exact Or.inl hx4
                  · rw [nodeIds_setVisited] at hx4
                    exact Or.inr hx4
              · rw [skel_nodeIds s1, nodeIds_setVisited] at hx2
                exact Or.inr hx2

/-- The DFS completes whenever the fuel exceeds the pending list plus the
weighted count of unvisited registered vertices. -/
theorem dfsStep_completes (g0 : DiGraph) :
    ∀ (f : ℕ) (σ : DiGraph) (vs ord : List String),
    DiSkel σ = DiSkel g0 →
    vs.length + ∑ x in ((nodeIds g0).toFinset.filter (fun y => visOf σ y = false)),
      (1 + (match getNode g0 x with | some nd => nd._out.length | none => 0)) < f →
    ∃ res, dfsStep f σ vs ord = some res := by
  intro f
  induction f with
  | zero =>
    intro σ vs ord _ hm
    exact absurd hm (Nat.not_lt_zero _)
  | succ f ih =>
    intro σ vs ord hskel hm
    cases vs with
    | nil => exact ⟨(σ, ord), rfl⟩
    | cons v vs =>
      rw [dfsStep]
      cases hg : getNode σ v with
      | none =>
        refine ih σ vs ord hskel ?_
        simp only [List.length_cons] at hm
        omega
      | some nd =>
        simp only []
        by_cases hv : nd.visited = true
        · rw [if_pos hv]
          refine ih σ vs ord hskel ?_
          simp only [List.length_cons] at hm
          omega
        · rw [if_neg hv]
          rw [Bool.not_eq_true] at hv
          have hvf : visOf σ v = false := by
            unfold visOf
            rw [hg]
            exact hv
          have hv_reg : v ∈ nodeIds g0 := by
            rw [← skel_nodeIds hskel]
            exact getNode_mem_nodeIds hg
          have hv_filt : v ∈ (nodeIds g0).toFinset.filter (fun y => visOf σ y = false) := by
            rw [Finset.mem_filter, List.mem_toFinset]
            exact ⟨hv_reg, hvf⟩
          obtain ⟨nd0, hnd0, _, _, hout0⟩ := skel_getNode_some hskel hg
          have hskel2 : DiSkel (setVisited σ v) = DiSkel g0 := by
            rw [DiSkel_setVisited]
            exact hskel
          have hfilt_new : ((nodeIds g0).toFinset.filter
              (fun y => visOf (setVisited σ v) y = false))
              = ((nodeIds g0).toFinset.filter (fun y => visOf σ y = false)).erase v := by
            ext x
            rw [Finset.mem_erase, Finset.mem_filter, Finset.mem_filter]
            by_cases hxv : x = v
            · subst hxv
              constructor
              · rintro ⟨_, hf⟩
                rw [visOf_setVisited_self hg] at hf
                exact Bool.noConfusion hf
              · rintro ⟨hne, _⟩
                exact absurd rfl hne
            · rw [visOf_setVisited_other σ v hxv]
              constructor
              · rintro ⟨hxn, hf⟩
                exact ⟨hxv, hxn, hf⟩
              · rintro ⟨_, hxn, hf⟩
                exact ⟨hxn, hf⟩
          have hsum := Finset.sum_erase_add
            ((nodeIds g0).toFinset.filter (fun y => visOf σ y = false))
            (fun x => 1 + (match getNode g0 x with
              | some nd => nd._out.length | none => 0)) hv_filt
          have houtv : (match getNode g0 v with
              | some nd => nd._out.length | none => 0) = nd._out.length := by
            rw [hnd0]
            simp only []
            rw [hout0]
          simp only [] at hsum
          rw [houtv] at hsum
          obtain ⟨resa, hsuba⟩ := ih (setVisited σ v) nd._out ord hskel2
            (by
              rw [hfilt_new]
              simp only [List.length_cons] at hm
              omega)
          obtain ⟨σa, orda⟩ := resa
          rw [hsuba]
          simp only []
          obtain ⟨s1, _, s3, _⟩ := dfsStep_spec f (setVisited σ v) nd._out ord σa orda hsuba
          refine ih σa vs (v :: orda) (by rw [s1]; exact hskel2) ?_
          have hsub_filt : ((nodeIds g0).toFinset.filter (fun y => visOf σa y = false))
              ⊆ ((nodeIds g0).toFinset.filter
                (fun y => visOf (setVisited σ v) y = false)) := by
            intro x hx
            rw [Finset.mem_filter] at hx ⊢
            refine ⟨hx.1, ?_⟩
            rcases hb : visOf (setVisited σ v) x with _ | _
            · rfl
            · rw [s3 x hb] at hx
              exact absurd hx.2 (by simp)
          have hle := Finset.sum_le_sum_of_subset hsub_filt
            (f := fun x => 1 + (match getNode g0 x with
              | some nd => nd._out.length | none => 0))
          rw [hfilt_new] at hle
          simp only [] at hle
          simp only [List.length_cons] at hm
          omega

theorem foldl_add_eq_sum {α : Type} (g : α → ℕ) :
    ∀ (l : List α) (a : ℕ), l.foldl (fun acc x => acc + g x) a = a + (l.map g).sum := by
  intro l
  induction l with
  | nil => intro a; simp
  | cons x rest ih =>
    intro a
    rw [List.foldl_cons, ih, List.map_cons, List.sum_cons]
    omega

theorem finset_sum_le_list_sum (f : String → ℕ) :
    ∀ l : List String, ∑ x in l.toFinset, f x ≤ (l.map f).sum := by
  intro l
  induction l with
  | nil => simp
  | cons a t ih =>
    rw [List.toFinset_cons, List.map_cons, List.sum_cons]
    by_cases ha : a ∈ t.toFinset
    · rw [Finset.insert_eq_self.mpr ha]
      omega
    · rw [Finset.sum_insert ha]
      omega

theorem sum_map_one_add (h : String → ℕ) :
    ∀ l : List String, (l.map (fun k => 1 + h k)).sum = l.length + (l.map h).sum := by
  intro l
  induction l with
  | nil => simp
  | cons a t ih =>
    simp only [List.map_cons, List.sum_cons, List.length_cons, ih]
    omega

theorem DiSkel_nodes_length {g1 g2 : DiGraph} (h : DiSkel g1 = DiSkel g2) :
    g1.nodes.length = g2.nodes.length := by
  have h1 : (DiSkel g1).length = (DiSkel g2).length := by rw [h]
  unfold DiSkel at h1
  rw [List.length_map, List.length_map] at h1
  exact h1

theorem DiSkel_out_sum {g1 g2 : DiGraph} (h : DiSkel g1 = DiSkel g2) :
    (g1.nodes.map (fun p => p.2._out.length)).sum
      = (g2.nodes.map (fun p => p.2._out.length)).sum := by
  have h1 : ((DiSkel g1).map (fun q => q.2.2.2.length)).sum
      = ((DiSkel g2).map (fun q => q.2.2.2.length)).sum := by rw [h]
  unfold DiSkel at h1
  rw [List.map_map, List.map_map] at h1
  exact h1

theorem DiSkel_in_sum {g1 g2 : DiGraph} (h : DiSkel g1 = DiSkel g2) :
    (g1.nodes.map (fun p => p.2._in.length)).sum
      = (g2.nodes.map (fun p => p.2._in.length)).sum := by
  have h1 : ((DiSkel g1).map (fun q => q.2.2.1.length)).sum
      = ((DiSkel g2).map (fun q => q.2.2.1.length)).sum := by rw [h]
  unfold DiSkel at h1
  rw [List.map_map, List.map_map] at h1
  exact h1

theorem dfsFuel_adequate (g0 : DiGraph) (hnd : (nodeIds g0).Nodup) (σ : DiGraph)
    (hskel : DiSkel σ = DiSkel g0) :
    1 + ∑ x in ((nodeIds g0).toFinset.filter (fun y => visOf σ y = false)),
      (1 + (match getNode g0 x with | some nd => nd._out.length | none => 0))
      < dfsFuel σ := by
  have h1 : ∑ x in ((nodeIds g0).toFinset.filter (fun y => visOf σ y = false)),
      (1 + (match getNode g0 x with | some nd => nd._out.length | none => 0))
      ≤ ∑ x in (nodeIds g0).toFinset,
        (1 + (match getNode g0 x with | some nd => nd._out.length | none => 0)) :=
    Finset.sum_le_sum_of_subset (Finset.filter_subset _ _)
  have h2 := finset_sum_le_list_sum
    (fun x => 1 + (match getNode g0 x with | some nd => nd._out.length | none => 0))
    (nodeIds g0)
  have h3 := sum_map_one_add
    (fun x => (match getNode g0 x with | some nd => nd._out.length | none => 0))
    (nodeIds g0)
  have h4 : ((nodeIds g0).map
      (fun x => (match getNode g0 x with | some nd => nd._out.length | none => 0))).sum
      = (g0.nodes.map (fun p => p.2._out.length)).sum := by
    unfold nodeIds
    rw [List.map_map]
    refine congrArg List.sum (List.map_eq_map_iff.mpr ?_)
    intro p hp
    have hl : getNode g0 p.1 = some p.2 := alookup_of_mem_nodup hnd hp
    simp only [Function.comp]
    rw [hl]
  have h5 : (nodeIds g0).length = g0.nodes.length := by
    unfold nodeIds
    rw [List.length_map]
  have h6 : dfsFuel σ = g0.nodes.length
      + (g0.nodes.map (fun p => p.2._out.length)).sum + 2 := by
    unfold dfsFuel
    rw [foldl_add_eq_sum, DiSkel_nodes_length hskel, DiSkel_out_sum hskel]
    omega
  rw [h6]
  rw [h3, h4, h5] at h2
  omega

theorem nodeIds_resetAll (g : DiGraph) : nodeIds (resetAll g) = nodeIds g :=
  skel_nodeIds (DiSkel_resetAll g)

theorem pass1_fold (g : DiGraph) (hnd : (nodeIds g).Nodup) :
    ∀ (vs : List String) (σ : DiGraph) (ord : List String),
    DiSkel σ = DiSkel g → (∀ x, rep σ x = none) → (∀ x ∈ ord, x ∈ nodeIds g) →
    ∃ g1 ord1, vs.foldl (fun acc v => match acc with
        | none => none
        | some (g1, ord) => dfsStep (dfsFuel g1) g1 [v] ord) (some (σ, ord))
        = some (g1, ord1) ∧
      DiSkel g1 = DiSkel g ∧ (∀ x, rep g1 x = none) ∧
      (∀ x ∈ ord1, x ∈ nodeIds g) := by
  intro vs
  induction vs with
  | nil =>
    intro σ ord h1 h2 h3
    exact ⟨σ, ord, rfl, h1, h2, h3⟩
  | cons v vs ih =>
    intro σ ord h1 h2 h3
    rw [List.foldl_cons]
    simp only []
    obtain ⟨res, hres⟩ := dfsStep_completes g (dfsFuel σ) σ [v] ord h1
      (by
        have hb := dfsFuel_adequate g hnd σ h1
        simp only [List.length_singleton]
        omega)
    obtain ⟨σa, orda⟩ := res
    rw [hres]
    obtain ⟨s1, s2, _, s4⟩ := dfsStep_spec (dfsFuel σ) σ [v] ord σa orda hres
    refine ih σa orda (by rw [s1]; exact h1) (fun x => by rw [s2 x]; exact h2 x) ?_
    intro x hx
    rcases s4 x hx with hx | hx
    · exact h3 x hx
    · rw [skel_nodeIds h1] at hx
      exact hx

/-- The first pass always succeeds on a well-formed graph and only flips
visited flags: the adjacency and the (reset) representatives survive, and
the ordering lists registered vertices. -/
theorem pass1_ok (g : DiGraph) (hnd : (nodeIds g).Nodup) :
    ∃ g1 ord, pass1 (resetAll g) = some (g1, ord) ∧ DiSkel g1 = DiSkel g ∧
      (∀ x, rep g1 x = none) ∧ (∀ x ∈ ord, x ∈ nodeIds g) := by
  obtain ⟨g1, ord1, he, h1, h2, h3⟩ := pass1_fold g hnd (nodeIds (resetAll g))
    (resetAll g) [] (DiSkel_resetAll g) (rep_none_of_resetAll g)
    (fun x hx => absurd hx (List.not_mem_nil x))
  refine ⟨g1, ord1, ?_, h1, h2, h3⟩
  rw [pass1]
  exact he

theorem rep_some_getNode {g : DiGraph} {x : String} {k : String}
    (h : rep g x = some k) : ∃ nd, getNode g x = some nd ∧ nd._scc_rep = some k := by
  unfold rep at h
  cases hg : getNode g x with
  | none =>
    rw [hg] at h
    exact Option.noConfusion h
  | some nd =>
    rw [hg] at h
    exact ⟨nd, rfl, h⟩

/-- What one (fused) `_assign` call guarantees: the skeleton survives,
existing representatives are kept, every new representative is the root,
every registered pending vertex ends up assigned, and a vertex newly
assigned the root has its whole in-neighbourhood assigned afterwards. -/
theorem assignStep_spec (root : String) : ∀ (f : ℕ) (σ : DiGraph)
    (vs : List String) (σ2 : DiGraph),
    assignStep f σ vs root = some σ2 →
    DiSkel σ2 = DiSkel σ ∧
    (∀ x k, rep σ x = some k → rep σ2 x = some k) ∧
    (∀ x k, rep σ2 x = some k → rep σ x = some k ∨ (k = root ∧ rep σ x = none)) ∧
    (∀ v ∈ vs, v ∈ nodeIds σ → rep σ2 v ≠ none) ∧
    (∀ w, rep σ w = none → rep σ2 w = some root → ∀ nd, getNode σ2 w = some nd →
      ∀ p ∈ nd._in, p ∈ nodeIds σ → rep σ2 p ≠ none) := by
  intro f
  induction f with
  | zero =>
    intro σ vs σ2 h
    rw [assignStep] at h
    exact Option.noConfusion h
  | succ f ih =>
    intro σ vs σ2 h
    cases vs with
    | nil =>
      rw [assignStep] at h
      cases Option.some.inj h
      refine ⟨rfl, fun x k hx => hx, fun x k hx => Or.inl hx, ?_, ?_⟩
      · intro v hv
        exact absurd hv (List.not_mem_nil v)
      · intro w hw hw2
        rw [hw] at hw2
        exact Option.noConfusion hw2
    | cons v vs =>
      rw [assignStep] at h
      cases hg : getNode σ v with
      | none =>
        rw [hg] at h
        obtain ⟨c1, c2, c3, c4, c5⟩ := ih σ vs σ2 h
        refine ⟨c1, c2, c3, ?_, c5⟩
        intro v2 hv2 hreg
        rcases List.mem_cons.mp hv2 with hv2 | hv2
        · subst hv2
          have := (alookup_eq_none_iff σ.nodes v2).mp hg
          exact absurd hreg this
        · exact c4 v2 hv2 hreg
      | some nd =>
        rw [hg] at h
        simp only [] at h
        have hvrep : rep σ v = nd._scc_rep := by
          unfold rep
          rw [hg]
        cases hrep : nd._scc_rep with
        | some k0 =>
          rw [hrep] at h
          obtain ⟨c1, c2, c3, c4, c5⟩ := ih σ vs σ2 h
          refine ⟨c1, c2, c3, ?_, c5⟩
          intro v2 hv2 hreg
          rcases List.mem_cons.mp hv2 with hv2 | hv2
          · subst hv2
            have hsome : rep σ v2 = some k0 := by rw [hvrep, hrep]
            rw [c2 v2 k0 hsome]
            exact Option.noConfusion
          · exact c4 v2 hv2 hreg
        | none =>
          rw [hrep] at h
          simp only [] at h
          have hvnone : rep σ v = none := by rw [hvrep, hrep]
          cases hsub : assignStep f (setRep σ v root) nd._in root with
          | none =>
            rw [hsub] at h
            exact Option.noConfusion h
          | some σa =>
            rw [hsub] at h
            simp only [] at h
            obtain ⟨a1, a2, a3, a4, a5⟩ := ih (setRep σ v root) nd._in σa hsub
            obtain ⟨b1, b2, b3, b4, b5⟩ := ih σa vs σ2 h
            have hvset : rep (setRep σ v root) v = some root := rep_setRep_self root hg
            have hva : rep σa v = some root := a2 v root hvset
            have hv2 : rep σ2 v = some root := b2 v root hva
            have hskel_sv : DiSkel (setRep σ v root) = DiSkel σ := DiSkel_setRep σ v root
            have hids_sv : nodeIds (setRep σ v root) = nodeIds σ := skel_nodeIds hskel_sv
            have hids_a : nodeIds σa = nodeIds σ := by
              rw [skel_nodeIds a1, hids_sv]
            have hkeepσ : ∀ x k, rep σ x = some k → rep σa x = some k := by
              intro x k hx
              by_cases hxv : x = v
              · subst hxv
                rw [hvnone] at hx
                exact Option.noConfusion hx
              · exact a2 x k (by rw [rep_setRep_other σ v root hxv]; exact hx)
            have hnewa : ∀ x k, rep σa x = some k →
                rep σ x = some k ∨ (k = root ∧ rep σ x = none) := by
              intro x k hx
              rcases a3 x k hx with hx2 | ⟨hk, hx2⟩
              · by_cases hxv : x = v
                · subst hxv
                  rw [hvset] at hx2
                  exact Or.inr ⟨(Option.some.inj hx2).symm, hvnone⟩
                · rw [rep_setRep_other σ v root hxv] at hx2
                  exact Or.inl hx2
              · by_cases hxv : x = v
                · subst hxv
                  rw [hvset] at hx2
                  exact Option.noConfusion hx2
                · rw [rep_setRep_other σ v root hxv] at hx2
                  exact Or.inr ⟨hk, hx2⟩
            have hnonea : ∀ x, rep σa x = none → rep σ x = none := by
              intro x hx
              cases hx2 : rep σ x with
              | none => rfl
              | some k =>
                rw [hkeepσ x k hx2] at hx
                exact Option.noConfusion hx
            refine ⟨?_, ?_, ?_, ?_, ?_⟩
            · rw [b1, a1, hskel_sv]
            · intro x k hx
              exact b2 x k (hkeepσ x k hx)
            · intro x k hx
              rcases b3 x k hx with hx2 | ⟨hk, hx2⟩
              · exact hnewa x k hx2
              · exact Or.inr ⟨hk, hnonea x hx2⟩
            · intro v2 hv2m hreg
              rcases List.mem_cons.mp hv2m with hv2m | hv2m
              · subst hv2m
                rw [hv2]
                exact Option.noConfusion
              · exact b4 v2 hv2m (by rw [hids_a]; exact hreg)
            · intro w hw hw2 ndw hndw p hp hpreg
              by_cases hwv : w = v
              · subst hwv
                have hskel2σ : DiSkel σ2 = DiSkel σ := by
                  rw [b1, a1, hskel_sv]
                obtain ⟨nd2, hnd2, _, hin2, _⟩ := skel_getNode_some hskel2σ hndw
                rw [hg] at hnd2
                cases Option.some.inj hnd2
                rw [← hin2] at hp
                have hpa : rep σa p ≠ none :=
                  a4 p hp (by rw [hids_sv]; exact hpreg)
                cases hpk : rep σa p with
                | none => exact absurd hpk hpa
                | some k =>
                  rw [b2 p k hpk]
                  exact Option.noConfusion
              · cases hwa : rep σa w with
                | some ka =>
                  have hka : ka = root := by
                    have hthis := b2 w ka hwa
                    rw [hw2] at hthis
                    exact (Option.some.inj hthis).symm
                  rw [hka] at hwa
                  have hwsv : rep (setRep σ v root) w = none := by
                    rw [rep_setRep_other σ v root hwv]
                    exact hw
                  obtain ⟨nda, hnda, _, hina, _⟩ := skel_getNode_some
                    (by rw [b1] : DiSkel σ2 = DiSkel σa) hndw
                  have hpa := a5 w hwsv hwa nda hnda p (by rw [hina]; exact hp)
                    (by rw [hids_sv]; exact hpreg)
                  cases hpk : rep σa p with
                  | none => exact absurd hpk hpa
                  | some k =>
                    rw [b2 p k hpk]
                    exact Option.noConfusion
                | none =>
                  exact b5 w hwa hw2 ndw hndw p hp (by rw [hids_a]; exact hpreg)

/-- The assignment recursion completes whenever fuel exceeds the pending
list plus the weighted count of unassigned registered vertices. -/
theorem assignStep_completes (g0 : DiGraph) (root : String) :
    ∀ (f : ℕ) (σ : DiGraph) (vs : List String),
    DiSkel σ = DiSkel g0 →
    vs.length + ∑ x in ((nodeIds g0).toFinset.filter (fun y => rep σ y = none)),
      (1 + (match getNode g0 x with | some nd => nd._in.length | none => 0)) < f →
    ∃ σ2, assignStep f σ vs root = some σ2 := by
  intro f
  induction f with
  | zero =>
    intro σ vs _ hm
    exact absurd hm (Nat.not_lt_zero _)
  | succ f ih =>
    intro σ vs hskel hm
    cases vs with
    | nil => exact ⟨σ, rfl⟩
    | cons v vs =>
      rw [assignStep]
      cases hg : getNode σ v with
      | none =>
        refine ih σ vs hskel ?_
        simp only [List.length_cons] at hm
        omega
      | some nd =>
        simp only []
        have hvrep : rep σ v = nd._scc_rep := by
          unfold rep
          rw [hg]
        cases hrep : nd._scc_rep with
        | some k0 =>
          refine ih σ vs hskel ?_
          simp only [List.length_cons] at hm
          omega
        | none =>
          simp only []
          have hvnone : rep σ v = none := by rw [hvrep, hrep]
          have hv_reg : v ∈ nodeIds g0 := by
            rw [← skel_nodeIds hskel]
            exact getNode_mem_nodeIds hg
          have hv_filt : v ∈ (nodeIds g0).toFinset.filter (fun y => rep σ y = none) := by
            rw [Finset.mem_filter, List.mem_toFinset]
            exact ⟨hv_reg, hvnone⟩
          obtain ⟨nd0, hnd0, _, hin0, _⟩ := skel_getNode_some hskel hg
          have hskel2 : DiSkel (setRep σ v root) = DiSkel g0 := by
            rw [DiSkel_setRep]
            exact hskel
          have hfilt_new : ((nodeIds g0).toFinset.filter
              (fun y => rep (setRep σ v root) y = none))
              = ((nodeIds g0).toFinset.filter (fun y => rep σ y = none)).erase v := by
            ext x
            rw [Finset.mem_erase, Finset.mem_filter, Finset.mem_filter]
            by_cases hxv : x = v
            · subst hxv
              constructor
              · rintro ⟨_, hf⟩
                rw [rep_setRep_self root hg] at hf
                exact Option.noConfusion hf
              · rintro ⟨hne, _⟩
                exact absurd rfl hne
            · rw [rep_setRep_other σ v root hxv]
              constructor
              · rintro ⟨hxn, hf⟩
                exact ⟨hxv, hxn, hf⟩
              · rintro ⟨_, hxn, hf⟩
                exact ⟨hxn, hf⟩
          have hsum := Finset.sum_erase_add
            ((nodeIds g0).toFinset.filter (fun y => rep σ y = none))
            (fun x => 1 + (match getNode g0 x with
              | some nd => nd._in.length | none => 0)) hv_filt
          have hinv : (match getNode g0 v with
              | some nd => nd._in.length | none => 0) = nd._in.length := by
            rw [hnd0]
            simp only []
            rw [hin0]
          simp only [] at hsum
          rw [hinv] at hsum
          obtain ⟨σa, hsuba⟩ := ih (setRep σ v root) nd._in hskel2
            (by
              rw [hfilt_new]
              simp only [List.length_cons] at hm
              omega)
          rw [hsuba]
          simp only []
          obtain ⟨s1, s2, _, _, _⟩ := assignStep_spec root f (setRep σ v root) nd._in σa hsuba
          refine ih σa vs (by rw [s1]; exact hskel2) ?_
          have hsub_filt : ((nodeIds g0).toFinset.filter (fun y => rep σa y = none))
              ⊆ ((nodeIds g0).toFinset.filter
                (fun y => rep (setRep σ v root) y = none)) := by
            intro x hx
            rw [Finset.mem_filter] at hx ⊢
            refine ⟨hx.1, ?_⟩
            cases hb : rep (setRep σ v root) x with
            | none => rfl
            | some k =>
              rw [s2 x k hb] at hx
              exact absurd hx.2 (by simp)
          have hle := Finset.sum_le_sum_of_subset hsub_filt
            (f := fun x => 1 + (match getNode g0 x with
              | some nd => nd._in.length | none => 0))
          rw [hfilt_new] at hle
          simp only [] at hle
          simp only [List.length_cons] at hm
          omega

theorem assignFuel_adequate (g0 : DiGraph) (hnd : (nodeIds g0).Nodup) (σ : DiGraph)
    (hskel : DiSkel σ = DiSkel g0) :
    1 + ∑ x in ((nodeIds g0).toFinset.filter (fun y => rep σ y = none)),
      (1 + (match getNode g0 x with | some nd => nd._in.length | none => 0))
      < assignFuel σ := by
  have h1 : ∑ x in ((nodeIds g0).toFinset.filter (fun y => rep σ y = none)),
      (1 + (match getNode g0 x with | some nd => nd._in.length | none => 0))
      ≤ ∑ x in (nodeIds g0).toFinset,
        (1 + (match getNode g0 x with | some nd => nd._in.length | none => 0)) :=
    Finset.sum_le_sum_of_subset (Finset.filter_subset _ _)
  have h2 := finset_sum_le_list_sum
    (fun x => 1 + (match getNode g0 x with | some nd => nd._in.length | none => 0))
    (nodeIds g0)
  have h3 := sum_map_one_add
    (fun x => (match getNode g0 x with | some nd => nd._in.length | none => 0))
    (nodeIds g0)
  have h4 : ((nodeIds g0).map
      (fun x => (match getNode g0 x with | some nd => nd._in.length | none => 0))).sum
      = (g0.nodes.map (fun p => p.2._in.length)).sum := by
    unfold nodeIds
    rw [List.map_map]
    refine congrArg List.sum (List.map_eq_map_iff.mpr ?_)
    intro p hp
    have hl : getNode g0 p.1 = some p.2 := alookup_of_mem_nodup hnd hp
    simp only [Function.comp]
    rw [hl]
  have h5 : (nodeIds g0).length = g0.nodes.length := by
    unfold nodeIds
    rw [List.length_map]
  have h6 : assignFuel σ = g0.nodes.length
      + (g0.nodes.map (fun p => p.2._in.length)).sum + 2 := by
    unfold assignFuel
    rw [foldl_add_eq_sum, DiSkel_nodes_length hskel, DiSkel_in_sum hskel]
    omega
  rw [h6]
  rw [h3, h4, h5] at h2
  omega

/-- Mirrored adjacency: a listed in-neighbour really carries an edge. -/
theorem edge_of_mem_in {g0 : DiGraph} (hwf : DiWF g0) {v : String} {nd0 : Node}
    (hnd0 : getNode g0 v = some nd0) {p : String} (hp : p ∈ nd0._in) :
    edgeStep g0 p v := by
  have hvmem : (v, nd0) ∈ g0.nodes := alookup_mem hnd0
  have hpreg : p ∈ nodeIds g0 := (hwf.2.1 (v, nd0) hvmem).2.2 p hp
  have hsome : (alookup g0.nodes p).isSome := (alookup_isSome_iff_mem g0.nodes p).mpr hpreg
  cases hgp : alookup g0.nodes p with
  | none =>
    rw [hgp] at hsome
    exact Bool.noConfusion hsome
  | some ndp =>
    have hpmem : (p, ndp) ∈ g0.nodes := alookup_mem hgp
    have hmirror := hwf.2.2 (p, ndp) hpmem (v, nd0) hvmem
    exact ⟨ndp, hgp, hmirror.mpr hp⟩

/-- Soundness of the assignment recursion: relative to the pre-pass state,
every vertex that newly receives the root has an all-unassigned path to it. -/
theorem assignStep_sound (g0 σ0 : DiGraph) (root : String) (hwf : DiWF g0) :
    ∀ (f : ℕ) (σ : DiGraph) (vs : List String) (σ2 : DiGraph),
    assignStep f σ vs root = some σ2 →
    DiSkel σ = DiSkel g0 →
    (∀ x k, rep σ0 x = some k → rep σ x = some k) →
    (∀ z, rep σ0 z = none → rep σ z = some root →
      UPath g0 (fun y => rep σ0 y = none) z root) →
    (∀ v ∈ vs, rep σ0 v = none → UPath g0 (fun y => rep σ0 y = none) v root) →
    (∀ z, rep σ0 z = none → rep σ2 z = some root →
      UPath g0 (fun y => rep σ0 y = none) z root) := by
  intro f
  induction f with
  | zero =>
    intro σ vs σ2 h
    rw [assignStep] at h
    exact Option.noConfusion h
  | succ f ih =>
    intro σ vs σ2 h hskel hkeep hi hvs
    cases vs with
    | nil =>
      rw [assignStep] at h
      cases Option.some.inj h
      exact hi
    | cons v vs =>
      rw [assignStep] at h
      cases hg : getNode σ v with
      | none =>
        rw [hg] at h
        exact ih σ vs σ2 h hskel hkeep hi (fun v2 hv2 => hvs v2 (List.mem_cons_of_mem _ hv2))
      | some nd =>
        rw [hg] at h
        simp only [] at h
        have hvrep : rep σ v = nd._scc_rep := by
          unfold rep
          rw [hg]
        cases hrep : nd._scc_rep with
        | some k0 =>
          rw [hrep] at h
          exact ih σ vs σ2 h hskel hkeep hi
            (fun v2 hv2 => hvs v2 (List.mem_cons_of_mem _ hv2))
        | none =>
          rw [hrep] at h
          simp only [] at h
          have hvnone : rep σ v = none := by rw [hvrep, hrep]
          have hv0none : rep σ0 v = none := by
            cases h0 : rep σ0 v with
            | none => rfl
            | some k =>
              rw [hkeep v k h0] at hvnone
              exact Option.noConfusion hvnone
          have hgood_v : UPath g0 (fun y => rep σ0 y = none) v root :=
            hvs v (List.mem_cons_self _ _) hv0none
          cases hsub : assignStep f (setRep σ v root) nd._in root with
          | none =>
            rw [hsub] at h
            exact Option.noConfusion h
          | some σa =>
            rw [hsub] at h
            simp only [] at h
            obtain ⟨nd0, hnd0, _, hin0, _⟩ := skel_getNode_some hskel hg
            have hskel_sv : DiSkel (setRep σ v root) = DiSkel g0 := by
              rw [DiSkel_setRep]
              exact hskel
            have hkeep_sv : ∀ x k, rep σ0 x = some k → rep (setRep σ v root) x = some k := by
              intro x k hx
              by_cases hxv : x = v
              · subst hxv
                rw [hx] at hv0none
                exact Option.noConfusion hv0none
              · rw [rep_setRep_other σ v root hxv]
                exact hkeep x k hx
            have hi_sv : ∀ z, rep σ0 z = none → rep (setRep σ v root) z = some root →
                UPath g0 (fun y => rep σ0 y = none) z root := by
              intro z hz0 hz
              by_cases hzv : z = v
              · subst hzv
                exact hgood_v
              · rw [rep_setRep_other σ v root hzv] at hz
                exact hi z hz0 hz
            have hvs_in : ∀ p ∈ nd._in, rep σ0 p = none →
                UPath g0 (fun y => rep σ0 y = none) p root := by
              intro p hp hp0
              have hedge : edgeStep g0 p v :=
                edge_of_mem_in hwf hnd0 (by rw [hin0]; exact hp)
              exact ⟨hp0, Relation.ReflTransGen.head ⟨hedge, hv0none⟩ hgood_v.2⟩
            have hia := ih (setRep σ v root) nd._in σa hsub hskel_sv hkeep_sv hi_sv hvs_in
            obtain ⟨a1, a2, _, _, _⟩ := assignStep_spec root f (setRep σ v root) nd._in σa hsub
            refine ih σa vs σ2 h (by rw [a1]; exact hskel_sv) ?_ hia
              (fun v2 hv2 => hvs v2 (List.mem_cons_of_mem _ hv2))
            intro x k hx
            exact a2 x k (hkeep_sv x k hx)

/-- One full `_assign(r, r)` call: it succeeds within `assignFuel`, keeps
the skeleton and all existing representatives, and assigns `r` to exactly
the unassigned vertices with an all-unassigned path to `r`. -/
theorem assign_run (g0 : DiGraph) (hwf : DiWF g0) (r : String) (σ : DiGraph)
    (hskel : DiSkel σ = DiSkel g0) (hr : r ∈ nodeIds g0) :
    ∃ σ2, assignStep (assignFuel σ) σ [r] r = some σ2 ∧ DiSkel σ2 = DiSkel g0 ∧
      (∀ x k, rep σ x = some k → rep σ2 x = some k) ∧
      (∀ x, rep σ x = none →
        (rep σ2 x = some r ↔ UPath g0 (fun y => rep σ y = none) x r)) ∧
      (∀ x k, rep σ2 x = some k → rep σ x = some k ∨ (k = r ∧ rep σ x = none)) := by
  obtain ⟨σ2, hrun⟩ := assignStep_completes g0 r (assignFuel σ) σ [r] hskel
    (by
      have hb := assignFuel_adequate g0 hwf.1 σ hskel
      simp only [List.length_singleton]
      omega)
  obtain ⟨s1, s2, s3, s4, s5⟩ := assignStep_spec r (assignFuel σ) σ [r] σ2 hrun
  have hskel2 : DiSkel σ2 = DiSkel g0 := by rw [s1]; exact hskel
  have hsound := assignStep_sound g0 σ r hwf (assignFuel σ) σ [r] σ2 hrun hskel
    (fun x k hx => hx)
    (by
      intro z hz0 hz
      rw [hz0] at hz
      exact Option.noConfusion hz)
    (by
      intro v hv hv0
      have hvr : v = r := List.mem_singleton.mp hv
      subst hvr
      exact ⟨hv0, Relation.ReflTransGen.refl⟩)
  refine ⟨σ2, hrun, hskel2, s2, ?_, s3⟩
  intro x hx0
  constructor
  · intro hx2
    exact hsound x hx0 hx2
  · rintro ⟨hxU, hchain⟩
    have hcomp : ∀ z, Relation.ReflTransGen (UStep g0 (fun y => rep σ y = none)) z r →
        rep σ z = none → rep σ2 z = some r := by
      intro z hc
      induction hc using Relation.ReflTransGen.head_induction_on with
      | refl =>
        intro hrnone
        have hrr := s4 r (List.mem_singleton.mpr rfl)
          (by rw [skel_nodeIds hskel]; exact hr)
        cases hk : rep σ2 r with
        | none => exact absurd hk hrr
        | some k =>
          rcases s3 r k hk with hk2 | ⟨hk2, _⟩
          · rw [hrnone] at hk2
            exact Option.noConfusion hk2
          · rw [hk2]
      | head hstep hchain2 ih2 =>
        rename_i zz bb
        intro hznone
        obtain ⟨hedge, hUb⟩ := hstep
        have hb2 := ih2 hUb
        obtain ⟨ndz, hndz, hbout⟩ := hedge
        have hzreg : zz ∈ nodeIds g0 := getNode_mem_nodeIds hndz
        have hbreg : bb ∈ nodeIds g0 :=
          (hwf.2.1 (zz, ndz) (alookup_mem hndz)).2.1 bb hbout
        have hbreg2 : (alookup σ2.nodes bb).isSome := by
          refine (alookup_isSome_iff_mem σ2.nodes bb).mpr ?_
          show bb ∈ nodeIds σ2
          rw [skel_nodeIds hskel2]
          exact hbreg
        cases hndb2 : getNode σ2 bb with
        | none =>
          unfold getNode at hndb2
          rw [hndb2] at hbreg2
          exact Bool.noConfusion hbreg2
        | some ndb2 =>
          obtain ⟨ndb0, hndb0, _, hinb0, _⟩ := skel_getNode_some hskel2 hndb2
          have hmirror := hwf.2.2 (zz, ndz) (alookup_mem hndz) (bb, ndb0) (alookup_mem hndb0)
          have hz_in0 := hmirror.mp hbout
          have hz_in : zz ∈ ndb2._in := by
            rw [← hinb0]
            exact hz_in0
          have hcl := s5 bb hUb hb2 ndb2 hndb2 zz hz_in
            (by rw [skel_nodeIds hskel]; exact hzreg)
          cases hk : rep σ2 zz with
          | none => exact absurd hk hcl
          | some k =>
            rcases s3 zz k hk with hk2 | ⟨hk2, _⟩
            · rw [hznone] at hk2
              exact Option.noConfusion hk2
            · rw [hk2]
    exact hcomp x hchain hx0

/-- A path whose every intermediate vertex satisfies `U` refines to a
`U`-constrained path. -/
theorem reach_upath {g : DiGraph} {U : String → Prop} :
    ∀ {v u : String}, Reach g v u →
    (∀ w, Reach g v w → Reach g w u → U w) → UPath g U v u := by
  intro v u h
  induction h with
  | refl =>
    intro hw
    exact ⟨hw v Relation.ReflTransGen.refl Relation.ReflTransGen.refl,
      Relation.ReflTransGen.refl⟩
  | tail h1 h2 ih =>
    rename_i b c
    intro hw
    have hU := ih (fun w hvw hwb => hw w hvw (hwb.tail h2))
    exact ⟨hU.1, hU.2.tail ⟨h2, hw c (h1.tail h2) Relation.ReflTransGen.refl⟩⟩

/-- Through the whole second pass, mutually reachable vertices always carry
the same representative. -/
theorem pass2_spec (g0 : DiGraph) (hwf : DiWF g0) :
    ∀ (ord : List String) (σ : DiGraph),
    DiSkel σ = DiSkel g0 →
    (∀ x ∈ ord, x ∈ nodeIds g0) →
    (∀ u v, MutualReach g0 u v → rep σ u = rep σ v) →
    ∃ σ2, pass2 σ ord = some σ2 ∧ DiSkel σ2 = DiSkel g0 ∧
      (∀ u v, MutualReach g0 u v → rep σ2 u = rep σ2 v) := by
  intro ord
  induction ord with
  | nil =>
    intro σ h1 _ h3
    exact ⟨σ, rfl, h1, h3⟩
  | cons rr ord ih =>
    intro σ h1 h2 h3
    have hrreg : rr ∈ nodeIds g0 := h2 rr (List.mem_cons_self _ _)
    obtain ⟨σa, hrun, ha1, ha2, ha3, ha4⟩ := assign_run g0 hwf rr σ h1 hrreg
    have hP : ∀ u v, MutualReach g0 u v → rep σa u = rep σa v := by
      intro u v hmr
      have huv := h3 u v hmr
      cases hu : rep σ u with
      | some k =>
        have hv : rep σ v = some k := by
          rw [← huv, hu]
        rw [ha2 u k hu, ha2 v k hv]
      | none =>
        have hv : rep σ v = none := by
          rw [← huv, hu]
        have hiu := ha3 u hu
        have hiv := ha3 v hv
        have hequiv : UPath g0 (fun y => rep σ y = none) u rr ↔
            UPath g0 (fun y => rep σ y = none) v rr := by
          constructor
          · intro hUu
            have hvu : UPath g0 (fun y => rep σ y = none) v u := by
              refine reach_upath hmr.2 ?_
              intro w hvw hwu
              have hw_mr : MutualReach g0 u w := ⟨hmr.1.trans hvw, hwu⟩
              have hthis := h3 u w hw_mr
              rw [← hthis]
              exact hu
            exact ⟨hvu.1, hvu.2.trans hUu.2⟩
          · intro hUv
            have huv2 : UPath g0 (fun y => rep σ y = none) u v := by
              refine reach_upath hmr.1 ?_
              intro w huw hwv
              have hw_mr : MutualReach g0 u w := ⟨huw, hwv.trans hmr.2⟩
              have hthis := h3 u w hw_mr
              rw [← hthis]
              exact hu
            exact ⟨huv2.1, huv2.2.trans hUv.2⟩
        by_cases hup : UPath g0 (fun y => rep σ y = none) u rr
        · rw [hiu.mpr hup, hiv.mpr (hequiv.mp hup)]
        · have hnu : rep σa u = none := by
            cases hk : rep σa u with
            | none => rfl
            | some k =>
              rcases ha4 u k hk with hk2 | ⟨hk2, _⟩
              · rw [hu] at hk2
                exact Option.noConfusion hk2
              · rw [hk2] at hk
                exact absurd (hiu.mp hk) hup
          have hnv : rep σa v = none := by
            cases hk : rep σa v with
            | none => rfl
            | some k =>
              rcases ha4 v k hk with hk2 | ⟨hk2, _⟩
              · rw [hv] at hk2
                exact Option.noConfusion hk2
              · rw [hk2] at hk
                exact absurd (hiv.mp hk) (fun hq => hup (hequiv.mpr hq))
          rw [hnu, hnv]
    obtain ⟨σ2, hp2, hb1, hb3⟩ := ih σa ha1
      (fun x hx => h2 x (List.mem_cons_of_mem _ hx)) hP
    refine ⟨σ2, ?_, hb1, hb3⟩
    rw [pass2, List.foldl_cons]
    simp only []
    rw [hrun]
    exact hp2

theorem join_aupdate_perm (v : String) (k : Option String) :
    ∀ (gs : List (Option String × List String)) (b : List String),
    alookup gs k = some b →
    ((aupdate (fun l => l ++ [v]) k gs).map Prod.snd).join.Perm
      (((gs.map Prod.snd).join) ++ [v]) := by
  intro gs
  induction gs with
  | nil =>
    intro b h
    exact absurd h (by simp [alookup])
  | cons p rest ih =>
    intro b h
    obtain ⟨pk, pl⟩ := p
    by_cases hk : pk = k
    · rw [aupdate, if_pos hk]
      simp only [List.map_cons, List.join_cons]
      have h1 : (pl ++ [v]) ++ (rest.map Prod.snd).join
          = pl ++ ([v] ++ (rest.map Prod.snd).join) := List.append_assoc _ _ _
      have h3 : pl ++ ((rest.map Prod.snd).join ++ [v])
          = (pl ++ (rest.map Prod.snd).join) ++ [v] := (List.append_assoc _ _ _).symm
      rw [h1, ← h3]
      exact List.Perm.append_left pl List.perm_append_comm
    · rw [aupdate, if_neg hk]
      rw [alookup, if_neg hk] at h
      simp only [List.map_cons, List.join_cons]
      have h3 : pl ++ ((rest.map Prod.snd).join ++ [v])
          = (pl ++ (rest.map Prod.snd).join) ++ [v] := (List.append_assoc _ _ _).symm
      rw [← h3]
      exact List.Perm.append_left pl (ih b h)

theorem bucketAdd_join_perm (gs : List (Option String × List String))
    (k : Option String) (v : String) :
    ((bucketAdd gs k v).map Prod.snd).join.Perm (((gs.map Prod.snd).join) ++ [v]) := by
  unfold bucketAdd
  cases hl : alookup gs k with
  | some b =>
    simp only []
    exact join_aupdate_perm v k gs b hl
  | none =>
    simp only []
    have he : ((gs ++ [(k, [v])]).map Prod.snd).join = (gs.map Prod.snd).join ++ [v] := by
      simp
    rw [he]

theorem groups_fold_join_perm :
    ∀ (ns : List (String × Node)) (gs0 : List (Option String × List String)),
    ((ns.foldl (fun gs p => bucketAdd gs p.2._scc_rep p.1) gs0).map Prod.snd).join.Perm
      (((gs0.map Prod.snd).join) ++ ns.map Prod.fst) := by
  intro ns
  induction ns with
  | nil =>
    intro gs0
    rw [List.foldl_nil, List.map_nil, List.append_nil]
  | cons p ns ih =>
    intro gs0
    rw [List.foldl_cons]
    refine (ih (bucketAdd gs0 p.2._scc_rep p.1)).trans ?_
    have hb := (bucketAdd_join_perm gs0 p.2._scc_rep p.1).append_right (ns.map Prod.fst)
    refine hb.trans ?_
    rw [List.append_assoc, List.singleton_append, List.map_cons]

theorem groupsOf_join_perm (g : DiGraph) :
    (((groupsOf g).map Prod.snd).join).Perm (nodeIds g) := by
  unfold groupsOf
  have h := groups_fold_join_perm g.nodes []
  simp only [List.map_nil, List.join_nil, List.nil_append] at h
  exact h

theorem bucketAdd_self (gs : List (Option String × List String)) (k : Option String)
    (v : String) : ∃ l, alookup (bucketAdd gs k v) k = some l ∧ v ∈ l := by
  unfold bucketAdd
  cases hl : alookup gs k with
  | some b =>
    simp only []
    refine ⟨b ++ [v], ?_, List.mem_append_right _ (List.mem_singleton.mpr rfl)⟩
    rw [alookup_aupdate_eq, hl]
    rfl
  | none =>
    simp only []
    refine ⟨[v], ?_, List.mem_singleton.mpr rfl⟩
    rw [alookup_append_right _ hl]
    simp [alookup]

theorem bucketAdd_mono (gs : List (Option String × List String)) (k : Option String)
    (v : String) (k0 : Option String) (l0 : List String)
    (h : alookup gs k0 = some l0) :
    ∃ l2, alookup (bucketAdd gs k v) k0 = some l2 ∧ ∀ x ∈ l0, x ∈ l2 := by
  unfold bucketAdd
  by_cases hk : k0 = k
  · subst hk
    cases hl : alookup gs k0 with
    | some b =>
      simp only []
      refine ⟨b ++ [v], ?_, ?_⟩
      · rw [alookup_aupdate_eq, hl]
        rfl
      · rw [h] at hl
        cases Option.some.inj hl
        exact fun x hx => List.mem_append_left _ hx
    | none =>
      rw [h] at hl
      exact Option.noConfusion hl
  · cases hl : alookup gs k with
    | some b =>
      simp only []
      refine ⟨l0, ?_, fun x hx => hx⟩
      rw [alookup_aupdate_other _ hk]
      exact h
    | none =>
      simp only []
      exact ⟨l0, alookup_append_left _ h, fun x hx => hx⟩

theorem groups_fold_mem :
    ∀ (ns : List (String × Node)) (gs0 : List (Option String × List String)),
    (∀ (k0 : Option String) (l0 : List String) (x : String),
      alookup gs0 k0 = some l0 → x ∈ l0 →
      ∃ l2, alookup (ns.foldl (fun gs p => bucketAdd gs p.2._scc_rep p.1) gs0) k0
          = some l2 ∧ x ∈ l2) ∧
    (∀ p ∈ ns, ∃ l2, alookup
        (ns.foldl (fun gs p => bucketAdd gs p.2._scc_rep p.1) gs0) p.2._scc_rep
        = some l2 ∧ p.1 ∈ l2) := by
  intro ns
  induction ns with
  | nil =>
    intro gs0
    refine ⟨fun k0 l0 x h hx => ⟨l0, h, hx⟩, ?_⟩
    intro p hp
    exact absurd hp (List.not_mem_nil p)
  | cons p ns ih =>
    intro gs0
    constructor
    · intro k0 l0 x h hx
      rw [List.foldl_cons]
      obtain ⟨l1, hl1, hsub⟩ := bucketAdd_mono gs0 p.2._scc_rep p.1 k0 l0 h
      exact (ih (bucketAdd gs0 p.2._scc_rep p.1)).1 k0 l1 x hl1 (hsub x hx)
    · intro q hq
      rw [List.foldl_cons]
      rcases List.mem_cons.mp hq with hq | hq
      · subst hq
        obtain ⟨l1, hl1, hv⟩ := bucketAdd_self gs0 q.2._scc_rep q.1
        exact (ih (bucketAdd gs0 q.2._scc_rep q.1)).1 q.2._scc_rep l1 q.1 hl1 hv
      · exact (ih (bucketAdd gs0 p.2._scc_rep p.1)).2 q hq

theorem sameGroup_of_rep_eq (g2 : DiGraph) (u v : String)
    (hu : u ∈ nodeIds g2) (hv : v ∈ nodeIds g2) (h : rep g2 u = rep g2 v) :
    sameGroup (groupsOf g2) u v := by
  have hus : (alookup g2.nodes u).isSome := (alookup_isSome_iff_mem g2.nodes u).mpr hu
  have hvs : (alookup g2.nodes v).isSome := (alookup_isSome_iff_mem g2.nodes v).mpr hv
  cases hgu : alookup g2.nodes u with
  | none =>
    rw [hgu] at hus
    exact Bool.noConfusion hus
  | some ndu =>
    cases hgv : alookup g2.nodes v with
    | none =>
      rw [hgv] at hvs
      exact Bool.noConfusion hvs
    | some ndv =>
      have hrepu : rep g2 u = ndu._scc_rep := by
        unfold rep getNode
        rw [hgu]
      have hrepv : rep g2 v = ndv._scc_rep := by
        unfold rep getNode
        rw [hgv]
      have hkey : ndv._scc_rep = ndu._scc_rep := by
        rw [hrepu, hrepv] at h
        exact h.symm
      obtain ⟨lu, hlu, humem⟩ := (groups_fold_mem g2.nodes []).2 (u, ndu) (alookup_mem hgu)
      obtain ⟨lv, hlv, hvmem⟩ := (groups_fold_mem g2.nodes []).2 (v, ndv) (alookup_mem hgv)
      rw [hkey] at hlv
      have hgroups_u : alookup (groupsOf g2) ndu._scc_rep = some lu := hlu
      have hgroups_v : alookup (groupsOf g2) ndu._scc_rep = some lv := hlv
      rw [hgroups_u] at hgroups_v
      cases Option.some.inj hgroups_v
      exact ⟨(ndu._scc_rep, lu), alookup_mem hgroups_u, humem, hvmem⟩

/-- Claim C4: on a well-formed directed graph `kosaraju_scc` succeeds and
its grouping lists every vertex exactly once (the concatenation of the
groups is duplicate-free and covers exactly the vertex set), two mutually
reachable vertices always share a group, the 3-cycle collapses to the
single group {A,B,C}, and the two disjoint edges give four singletons. -/
theorem kosaraju_scc_partitions :
    (∀ g : DiGraph, DiWF g →
      ∃ gs, kosaraju_scc g = some gs ∧
        ((gs.map Prod.snd).join.Nodup ∧
          ∀ v, v ∈ (gs.map Prod.snd).join ↔ v ∈ nodeIds g) ∧
        (∀ u v, u ∈ nodeIds g → v ∈ nodeIds g → MutualReach g u v →
          sameGroup gs u v)) ∧
    kosaraju_scc cycleG = some [(some "A", ["A", "B", "C"])] ∧
    kosaraju_scc disjG = some [(some "A", ["A"]), (some "B", ["B"]),
      (some "C", ["C"]), (some "D", ["D"])] := by
  refine ⟨?_, by decide, by decide⟩
  intro g hwf
  obtain ⟨g1, ord, hp1, hs1, hrep1, hord⟩ := pass1_ok g hwf.1
  obtain ⟨σ2, hp2, hs2, hP⟩ := pass2_spec g hwf ord g1 hs1 hord
    (fun u v _ => by rw [hrep1 u, hrep1 v])
  refine ⟨groupsOf σ2, ?_, ⟨?_, ?_⟩, ?_⟩
  · rw [kosaraju_scc, hp1]
    simp only []
    rw [hp2]
  · have hperm := groupsOf_join_perm σ2
    refine hperm.nodup_iff.mpr ?_
    rw [skel_nodeIds hs2]
    exact hwf.1
  · intro v
    have hperm := groupsOf_join_perm σ2
    rw [hperm.mem_iff, skel_nodeIds hs2]
  · intro u v hu hv hmr
    exact sameGroup_of_rep_eq σ2 u v
      (by rw [skel_nodeIds hs2]; exact hu)
      (by rw [skel_nodeIds hs2]; exact hv)
      (hP u v hmr)

/-- Concrete instantiation of `kosaraju_scc_partitions` on the 3-cycle. -/
theorem kosaraju_scc_partitions_witness :
    DiWF cycleG ∧
    ∃ gs, kosaraju_scc cycleG = some gs ∧
      ((gs.map Prod.snd).join.Nodup ∧
        ∀ v, v ∈ (gs.map Prod.snd).join ↔ v ∈ nodeIds cycleG) ∧
      (∀ u v, u ∈ nodeIds cycleG → v ∈ nodeIds cycleG → MutualReach cycleG u v →
        sameGroup gs u v) :=
  ⟨by decide, kosaraju_scc_partitions.1 cycleG (by decide)⟩

end Directed
